import Mathlib

/-! The inode layer of Pintos (`src/filesys/inode.c`).

A shallow embedding of the indexed-file code: the on-disk record, the block map
(`_byte_to_sector`, `inode_allocate`, `inode_deallocate`), the table of open inodes and
byte-range reads and writes with growth.

Conventions of the embedding.

* A sector, and every 512-byte C object that is read from or written to the device
  (`struct inode_disk`, `struct inode_indirect_pointer`, the bounce buffer), is a function from
  byte index to byte value.  Fields of the C structs are read and written through little-endian
  word accessors at the offsets the C compiler gives them on the 32-bit target.
* `off_t` and `int` values are `Int`; the places where the C arithmetic can leave the 32-bit
  range are wrapped explicitly with `to_off_t`.  `block_sector_t` and `size_t` values are `Nat`.
* A kernel panic (a failed `ASSERT`, `NOT_REACHED`, a wild pointer) is the result `none`.
* The global variables are the fields of `World`: the device `fs_device` and the free map in
  `Disk`, and the list `open_inodes`.
-/

namespace Pintos

/-! ## Constants and raw memory -/

/-- Modelled from the spec: `BLOCK_SECTOR_SIZE` of devices/block.h, which is not part of the
sources at hand; the spec fixes the sector size at 512 bytes. -/
def BLOCK_SECTOR_SIZE : Nat := 512

/-- Modelled from the spec: `sizeof (block_sector_t)`; a sector number is a 32-bit unsigned
index, four bytes. -/
def sizeof_block_sector_t : Nat := 4

/-- The constant `INODE_MAGIC`. -/
def INODE_MAGIC : Nat := 0x494e4f44

/-- The constant `NUM_OF_DIRECT_POINTER`. -/
def NUM_OF_DIRECT_POINTER : Nat := 120

/-- The constant `NUM_OF_INDIRECT_POINTER`. -/
def NUM_OF_INDIRECT_POINTER : Nat := 4

/-- The largest file the block map addresses, in sectors: 120 + 4 * 128 + 128 * 128. -/
def MAX_SECTORS : Nat := 17016

/-- A 512-byte object: byte index to byte value.  Only the indices below 512 are meaningful. -/
abbrev Sector := Nat → Nat

/-- A caller's byte buffer (`uint8_t *`), indexed from its first byte. -/
abbrev Buffer := Nat → Nat

/-- The static all-zero sector `zeros` of `_inode_allocate`. -/
def zeros : Sector := fun _ => 0

/-- Reads the little-endian 32-bit word number `j` of a 512-byte object. -/
def get_word (s : Sector) (j : Nat) : Nat :=
  s (4 * j) % 256 + 256 * (s (4 * j + 1) % 256) + 65536 * (s (4 * j + 2) % 256)
    + 16777216 * (s (4 * j + 3) % 256)

/-- Stores the 32-bit value `v` as little-endian word number `j` of a 512-byte object. -/
def set_word (s : Sector) (j v : Nat) : Sector := fun k =>
  if k / 4 = j then v / 256 ^ (k % 4) % 256 else s k

/-- Conversion of an integer to `off_t` / `int`: the value is reduced into the signed 32-bit
range, as the two's complement machine does. -/
@[irreducible] def to_off_t (x : Int) : Int := (2147483648 + x) % 4294967296 - 2147483648

/-- Conversion of an integer to `size_t` / `block_sector_t`: reduction modulo 2^32. -/
@[irreducible] def to_size_t (x : Int) : Nat := (x % 4294967296).toNat

/-- The value a C `int` holds after an arithmetic step with the exact result `x`: the counters
`open_cnt` and `deny_write_cnt` are 32 bits wide and `++` and `--` wrap around on the
target. -/
@[irreducible] def to_int (x : Int) : Int := (2147483648 + x) % 4294967296 - 2147483648

/-- The value `(block_sector_t) -1`. -/
def SECTOR_NONE : Nat := 4294967295

/-! ## The on-disk inode `struct inode_disk`

Field offsets: `direct_pointer` words 0..119, `indirect_pointer` words 120..123,
`double_indirect_pointer` word 124, `length` word 125, `is_dir` byte 504, `magic` word 127. -/

/-- The C type `struct inode_disk`, one sector of raw bytes. -/
abbrev inode_disk := Sector

/-- The C type `struct inode_indirect_pointer`: its `sector_ptr [j]` is word `j`. -/
abbrev inode_indirect_pointer := Sector

/-- Field `direct_pointer [i]`. -/
def direct_pointer (d : inode_disk) (i : Nat) : Nat := get_word d i

/-- Field `indirect_pointer [i]`. -/
def indirect_pointer (d : inode_disk) (i : Nat) : Nat := get_word d (NUM_OF_DIRECT_POINTER + i)

/-- Field `double_indirect_pointer`. -/
def double_indirect_pointer (d : inode_disk) : Nat := get_word d 124

/-- Field `length`, a signed 32-bit value. -/
def disk_length (d : inode_disk) : Int := to_off_t (get_word d 125)

/-- Field `is_dir`, one byte. -/
def disk_is_dir (d : inode_disk) : Bool := decide (d 504 % 256 ≠ 0)

/-- Field `magic`. -/
def disk_magic (d : inode_disk) : Nat := get_word d 127

/-- The assignment `d->length = v`. -/
def set_length (d : inode_disk) (v : Int) : inode_disk := set_word d 125 (to_size_t v)

/-- The assignment `d->magic = v`. -/
def set_magic (d : inode_disk) (v : Nat) : inode_disk := set_word d 127 v

/-- The assignment `d->is_dir = b`. -/
def set_is_dir (d : inode_disk) (b : Bool) : inode_disk := fun k =>
  if k = 504 then (if b then 1 else 0) else d k

/-- Modelled from the spec: the macro `DIV_ROUND_UP (X, STEP)` of round.h, which is not part
of the sources at hand; the spec computes the sector count as the byte count divided by 512
and rounded up, which is `((X) + (STEP) - 1) / (STEP)` with the division of C. -/
def DIV_ROUND_UP (x step : Int) : Int := Int.tdiv (x + step - 1) step

/-- The function `bytes_to_sectors`; its result is a `size_t`. -/
def bytes_to_sectors (size : Int) : Nat := to_size_t (DIV_ROUND_UP size BLOCK_SECTOR_SIZE)

/-! ## The world: device, free map and open inodes -/

/-- Modelled from the spec: the external FreeMap (free-map.c is not part of the sources at
hand).  `free` lists the sectors the allocator will hand out, in order; `released` logs every
sector passed to `free_map_release`, oldest first. -/
structure FreeMap where
  /-- the sectors still free, in the order `free_map_allocate` hands them out -/
  free : List Nat
  /-- the log of the calls of `free_map_release` -/
  released : List Nat

/-- Modelled from the spec: `free_map_allocate (1, ptr)`, the FreeMap operation `allocate_one`:
the next free sector, or failure when none is left. -/
def free_map_allocate (fm : FreeMap) : Option (Nat × FreeMap) :=
  match fm.free with
  | [] => none
  | s :: rest => some (s, { fm with free := rest })

/-- Modelled from the spec: `free_map_release (sector, 1)`, the FreeMap operation `release`. -/
def free_map_release (fm : FreeMap) (sector : Nat) : FreeMap :=
  { free := fm.free ++ [sector], released := fm.released ++ [sector] }

/-- The in-memory inode `struct inode` (the list element and the lock carry no data).  The
counters are C `int` fields: the functions that step them reduce the result with `to_int`. -/
structure inode where
  /-- sector number of the disk location -/
  sector : Nat
  /-- number of openers -/
  open_cnt : Int
  /-- true if deleted -/
  removed : Bool
  /-- 0: writes ok, >0: deny writes -/
  deny_write_cnt : Int
  /-- the cached on-disk inode -/
  data : inode_disk

/-- The persistent state: the block device `fs_device` and the free map. -/
structure Disk where
  /-- Modelled from the spec: the block device `fs_device`, a fixed-size flat array of 512-byte
  sectors; this is the number of its sectors -/
  fs_device_size : Nat
  /-- the contents of the sectors of `fs_device` -/
  fs_device : Nat → Sector
  /-- the free map -/
  free_map : FreeMap

/-- The global state the inode layer works on. -/
structure World where
  /-- the block device and the free map -/
  disk : Disk
  /-- the list `open_inodes`; an element is the address of a `struct inode` and its contents,
  in list order (front first) -/
  open_inodes : List (Nat × inode)

/-- Modelled from the spec: `block_read (fs_device, sector, buf)`, the BlockDevice operation
`read_sector`, which completes fully or panics; an access past the end of the device panics. -/
def block_read (d : Disk) (sector : Nat) : Option Sector :=
  if sector < d.fs_device_size then some (d.fs_device sector) else none

/-- Modelled from the spec: `block_write (fs_device, sector, buf)`, the BlockDevice operation
`write_sector`, which completes fully or panics: exactly 512 bytes of `buf` are stored; an
access past the end of the device panics. -/
def block_write (d : Disk) (sector : Nat) (buf : Sector) : Option Disk :=
  if sector < d.fs_device_size then
    some { d with fs_device := fun s =>
      if s = sector then (fun k => if k < 512 then buf k else 0) else d.fs_device s }
  else none

/-- The inode object at address `p`, if `p` points to an element of the list. -/
def inode_at : List (Nat × inode) → Nat → Option inode
  | [], _ => none
  | (a, i) :: rest, p => if a = p then some i else inode_at rest p

/-- Stores `i` into the object at address `p`. -/
def inode_store : List (Nat × inode) → Nat → inode → List (Nat × inode)
  | [], _, _ => []
  | (a, j) :: rest, p, i => if a = p then (a, i) :: rest else (a, j) :: inode_store rest p i

/-- The operation `list_remove (&inode->elem)` for the object at address `p`. -/
def inode_unlink : List (Nat × inode) → Nat → List (Nat × inode)
  | [], _ => []
  | (a, j) :: rest, p => if a = p then rest else (a, j) :: inode_unlink rest p

/-- An address `malloc` may return for a new `struct inode`: one not in use by a live inode. -/
def fresh_addr : List (Nat × inode) → Nat
  | [] => 0
  | (a, _) :: rest => max (a + 1) (fresh_addr rest)

/-! ## Lookup -/

/-- The `for` loop over the indirect pointers in `_byte_to_sector`, entered at iteration `i`
with `k` iterations to go.  `Sum.inl ret` is the value returned from inside the loop,
`Sum.inr (sector_limit, cur_base)` the variables when the loop runs to its end; `none` is a
panic. -/
def _byte_to_sector_loop (d : Disk) (inoded : inode_disk) (sector_idx : Int) :
    Nat → Nat → Int → Int → Option (Sum Nat (Int × Int))
  | 0, _, sector_limit, cur_base => some (Sum.inr (sector_limit, cur_base))
  | k + 1, i, sector_limit, cur_base =>
    -- sector_limit += INDIRECT_POINTERS_PRE_SECTOR * 1, i.e. 512 / 4 * 1
    let sector_limit := sector_limit + BLOCK_SECTOR_SIZE / sizeof_block_sector_t * 1
    if sector_idx < sector_limit then
      match block_read d (indirect_pointer inoded i) with
      | none => none
      | some indptr =>
        let indirect_offset := sector_idx - cur_base
        some (Sum.inl (get_word indptr indirect_offset.toNat))
    else
      _byte_to_sector_loop d inoded sector_idx k (i + 1) sector_limit sector_limit

/-- The function `_byte_to_sector`: the device sector of logical sector `sector_idx`; `none` is
a panic.  For a negative `sector_idx` the code reads `inoded->direct_pointer[sector_idx]`, in
front of the array, and goes on with what the memory there holds; that memory is not part of
this embedding, which gives `none` there as well and is exact for `sector_idx ≥ 0`.

The macro `INDIRECT_POINTERS_PRE_SECTOR` is `BLOCK_SECTOR_SIZE / sizeof(block_sector_t)` with
no parentheses, so each use is expanded textually: `x / INDIRECT_POINTERS_PRE_SECTOR` is
`x / 512 / 4` and `x % INDIRECT_POINTERS_PRE_SECTOR` is `x % 512 / 4`. -/
def _byte_to_sector (d : Disk) (inoded : inode_disk) (sector_idx : Int) : Option Nat :=
  let sector_limit : Int := NUM_OF_DIRECT_POINTER * 1
  if sector_idx < sector_limit then
    -- a negative index reads in front of the array: not held by the embedding
    if 0 ≤ sector_idx then some (direct_pointer inoded sector_idx.toNat) else none
  else
    match _byte_to_sector_loop d inoded sector_idx NUM_OF_INDIRECT_POINTER 0
        sector_limit sector_limit with
    | none => none
    | some (Sum.inl ret) => some ret
    | some (Sum.inr (sector_limit, cur_base)) =>
      -- sector_limit += INDIRECT_POINTERS_PRE_SECTOR * 1 * INDIRECT_POINTERS_PRE_SECTOR * 1
      let sector_limit := sector_limit
        + BLOCK_SECTOR_SIZE / sizeof_block_sector_t * 1 * BLOCK_SECTOR_SIZE
            / sizeof_block_sector_t * 1
      if sector_idx < sector_limit then
        match block_read d (double_indirect_pointer inoded) with
        | none => none
        | some level1ptr =>
          let first_level_off :=
            Int.tdiv (Int.tdiv (sector_idx - cur_base) BLOCK_SECTOR_SIZE) sizeof_block_sector_t
          match block_read d (get_word level1ptr first_level_off.toNat) with
          | none => none
          | some level2ptr =>
            let second_level_off :=
              Int.tdiv (Int.tmod (sector_idx - cur_base) BLOCK_SECTOR_SIZE) sizeof_block_sector_t
            some (get_word level2ptr second_level_off.toNat)
      else
        none -- NOT_REACHED

/-- The function `inode_length`. -/
def inode_length (i : inode) : Int := disk_length i.data

/-- The function `inode_get_inumber`. -/
def inode_get_inumber (i : inode) : Nat := i.sector

/-- The function `inode_is_directory`. -/
def inode_is_directory (i : inode) : Bool := disk_is_dir i.data

/-- The function `inode_is_removed`. -/
def inode_is_removed (i : inode) : Bool := i.removed

/-- The function `byte_to_sector (inode, pos)`: the sector holding byte `pos`, or
`(block_sector_t) -1` when the inode has no data at `pos`; `none` is a panic.  Of the inode
the function uses the cached record `inode->data` only, which is the argument `inoded`. -/
def byte_to_sector (d : Disk) (inoded : inode_disk) (pos : Int) : Option Nat :=
  if pos < disk_length inoded then
    _byte_to_sector d inoded (Int.tdiv pos BLOCK_SECTOR_SIZE)
  else some SECTOR_NONE

/-! ## Allocation -/

/-- The helper `_inode_allocate (ptr)`, where `ptr` points at word `j` of the object `buf`:
a slot holding 0 gets a fresh sector from the free map, which is filled with zeros on the
device.  The boolean is the return value; `none` is a panic. -/
def _inode_allocate (d : Disk) (buf : Sector) (j : Nat) : Option (Bool × Sector × Disk) :=
  if get_word buf j = 0 then
    match free_map_allocate d.free_map with
    | none => some (false, buf, d)
    | some (s, fm) =>
      match block_write { d with free_map := fm } s zeros with
      | none => none
      | some d => some (true, set_word buf j s, d)
  else some (true, buf, d)

/-- The loops `for (j = 0; j < n; j++) if (!_inode_allocate (&slot[j])) return false;` of
`inode_allocate`, over the words `base + i`, `base + i + 1`, ... of `buf`, with `k` iterations
to go.  The boolean is false when an iteration made the function return false. -/
def allocate_slots (base : Nat) : Nat → Nat → Disk → Sector → Option (Bool × Sector × Disk)
  | 0, _, d, buf => some (true, buf, d)
  | k + 1, i, d, buf =>
    match _inode_allocate d buf (base + i) with
    | none => none
    | some (false, buf, d) => some (false, buf, d)
    | some (true, buf, d) => allocate_slots base k (i + 1) d buf

/-- The loop over the indirect pointers in `inode_allocate`, entered at iteration `i` with `k`
iterations to go.  The first component is `some b` when the function returned `b` inside the
loop and `none` when the loop ran to its end; the last is `num_of_sectors`. -/
def inode_allocate_indirect :
    Nat → Nat → Disk → inode_disk → Nat → Option (Option Bool × inode_disk × Disk × Nat)
  | 0, _, d, inoded, num_of_sectors => some (none, inoded, d, num_of_sectors)
  | k + 1, i, d, inoded, num_of_sectors =>
    match _inode_allocate d inoded (NUM_OF_DIRECT_POINTER + i) with
    | none => none
    | some (false, inoded, d) => some (some false, inoded, d, num_of_sectors)
    | some (true, inoded, d) =>
      match block_read d (indirect_pointer inoded i) with
      | none => none
      | some indptr =>
        let n := if num_of_sectors < BLOCK_SECTOR_SIZE / sizeof_block_sector_t
          then num_of_sectors else BLOCK_SECTOR_SIZE / sizeof_block_sector_t
        match allocate_slots 0 n 0 d indptr with
        | none => none
        | some (false, _, d) => some (some false, inoded, d, num_of_sectors)
        | some (true, indptr, d) =>
          match block_write d (indirect_pointer inoded i) indptr with
          | none => none
          | some d =>
            let num_of_sectors := num_of_sectors - n
            if num_of_sectors = 0 then some (some true, inoded, d, num_of_sectors)
            else inode_allocate_indirect k (i + 1) d inoded num_of_sectors

/-- The loop over the slots of the double-indirect sector in `inode_allocate`, entered at
iteration `i` with `k` iterations to go.  `stack` is the 512 bytes of kernel stack that start
at the local variable `level1ptr`: the final `block_write` is handed `&level1ptr`, the address
of the pointer variable, and not the buffer `level1ptr` points to.  The first component is
`some b` when the function returned `b` and `none` when the loop ran to its end. -/
def inode_allocate_double (stack : Sector) (inoded : inode_disk) :
    Nat → Nat → Disk → inode_indirect_pointer → Nat → Option (Option Bool × Disk)
  | 0, _, d, _, _ => some (none, d)
  | k + 1, i, d, level1ptr, num_of_sectors =>
    match _inode_allocate d level1ptr i with
    | none => none
    | some (false, _, d) => some (some false, d)
    | some (true, level1ptr, d) =>
      match block_read d (get_word level1ptr i) with
      | none => none
      | some level2ptr =>
        let n := if num_of_sectors < BLOCK_SECTOR_SIZE / sizeof_block_sector_t
          then num_of_sectors else BLOCK_SECTOR_SIZE / sizeof_block_sector_t
        match allocate_slots 0 n 0 d level2ptr with
        | none => none
        | some (false, _, d) => some (some false, d)
        | some (true, level2ptr, d) =>
          match block_write d (get_word level1ptr i) level2ptr with
          | none => none
          | some d =>
            let num_of_sectors := num_of_sectors - n
            if num_of_sectors = 0 then
              match block_write d (double_indirect_pointer inoded) stack with
              | none => none
              | some d => some (some true, d)
            else inode_allocate_double stack inoded k (i + 1) d level1ptr num_of_sectors

/-- The function `inode_allocate (inoded, length)`.  The result is `none` on a panic; otherwise
the return value, the record `*inoded` as the call leaves it, and the world. -/
def inode_allocate (stack : Sector) (d : Disk) (inoded : inode_disk) (length : Int) :
    Option (Bool × inode_disk × Disk) :=
  if length < 0 then none -- ASSERT (length >= 0)
  else
    let num_of_sectors := bytes_to_sectors length
    let n := if num_of_sectors < NUM_OF_DIRECT_POINTER
      then num_of_sectors else NUM_OF_DIRECT_POINTER
    match allocate_slots 0 n 0 d inoded with
    | none => none
    | some (false, inoded, d) => some (false, inoded, d)
    | some (true, inoded, d) =>
      let num_of_sectors := num_of_sectors - n
      if num_of_sectors = 0 then some (true, inoded, d)
      else
        match inode_allocate_indirect NUM_OF_INDIRECT_POINTER 0 d inoded num_of_sectors with
        | none => none
        | some (some b, inoded, d, _) => some (b, inoded, d)
        | some (none, inoded, d, num_of_sectors) =>
          match _inode_allocate d inoded 124 with
          | none => none
          | some (false, inoded, d) => some (false, inoded, d)
          | some (true, inoded, d) =>
            match block_read d (double_indirect_pointer inoded) with
            | none => none
            | some level1ptr =>
              match inode_allocate_double stack inoded
                  (BLOCK_SECTOR_SIZE / sizeof_block_sector_t) 0 d level1ptr num_of_sectors with
              | none => none
              | some (some b, d) => some (b, inoded, d)
              | some (none, _) => none -- NOT_REACHED

/-! ## Deallocation -/

/-- The world after `free_map_release (sector, 1)`. -/
def release (d : Disk) (sector : Nat) : Disk :=
  { d with free_map := free_map_release d.free_map sector }

/-- The loops `for (j = 0; j < n; j++) free_map_release (slot[j], 1);` of `inode_deallocate`,
over the words `i`, `i + 1`, ... of `buf`, with `k` iterations to go. -/
def release_slots (buf : Sector) : Nat → Nat → Disk → Disk
  | 0, _, d => d
  | k + 1, i, d => release_slots buf k (i + 1) (release d (get_word buf i))

/-- The loop over the indirect pointers in `inode_deallocate`; the boolean tells whether the
function returned inside the loop, the number is `num_of_sectors`; `none` is a panic. -/
def inode_deallocate_indirect (inoded : inode_disk) :
    Nat → Nat → Disk → Nat → Option (Bool × Disk × Nat)
  | 0, _, d, num_of_sectors => some (false, d, num_of_sectors)
  | k + 1, i, d, num_of_sectors =>
    let d := release d (indirect_pointer inoded i)
    match block_read d (indirect_pointer inoded i) with
    | none => none
    | some indptr =>
      let n := if num_of_sectors < BLOCK_SECTOR_SIZE / sizeof_block_sector_t
        then num_of_sectors else BLOCK_SECTOR_SIZE / sizeof_block_sector_t
      let d := release_slots indptr n 0 d
      let num_of_sectors := num_of_sectors - n
      if num_of_sectors = 0 then some (true, d, num_of_sectors)
      else inode_deallocate_indirect inoded k (i + 1) d num_of_sectors

/-- The loop over the slots of the double-indirect sector in `inode_deallocate`; `none` is a
panic, which includes the loop running to its end without returning. -/
def inode_deallocate_double (level1ptr : inode_indirect_pointer) :
    Nat → Nat → Disk → Nat → Option Disk
  | 0, _, _, _ => none -- NOT_REACHED
  | k + 1, i, d, num_of_sectors =>
    let d := release d (get_word level1ptr i)
    match block_read d (get_word level1ptr i) with
    | none => none
    | some level2ptr =>
      let n := if num_of_sectors < BLOCK_SECTOR_SIZE / sizeof_block_sector_t
        then num_of_sectors else BLOCK_SECTOR_SIZE / sizeof_block_sector_t
      let d := release_slots level2ptr n 0 d
      let num_of_sectors := num_of_sectors - n
      if num_of_sectors = 0 then some d
      else inode_deallocate_double level1ptr k (i + 1) d num_of_sectors

/-- The function `inode_deallocate (inoded)`; `none` on a panic. -/
def inode_deallocate (d : Disk) (inoded : inode_disk) : Option Disk :=
  if disk_length inoded < 0 then none -- ASSERT (inoded->length >= 0)
  else
    let num_of_sectors := bytes_to_sectors (disk_length inoded)
    let n := if num_of_sectors < NUM_OF_DIRECT_POINTER
      then num_of_sectors else NUM_OF_DIRECT_POINTER
    let d := release_slots inoded n 0 d
    let num_of_sectors := num_of_sectors - n
    if num_of_sectors = 0 then some d
    else
      match inode_deallocate_indirect inoded NUM_OF_INDIRECT_POINTER 0 d num_of_sectors with
      | none => none
      | some (true, d, _) => some d
      | some (false, d, num_of_sectors) =>
        let d := release d (double_indirect_pointer inoded)
        match block_read d (double_indirect_pointer inoded) with
        | none => none
        | some level1ptr =>
          inode_deallocate_double level1ptr (BLOCK_SECTOR_SIZE / sizeof_block_sector_t) 0 d
            num_of_sectors

/-! ## The table of open inodes -/

/-- The function `inode_init`. -/
def inode_init (w : World) : World := { w with open_inodes := [] }

/-- The function `inode_create (sector, length, is_dir)`.  `mem` tells whether `calloc`
succeeds.  The result is `none` on a panic, otherwise the return value and the world. -/
def inode_create (stack : Sector) (mem : Bool) (w : World) (sector : Nat) (length : Int)
    (is_dir : Bool) : Option (Bool × World) :=
  if length < 0 then none -- ASSERT (length >= 0)
  else if mem then
    let disk_inode : inode_disk :=
      set_is_dir (set_magic (set_length zeros length) INODE_MAGIC) is_dir
    match inode_allocate stack w.disk disk_inode (disk_length disk_inode) with
    | none => none
    | some (true, disk_inode, d) =>
      match block_write d sector disk_inode with
      | none => none
      | some d => some (true, { w with disk := d })
    | some (false, _, d) => some (false, { w with disk := d })
  else some (false, w)

/-- The function `inode_reopen (inode)` for the inode at address `p`; `none` when `p` is not
the address of a live inode. -/
def inode_reopen (w : World) (p : Nat) : Option World :=
  match inode_at w.open_inodes p with
  | none => none
  | some i =>
    let i : inode := { i with open_cnt := to_int (i.open_cnt + 1) }
    some { w with open_inodes := inode_store w.open_inodes p i }

/-- The search loop of `inode_open`: the first element of the list whose sector is `sector` is
reopened in place; the result is its address and the list. -/
def open_existing : List (Nat × inode) → Nat → Option (Nat × List (Nat × inode))
  | [], _ => none
  | (a, i) :: rest, sector =>
    if i.sector = sector then
      some (a, (a, { i with open_cnt := to_int (i.open_cnt + 1) }) :: rest)
    else
      match open_existing rest sector with
      | none => none
      | some (p, rest) => some (p, (a, i) :: rest)

/-- The function `inode_open (sector)`.  `mem` tells whether `malloc` succeeds.  The result is
the world and the pointer returned, `none` for a null pointer; the outer `none` is a panic. -/
def inode_open (mem : Bool) (w : World) (sector : Nat) : Option (World × Option Nat) :=
  match open_existing w.open_inodes sector with
  | some (p, l) => some ({ w with open_inodes := l }, some p)
  | none =>
    if mem then
      match block_read w.disk sector with
      | none => none
      | some data =>
        let p := fresh_addr w.open_inodes
        let i : inode :=
          { sector := sector, open_cnt := 1, deny_write_cnt := 0, removed := false,
            data := data }
        some ({ w with open_inodes := (p, i) :: w.open_inodes }, some p)
    else some (w, none)

/-- The function `inode_close (inode)` for the inode at address `p`; `none` on a panic or a
wild pointer. -/
def inode_close (w : World) (p : Nat) : Option World :=
  match inode_at w.open_inodes p with
  | none => none
  | some i =>
    let i : inode := { i with open_cnt := to_int (i.open_cnt - 1) }
    if i.open_cnt = 0 then
      let w : World := { w with open_inodes := inode_unlink w.open_inodes p }
      if i.removed then
        match inode_deallocate (release w.disk i.sector) i.data with
        | none => none
        | some d => some { w with disk := d }
      else some w
    else some { w with open_inodes := inode_store w.open_inodes p i }

/-- The function `inode_remove (inode)` for the inode at address `p`. -/
def inode_remove (w : World) (p : Nat) : Option World :=
  match inode_at w.open_inodes p with
  | none => none
  | some i =>
    let i : inode := { i with removed := true }
    some { w with open_inodes := inode_store w.open_inodes p i }

/-- The function `inode_deny_write (inode)` for the inode at address `p`. -/
def inode_deny_write (w : World) (p : Nat) : Option World :=
  match inode_at w.open_inodes p with
  | none => none
  | some i =>
    let i : inode := { i with deny_write_cnt := to_int (i.deny_write_cnt + 1) }
    if i.deny_write_cnt ≤ i.open_cnt then
      some { w with open_inodes := inode_store w.open_inodes p i }
    else none -- ASSERT (inode->deny_write_cnt <= inode->open_cnt)

/-- The function `inode_allow_write (inode)` for the inode at address `p`. -/
def inode_allow_write (w : World) (p : Nat) : Option World :=
  match inode_at w.open_inodes p with
  | none => none
  | some i =>
    if 0 < i.deny_write_cnt ∧ i.deny_write_cnt ≤ i.open_cnt then
      let i : inode := { i with deny_write_cnt := to_int (i.deny_write_cnt - 1) }
      some { w with open_inodes := inode_store w.open_inodes p i }
    else none -- ASSERT (inode->deny_write_cnt > 0); ASSERT (... <= inode->open_cnt)

/-! ## Reading and writing -/

/-- The C function `memcpy (dst + dst_ofs, src + src_ofs, n)`. -/
def memcpy (dst : Nat → Nat) (dst_ofs : Nat) (src : Nat → Nat) (src_ofs n : Nat) : Nat → Nat :=
  fun k => if dst_ofs ≤ k ∧ k < dst_ofs + n then src (src_ofs + (k - dst_ofs)) else dst k

/-- A `while` loop with at most `fuel` iterations.  The body maps the loop variables to
`Sum.inr` of their new values to go round again and to `Sum.inl` of the result when the loop
is left; `none` is a panic, also when the fuel runs out. -/
def while_loop {σ ρ : Type} (body : σ → Option (Sum ρ σ)) : Nat → σ → Option ρ
  | 0, _ => none
  | fuel + 1, s =>
    match body s with
    | none => none
    | some (Sum.inl r) => some r
    | some (Sum.inr s) => while_loop body fuel s

/-- The number of bytes to copy in one iteration of the loops of `inode_read_at` and
`inode_write_at`, as both compute it: bytes left in the inode, bytes left in the sector, the
lesser of the two, and the lesser of that and `size`.  `length` is `inode_length (inode)`. -/
def chunk_size (size offset length : Int) : Int :=
  let sector_ofs := Int.tmod offset BLOCK_SECTOR_SIZE
  let inode_left := to_off_t (length - offset)
  let sector_left := BLOCK_SECTOR_SIZE - sector_ofs
  let min_left := if inode_left < sector_left then inode_left else sector_left
  if size < min_left then size else min_left

/-- The variables of the loop of `inode_read_at`; `bounce` tells whether the bounce buffer has
been allocated. -/
structure read_vars where
  buffer : Buffer
  size : Int
  offset : Int
  bytes_read : Int
  bounce : Bool

/-- One iteration of `while (size > 0)` in `inode_read_at`.  `mem` tells whether the `malloc`
of the bounce buffer succeeds; `inoded` is `inode->data`, the only field of the inode the loop
uses.  Leaving the loop yields the caller's buffer and `bytes_read`. -/
def inode_read_body (mem : Bool) (d : Disk) (inoded : inode_disk) (v : read_vars) :
    Option (Sum (Buffer × Int) read_vars) :=
  if v.size > 0 then
    match byte_to_sector d inoded v.offset with
    | none => none
    | some sector_idx =>
      let sector_ofs := Int.tmod v.offset BLOCK_SECTOR_SIZE
      let chunk_size := chunk_size v.size v.offset (disk_length inoded)
      if chunk_size ≤ 0 then some (Sum.inl (v.buffer, v.bytes_read))
      else if sector_ofs = 0 ∧ chunk_size = BLOCK_SECTOR_SIZE then
        match block_read d sector_idx with
        | none => none
        | some sec =>
          some (Sum.inr
            { buffer := memcpy v.buffer v.bytes_read.toNat sec 0 512,
              size := v.size - chunk_size, offset := v.offset + chunk_size,
              bytes_read := v.bytes_read + chunk_size, bounce := v.bounce })
      else if v.bounce = false ∧ mem = false then some (Sum.inl (v.buffer, v.bytes_read))
      else if sector_ofs < 0 then none -- the copy would start before the bounce buffer
      else
        match block_read d sector_idx with
        | none => none
        | some sec =>
          some (Sum.inr
            { buffer := memcpy v.buffer v.bytes_read.toNat sec sector_ofs.toNat
                chunk_size.toNat,
              size := v.size - chunk_size, offset := v.offset + chunk_size,
              bytes_read := v.bytes_read + chunk_size, bounce := true })
  else some (Sum.inl (v.buffer, v.bytes_read))

/-- The function `inode_read_at (inode, buffer, size, offset)` for the inode at address `p`.
The result is the world, the caller's buffer and the number of bytes read. -/
def inode_read_at (mem : Bool) (w : World) (p : Nat) (buffer : Buffer) (size offset : Int) :
    Option (World × Buffer × Int) :=
  match inode_at w.open_inodes p with
  | none => none
  | some i =>
    match while_loop (inode_read_body mem w.disk i.data) (size.toNat + 1)
        { buffer := buffer, size := size, offset := offset, bytes_read := 0,
          bounce := false } with
    | none => none
    | some (buffer, bytes_read) => some (w, buffer, bytes_read)

/-- The variables of the loop of `inode_write_at`, with the device and the cached record
`inode->data` the loop works on; `bounce` tells whether the bounce buffer has been
allocated. -/
structure write_vars where
  disk : Disk
  data : inode_disk
  size : Int
  offset : Int
  bytes_written : Int
  bounce : Bool

/-- One iteration of `while (size > 0)` in `inode_write_at`.  `sector` is `inode->sector`; of
the inode the loop uses this field and `inode->data` only.  Leaving the loop yields the device,
the record `inode->data` and `bytes_written`. -/
def inode_write_body (stack : Sector) (mem : Bool) (buffer : Buffer) (sector : Nat)
    (v : write_vars) : Option (Sum (Disk × inode_disk × Int) write_vars) :=
  if v.size > 0 then
    match byte_to_sector v.disk v.data v.offset with
    | none => none
    | some sector_idx =>
      let sector_ofs := Int.tmod v.offset BLOCK_SECTOR_SIZE
      let sector_left := BLOCK_SECTOR_SIZE - sector_ofs
      let chunk_size := chunk_size v.size v.offset (disk_length v.data)
      if chunk_size ≤ 0 then
        if sector_idx ≠ SECTOR_NONE then none -- ASSERT (sector_idx == (block_sector_t) -1)
        else
          match inode_allocate stack v.disk v.data (to_off_t (v.offset + v.size)) with
          | none => none
          | some (true, data, d) =>
            let data := set_length data (v.offset + v.size)
            match block_write d sector data with
            | none => none
            | some d => some (Sum.inr { v with disk := d, data := data }) -- continue
          | some (false, data, d) => some (Sum.inl (d, data, v.bytes_written)) -- break
      else if sector_ofs = 0 ∧ chunk_size = BLOCK_SECTOR_SIZE then
        match block_write v.disk sector_idx (fun k => buffer (v.bytes_written.toNat + k)) with
        | none => none
        | some d =>
          some (Sum.inr
            { v with disk := d, size := v.size - chunk_size, offset := v.offset + chunk_size,
                     bytes_written := v.bytes_written + chunk_size })
      else if v.bounce = false ∧ mem = false then
        some (Sum.inl (v.disk, v.data, v.bytes_written))
      else if sector_ofs < 0 then none -- the copy would start before the bounce buffer
      else
        match (if sector_ofs > 0 ∨ chunk_size < sector_left then block_read v.disk sector_idx
            else some zeros) with
        | none => none
        | some b =>
          let b := memcpy b sector_ofs.toNat buffer v.bytes_written.toNat chunk_size.toNat
          match block_write v.disk sector_idx b with
          | none => none
          | some d =>
            some (Sum.inr
              { v with disk := d, size := v.size - chunk_size,
                       offset := v.offset + chunk_size,
                       bytes_written := v.bytes_written + chunk_size, bounce := true })
  else some (Sum.inl (v.disk, v.data, v.bytes_written))

/-- The function `inode_write_at (inode, buffer, size, offset)` for the inode at address `p`.
The result is the world and the number of bytes written. -/
def inode_write_at (stack : Sector) (mem : Bool) (w : World) (p : Nat) (buffer : Buffer)
    (size offset : Int) : Option (World × Int) :=
  match inode_at w.open_inodes p with
  | none => none
  | some i =>
    if i.deny_write_cnt ≠ 0 then some (w, 0)
    else
      match while_loop (inode_write_body stack mem buffer i.sector) (size.toNat + 2)
          { disk := w.disk, data := i.data, size := size, offset := offset,
            bytes_written := 0, bounce := false } with
      | none => none
      | some (d, data, bytes_written) =>
        some ({ disk := d, open_inodes := inode_store w.open_inodes p { i with data := data } },
          bytes_written)

/-! ## Sequences of calls -/

/-- One call of a function of the interface.  The arguments are those of the C function, with
the choices of the environment (`stack`, `mem`) in front; `p` is the `struct inode *`. -/
inductive Op where
  | inode_create (stack : Sector) (mem : Bool) (sector : Nat) (length : Int) (is_dir : Bool)
  | inode_open (mem : Bool) (sector : Nat)
  | inode_reopen (p : Nat)
  | inode_close (p : Nat)
  | inode_remove (p : Nat)
  | inode_deny_write (p : Nat)
  | inode_allow_write (p : Nat)
  | inode_read_at (mem : Bool) (p : Nat) (buffer : Buffer) (size offset : Int)
  | inode_write_at (stack : Sector) (mem : Bool) (p : Nat) (buffer : Buffer) (size offset : Int)

/-- The world after one call; `none` when the call panics. -/
def step (w : World) : Op → Option World
  | Op.inode_create stack mem sector length is_dir =>
    (inode_create stack mem w sector length is_dir).map Prod.snd
  | Op.inode_open mem sector => (inode_open mem w sector).map Prod.fst
  | Op.inode_reopen p => inode_reopen w p
  | Op.inode_close p => inode_close w p
  | Op.inode_remove p => inode_remove w p
  | Op.inode_deny_write p => inode_deny_write w p
  | Op.inode_allow_write p => inode_allow_write w p
  | Op.inode_read_at mem p buffer size offset =>
    (inode_read_at mem w p buffer size offset).map Prod.fst
  | Op.inode_write_at stack mem p buffer size offset =>
    (inode_write_at stack mem w p buffer size offset).map Prod.fst

/-- The world after a sequence of calls, none of which panics. -/
def run (w : World) : List Op → Option World
  | [] => some w
  | o :: rest =>
    match step w o with
    | none => none
    | some w => run w rest

/-- The calls that work on the table of open inodes only: `inode_open`, `inode_reopen`,
`inode_close` and `inode_remove`. -/
def Op.on_table : Op → Bool
  | Op.inode_open _ _ => true
  | Op.inode_reopen _ => true
  | Op.inode_close _ => true
  | Op.inode_remove _ => true
  | _ => false

/-- The home sectors of the inodes in the table, in list order. -/
def open_sectors (l : List (Nat × inode)) : List Nat := l.map (fun e => e.2.sector)

/-- The addresses of the inodes in the table, in list order. -/
def open_addrs (l : List (Nat × inode)) : List Nat := l.map (fun e => e.1)

/-! ## The effect of a call on the table -/

/-- What one call does to an in-memory inode that stays in the table. -/
inductive inode_step : inode → inode → Prop where
  | reopen (i : inode) : inode_step i { i with open_cnt := to_int (i.open_cnt + 1) }
  | close (i : inode) (h : to_int (i.open_cnt - 1) ≠ 0) :
    inode_step i { i with open_cnt := to_int (i.open_cnt - 1) }
  | remove (i : inode) : inode_step i { i with removed := true }
  | deny (i : inode) (h : to_int (i.deny_write_cnt + 1) ≤ i.open_cnt) :
    inode_step i { i with deny_write_cnt := to_int (i.deny_write_cnt + 1) }
  | allow (i : inode) (h0 : 0 < i.deny_write_cnt) (h : i.deny_write_cnt ≤ i.open_cnt) :
    inode_step i { i with deny_write_cnt := to_int (i.deny_write_cnt - 1) }
  | write (i : inode) (data : inode_disk) (h : i.deny_write_cnt = 0) :
    inode_step i { i with data := data }

/-- What one call does to the table of open inodes. -/
inductive table_step : List (Nat × inode) → List (Nat × inode) → Prop where
  | same (l : List (Nat × inode)) : table_step l l
  | update (l : List (Nat × inode)) (p : Nat) (i j : inode) (h : inode_at l p = some i)
    (hs : inode_step i j) : table_step l (inode_store l p j)
  | unlink (l : List (Nat × inode)) (p : Nat) (i : inode) (h : inode_at l p = some i)
    (h0 : to_int (i.open_cnt - 1) = 0) : table_step l (inode_unlink l p)
  | push (l : List (Nat × inode)) (i : inode) (hs : i.sector ∉ open_sectors l)
    (hc : i.open_cnt = 1) (hr : i.removed = false) (hd : i.deny_write_cnt = 0) :
    table_step l ((fresh_addr l, i) :: l)

/-- The invariant of the table: distinct objects, one inode per home sector, each with an
opener. -/
def table_ok (l : List (Nat × inode)) : Prop :=
  (open_addrs l).Nodup ∧ (open_sectors l).Nodup ∧ ∀ e ∈ l, 1 ≤ e.2.open_cnt

/-- The counters of the table as C `int` values that `n` calls can have produced: no
`open_cnt` and no `deny_write_cnt` is above `n`, and no `deny_write_cnt` is negative. -/
def counters_le (n : Int) (l : List (Nat × inode)) : Prop :=
  ∀ e ∈ l, e.2.open_cnt ≤ n ∧ 0 ≤ e.2.deny_write_cnt ∧ e.2.deny_write_cnt ≤ n

/-! ## Scenarios of the specification -/

/-- The round trip of the specification: create an inode of `length` bytes in `sector`, open
it, write `length` bytes of `B` at offset 0, close, reopen, read `length` bytes at offset 0 into
`buffer`.  The result is the count and the buffer the read returns; `none` when a call panics,
the creation or an open fails, or the write is short. -/
def round_trip (stack : Sector) (mem : Bool) (w : World) (sector : Nat) (length : Int)
    (is_dir : Bool) (B buffer : Buffer) : Option (Int × Buffer) :=
  match inode_create stack mem w sector length is_dir with
  | some (true, w) =>
    match inode_open mem w sector with
    | some (w, some p) =>
      match inode_write_at stack mem w p B length 0 with
      | some (w, n) =>
        if n = length then
          match inode_close w p with
          | some w =>
            match inode_open mem w sector with
            | some (w, some q) =>
              match inode_read_at mem w q buffer length 0 with
              | some (_, out, m) => some (m, out)
              | none => none
            | _ => none
          | none => none
        else none
      | none => none
    | _ => none
  | _ => none

/-- The calls `inode_create (sector, length, is_dir)` and then `inode_open (sector)`: the world
and the pointer when both succeed. -/
def create_open (stack : Sector) (mem : Bool) (w : World) (sector : Nat) (length : Int)
    (is_dir : Bool) : Option (World × Nat) :=
  match inode_create stack mem w sector length is_dir with
  | some (true, w) =>
    match inode_open mem w sector with
    | some (w, some p) => some (w, p)
    | _ => none
  | _ => none

/-! ## Notions used in the statements -/

/-- The world `w` in which the home sector `s`, not open in `w`, has been opened `c` times
since: the new inode sits in front of the list, at the address `malloc` returned. -/
def opened (w : World) (s : Nat) (c : Int) : World :=
  { w with open_inodes :=
      (fresh_addr w.open_inodes,
        { sector := s, open_cnt := c, removed := false, deny_write_cnt := 0,
          data := w.disk.fs_device s }) :: w.open_inodes }

/-- Whether the call keeps to the rule stated with `inode_allow_write`: an opener that has
denied writes allows them again before it closes the inode.  For `inode_close` of an inode
that stays open this asks for `deny_write_cnt < open_cnt`; every other call is allowed. -/
def close_allowed (w : World) : Op → Bool
  | Op.inode_close p =>
    match inode_at w.open_inodes p with
    | some i => decide (i.deny_write_cnt < i.open_cnt ∨ i.open_cnt - 1 = 0)
    | none => true
  | _ => true

/-- Whether every call of the sequence, started in `w`, keeps to that rule. -/
def disciplined : World → List Op → Bool
  | _, [] => true
  | w, o :: rest =>
    close_allowed w o &&
      (match step w o with
       | none => true
       | some w' => disciplined w' rest)

/-- Modelled from the spec: the lookup in region C as the specification words it, for the
logical sector `i` with `632 ≤ i`: with `q = (i - 632) / 128` and `r = (i - 632) mod 128`,
read the double-indirect sector, read the sector its slot `q` names, return slot `r` of
that. -/
def spec_lookup_double (d : Disk) (inoded : inode_disk) (i : Nat) : Option Nat :=
  let q := (i - 632) / 128
  let r := (i - 632) % 128
  match block_read d (double_indirect_pointer inoded) with
  | none => none
  | some level1ptr =>
    match block_read d (get_word level1ptr q) with
    | none => none
    | some level2ptr => some (get_word level2ptr r)

/-- What a run of the allocator may do to the device and the free map: the device keeps its
size, nothing is released, the free map hands out sectors from the front of its list, and a
sector that was not free is written only if it is one of the table sectors `W`. -/
def alloc_frame (W : Nat → Prop) (d d' : Disk) : Prop :=
  d'.fs_device_size = d.fs_device_size ∧ d'.free_map.released = d.free_map.released ∧
  (∃ c, d'.free_map.free = d.free_map.free.drop c) ∧
  ∀ t, t ∉ d.free_map.free → ¬ W t → d'.fs_device t = d.fs_device t

/-- The variables of the write loop as the facts about them that every iteration keeps. -/
def write_inv (offset size L : Int) (v : write_vars) : Prop :=
  offset ≤ v.offset ∧ v.offset < 2147483648 ∧ 0 ≤ v.size ∧
  v.offset + v.size = offset + size ∧ v.bytes_written = v.offset - offset ∧
  ((disk_length v.data = L ∧ v.offset ≤ max offset L) ∨
    (disk_length v.data = offset + size ∧ L < offset + size ∧
      bytes_to_sectors (offset + size) ≤ 17016))

/-- What the write loop has established when it is left. -/
def write_post (mem : Bool) (offset size L : Int) (r : Disk × inode_disk × Int) : Prop :=
  L ≤ disk_length r.2.1 ∧ 0 ≤ r.2.2 ∧ r.2.2 ≤ size ∧
  (disk_length r.2.1 = L ∨
    (disk_length r.2.1 = offset + size ∧ L < offset + size ∧
      bytes_to_sectors (offset + size) ≤ 17016)) ∧
  (r.2.2 = size → size = 0 ∨ offset + size ≤ disk_length r.2.1) ∧
  (mem = true → r.2.2 < size →
    disk_length r.2.1 = L ∧ r.2.2 = max 0 (L - offset) ∧ r.1.free_map.free = [])

/-- The number of sectors a file of `N` sectors occupies besides its home sector, as the
block map is specified: `N` data sectors, and as table sectors none when `N ≤ 120`, one
indirect sector for every 128 data sectors started beyond the first 120 when `N ≤ 632`, and
otherwise the four indirect sectors, the double-indirect sector and one more for every 128
data sectors started beyond the first 632. -/
def sectors_taken (N : Nat) : Nat :=
  if N ≤ 120 then N
  else if N ≤ 632 then N + (N - 120 + 127) / 128
  else N + 5 + (N - 632 + 127) / 128

/-- The sector `t` is apart from the allocator's work on the record `inoded`: it is not free,
it is none of the table sectors the record names, and the double-indirect sector, when there
is one, is a sector of its own whose slots do not name `t`. -/
def apart (d : Disk) (inoded : inode_disk) (t : Nat) : Prop :=
  t ∉ d.free_map.free ∧
  (∀ i, i < 4 → indirect_pointer inoded i = 0 ∨ indirect_pointer inoded i ≠ t) ∧
  (double_indirect_pointer inoded = 0 ∨
    (double_indirect_pointer inoded ≠ t ∧
      double_indirect_pointer inoded ∉ d.free_map.free ∧
      (∀ i, i < 4 → indirect_pointer inoded i ≠ double_indirect_pointer inoded) ∧
      ∀ j, j < 128 →
        get_word (d.fs_device (double_indirect_pointer inoded)) j = 0 ∨
        get_word (d.fs_device (double_indirect_pointer inoded)) j ≠ t))

/-- The sector numbers the deallocation walk of a file of `N` sectors comes across on the
device `dev`: the values of the slots with logical index below `N` (direct slot `i` has index
`i`, slot `j` of indirect sector `q` index `120 + 128 * q + j`, slot `j` of the indirect
sector in slot `q` of the double-indirect sector index `632 + 128 * q + j`) and of the
structural slots on their path. -/
def deallocate_visits (dev : Nat → Sector) (inoded : inode_disk) (N s : Nat) : Prop :=
  (∃ i, i < 120 ∧ i < N ∧ s = direct_pointer inoded i) ∨
  (∃ q, q < 4 ∧ 120 + 128 * q < N ∧
    (s = indirect_pointer inoded q ∨
      ∃ j, j < 128 ∧ 120 + 128 * q + j < N ∧
        s = get_word (dev (indirect_pointer inoded q)) j)) ∨
  (632 < N ∧
    (s = double_indirect_pointer inoded ∨
      ∃ q, q < 128 ∧ 632 + 128 * q < N ∧
        (s = get_word (dev (double_indirect_pointer inoded)) q ∨
          ∃ j, j < 128 ∧ 632 + 128 * q + j < N ∧
            s = get_word (dev (get_word (dev (double_indirect_pointer inoded)) q)) j)))

/-! ## Deciding that an evaluation panics -/

/-- Whether an optional result is `none` is decided by looking at its constructor. -/
instance decidable_eq_none {α : Type} (o : Option α) : Decidable (o = none) :=
  match o with
  | none => isTrue rfl
  | some _ => isFalse (fun h => Option.noConfusion h)

/-! ## Example states -/

/-- A device of 4096 zeroed sectors whose free map holds the sectors 18 to 717, in this order;
no inode is open. -/
def fresh_world : World :=
  { disk :=
      { fs_device_size := 4096, fs_device := fun _ => zeros,
        free_map := { free := List.range' 18 700, released := [] } },
    open_inodes := [] }

/-- A stack image as `inode_allocate` finds it at `&level1ptr`: the first word is the value of
the pointer `level1ptr` itself, a kernel heap address (here 0xc0109000); the bytes after it are
zero here. -/
def stack_image : Sector := set_word zeros 0 3222310912

/-- The 512-byte object whose little-endian word `j` is `f j`. -/
def words (f : Nat → Nat) : Sector := fun k => f (k / 4) / 256 ^ (k % 4) % 256

/-- The on-disk inode of a file of 634 sectors (324608 bytes) laid out as the block map is
specified: data sectors 1000 to 1633, indirect sectors 2000 to 2003, double-indirect sector
3000 whose slot 0 names the indirect sector 3001. -/
def image_record : inode_disk :=
  words (fun j =>
    if j < 120 then 1000 + j
    else if j < 124 then 2000 + (j - 120)
    else if j = 124 then 3000
    else if j = 125 then 324608
    else if j = 126 then 0
    else INODE_MAGIC)

/-- A device of 4096 sectors holding that file with home sector 17; the free map holds the
sectors 3002 to 3101. -/
def image_disk : Disk :=
  { fs_device_size := 4096,
    fs_device := fun s =>
      if s = 17 then image_record
      else if 2000 ≤ s ∧ s < 2004 then words (fun j => 1120 + 128 * (s - 2000) + j)
      else if s = 3000 then words (fun j => if j = 0 then 3001 else 0)
      else if s = 3001 then words (fun j => if j < 2 then 1632 + j else 0)
      else zeros,
    free_map := { free := List.range' 3002 100, released := [] } }

/-- The file of `image_disk`, opened once, at address 0. -/
def image_world : World :=
  { disk := image_disk,
    open_inodes :=
      [(0, { sector := 17, open_cnt := 1, removed := false, deny_write_cnt := 0,
             data := image_record })] }

/-- A buffer of 1024 bytes: 512 bytes 1, then 512 bytes 2. -/
def two_sectors : Buffer := fun k => if k < 512 then 1 else 2

/-- A buffer whose byte `k` is the number of its 512-byte sector, modulo 256. -/
def sector_stamp : Buffer := fun k => k / 512 % 256

/-- The on-disk inode of a file of 10 bytes whose only data sector is the device sector 9. -/
def small_record : inode_disk :=
  words (fun j => if j = 0 then 9 else if j = 125 then 10 else if j = 127 then INODE_MAGIC else 0)

/-- A device of 64 sectors holding that file with home sector 5; the free map holds the
sectors 10 to 29. -/
def small_disk : Disk :=
  { fs_device_size := 64,
    fs_device := fun s => if s = 5 then small_record else zeros,
    free_map := { free := List.range' 10 20, released := [] } }

/-- The in-memory inode of that file with two openers, one of which denies writes. -/
def small_inode : inode :=
  { sector := 5, open_cnt := 2, removed := false, deny_write_cnt := 1, data := small_record }

/-- The world in which `small_inode` lives at address 0. -/
def small_world : World := { disk := small_disk, open_inodes := [(0, small_inode)] }

/-- The world reached from `inode_init` on `small_disk` by one `inode_open (5)`. -/
def opened_world : World :=
  { disk := small_disk,
    open_inodes := [(0, { sector := 5, open_cnt := 1, removed := false, deny_write_cnt := 0,
                          data := small_record })] }

/-- A device of 40000 zeroed sectors whose free map holds the 20000 sectors 1000 to 20999,
more than the 17149 a file of the largest size takes; no inode is open. -/
def roomy_world : World :=
  { disk :=
      { fs_device_size := 40000, fs_device := fun _ => zeros,
        free_map := { free := List.range' 1000 20000, released := [] } },
    open_inodes := [] }

/-- The record `inode_create` builds for an empty file. -/
def empty_record : inode_disk := set_is_dir (set_magic (set_length zeros 0) INODE_MAGIC) false

/-- An empty file with home sector 17 on a device of 4096 sectors, open once at address 0;
the free map is down to the two sectors 18 and 19. -/
def scarce_world : World :=
  { disk :=
      { fs_device_size := 4096,
        fs_device := fun s => if s = 17 then empty_record else zeros,
        free_map := { free := [18, 19], released := [] } },
    open_inodes :=
      [(0, { sector := 17, open_cnt := 1, removed := false, deny_write_cnt := 0,
             data := empty_record })] }

/-- The pointer slots of a file of exactly 120 sectors: the direct slots name the sectors
1000 to 1119, every other slot is empty. -/
def direct_record : inode_disk := words (fun j => if j < 120 then 1000 + j else 0)

/-- The record of an empty file with its length set to 512: one sector long, with direct
slot 0 empty. -/
def hole_record : inode_disk := set_length empty_record 512

/-- A record of 121 sectors whose 120 direct slots name the sectors 1000 to 1119 and whose
first indirect slot is empty. -/
def unbacked_record : inode_disk := set_length direct_record 61441

/-- The loop variables of `inode_write_at` at the start of a one-byte write at offset 323584
into an empty file whose home sector is 17, on the fresh device. -/
def sparse_write_vars : write_vars :=
  { disk := { fresh_world.disk with
      fs_device := fun s => if s = 17 then empty_record else zeros },
    data := empty_record, size := 1, offset := 323584, bytes_written := 0, bounce := false }

/-! ## Basic facts -/

theorem inode_at_store_same (l : List (Nat × inode)) (p : Nat) (i j : inode)
    (h : inode_at l p = some i) : inode_at (inode_store l p j) p = some j := by
  induction l with
  | nil => simp [inode_at] at h
  | cons e rest ih =>
    obtain ⟨a, k⟩ := e
    by_cases hap : a = p
    · simp [inode_store, inode_at, hap]
    · simp only [inode_at, hap, if_false] at h
      simp [inode_store, inode_at, hap, ih h]

theorem inode_at_store_other (l : List (Nat × inode)) (p q : Nat) (j : inode) (hq : q ≠ p) :
    inode_at (inode_store l p j) q = inode_at l q := by
  induction l with
  | nil => simp [inode_store]
  | cons e rest ih =>
    obtain ⟨a, k⟩ := e
    by_cases hap : a = p
    · subst hap
      simp [inode_store, inode_at, Ne.symm hq]
    · by_cases haq : a = q
      · subst haq
        simp [inode_store, inode_at, hap]
      · simp [inode_store, inode_at, hap, haq, ih]

theorem mem_inode_store (l : List (Nat × inode)) (p : Nat) (j : inode) (e : Nat × inode)
    (h : e ∈ inode_store l p j) : e ∈ l ∨ e = (p, j) := by
  induction l with
  | nil => simp [inode_store] at h
  | cons x rest ih =>
    obtain ⟨a, k⟩ := x
    by_cases hap : a = p
    · subst hap
      simp only [inode_store, if_true, List.mem_cons] at h
      rcases h with h | h
      · exact Or.inr h
      · exact Or.inl (List.mem_cons_of_mem _ h)
    · simp only [inode_store, hap, if_false, List.mem_cons] at h
      rcases h with h | h
      · exact Or.inl (by simp [h])
      · rcases ih h with h | h
        · exact Or.inl (List.mem_cons_of_mem _ h)
        · exact Or.inr h

theorem open_sectors_store (l : List (Nat × inode)) (p : Nat) (i j : inode)
    (h : inode_at l p = some i) (hs : j.sector = i.sector) :
    open_sectors (inode_store l p j) = open_sectors l := by
  induction l with
  | nil => rfl
  | cons x rest ih =>
    obtain ⟨a, k⟩ := x
    by_cases hap : a = p
    · subst hap
      simp only [inode_at, if_true, Option.some.injEq] at h
      subst h
      simp [inode_store, open_sectors, hs]
    · simp only [inode_at, hap, if_false] at h
      have := ih h
      simp only [open_sectors] at this
      simp [inode_store, open_sectors, hap, this]

theorem open_addrs_store (l : List (Nat × inode)) (p : Nat) (j : inode) :
    open_addrs (inode_store l p j) = open_addrs l := by
  induction l with
  | nil => rfl
  | cons x rest ih =>
    obtain ⟨a, k⟩ := x
    simp only [open_addrs] at ih
    by_cases hap : a = p
    · simp [inode_store, open_addrs, hap]
    · simp [inode_store, open_addrs, hap, ih]

theorem inode_at_mem (l : List (Nat × inode)) (p : Nat) (i : inode)
    (h : inode_at l p = some i) : (p, i) ∈ l := by
  induction l with
  | nil => simp [inode_at] at h
  | cons x rest ih =>
    obtain ⟨a, k⟩ := x
    by_cases hap : a = p
    · simp only [inode_at, hap, if_true, Option.some.injEq] at h
      simp [hap, h]
    · simp only [inode_at, hap, if_false] at h
      exact List.mem_cons_of_mem _ (ih h)

theorem inode_unlink_sublist (l : List (Nat × inode)) (p : Nat) :
    List.Sublist (inode_unlink l p) l := by
  induction l with
  | nil => exact List.Sublist.slnil
  | cons x rest ih =>
    obtain ⟨a, k⟩ := x
    by_cases hap : a = p
    · simp only [inode_unlink, hap, if_true]
      exact List.sublist_cons_self _ _
    · simp only [inode_unlink, hap, if_false]
      exact ih.cons₂ _

theorem mem_open_addrs (l : List (Nat × inode)) (e : Nat × inode) (h : e ∈ l) :
    e.1 ∈ open_addrs l := List.mem_map_of_mem _ h

theorem mem_open_sectors (l : List (Nat × inode)) (e : Nat × inode) (h : e ∈ l) :
    e.2.sector ∈ open_sectors l := List.mem_map_of_mem (fun e => e.2.sector) h

theorem open_existing_none (l : List (Nat × inode)) (sector : Nat)
    (h : open_existing l sector = none) : sector ∉ open_sectors l := by
  induction l with
  | nil => simp [open_sectors]
  | cons x rest ih =>
    obtain ⟨a, k⟩ := x
    by_cases hs : k.sector = sector
    · simp [open_existing, hs] at h
    · simp only [open_existing, hs, if_false] at h
      cases hr : open_existing rest sector with
      | none =>
        have := ih hr
        simp only [open_sectors] at this
        simp [open_sectors, this, Ne.symm hs]
      | some r => obtain ⟨q, l'⟩ := r; simp [hr] at h

theorem open_existing_some (l : List (Nat × inode)) (sector p : Nat) (l' : List (Nat × inode))
    (hn : (open_addrs l).Nodup) (h : open_existing l sector = some (p, l')) :
    ∃ i, inode_at l p = some i ∧ i.sector = sector ∧
      l' = inode_store l p { i with open_cnt := to_int (i.open_cnt + 1) } := by
  induction l generalizing l' with
  | nil => simp [open_existing] at h
  | cons x rest ih =>
    obtain ⟨a, k⟩ := x
    have hn0 := List.nodup_cons.mp (show (a :: open_addrs rest).Nodup from hn)
    have hn' : (open_addrs rest).Nodup := hn0.2
    by_cases hs : k.sector = sector
    · simp only [open_existing, hs, if_true, Option.some.injEq, Prod.mk.injEq] at h
      obtain ⟨h1, h2⟩ := h
      subst h1
      exact ⟨k, by simp [inode_at], hs, by simp [inode_store, ← h2, ← hs]⟩
    · simp only [open_existing, hs, if_false] at h
      cases hr : open_existing rest sector with
      | none => simp [hr] at h
      | some r =>
        obtain ⟨q, l''⟩ := r
        simp only [hr, Option.some.injEq, Prod.mk.injEq] at h
        obtain ⟨h1, h2⟩ := h
        subst h1
        obtain ⟨i, hi, hsec, hl⟩ := ih l'' hn' hr
        have haq : a ≠ q := by
          intro haq
          have := mem_open_addrs _ _ (inode_at_mem _ _ _ hi)
          exact hn0.1 (haq ▸ this)
        exact ⟨i, by simp [inode_at, haq, hi], hsec, by simp [inode_store, haq, ← h2, hl]⟩

theorem open_existing_of_at (l : List (Nat × inode)) (p : Nat) (i : inode)
    (hs : (open_sectors l).Nodup) (h : inode_at l p = some i) :
    open_existing l i.sector
      = some (p, inode_store l p { i with open_cnt := to_int (i.open_cnt + 1) }) := by
  induction l with
  | nil => simp [inode_at] at h
  | cons x rest ih =>
    obtain ⟨a, k⟩ := x
    have hs' := List.nodup_cons.mp (show (k.sector :: open_sectors rest).Nodup from hs)
    by_cases hap : a = p
    · subst hap
      simp only [inode_at, if_true, Option.some.injEq] at h
      subst h
      simp [open_existing, inode_store]
    · simp only [inode_at, hap, if_false] at h
      have hk : k.sector ≠ i.sector := by
        intro hk
        have := mem_open_sectors _ _ (inode_at_mem _ _ _ h)
        exact hs'.1 (hk ▸ this)
      simp [open_existing, hk, inode_store, hap, ih hs'.2 h]

theorem lt_fresh_addr (l : List (Nat × inode)) (a : Nat) (h : a ∈ open_addrs l) :
    a < fresh_addr l := by
  induction l with
  | nil => simp [open_addrs] at h
  | cons x rest ih =>
    obtain ⟨b, k⟩ := x
    simp only [open_addrs, List.map_cons, List.mem_cons] at h
    simp only [fresh_addr]
    rcases h with h | h
    · omega
    · have := ih h
      omega

theorem fresh_addr_not_mem (l : List (Nat × inode)) : fresh_addr l ∉ open_addrs l := by
  intro h
  have := lt_fresh_addr l _ h
  omega

theorem inode_store_store (l : List (Nat × inode)) (p : Nat) (i j : inode) :
    inode_store (inode_store l p i) p j = inode_store l p j := by
  induction l with
  | nil => rfl
  | cons x rest ih =>
    obtain ⟨a, k⟩ := x
    by_cases hap : a = p
    · simp [inode_store, hap]
    · simp [inode_store, hap, ih]

theorem inode_create_table (stack : Sector) (mem : Bool) (w : World) (sector : Nat)
    (length : Int) (is_dir : Bool) (b : Bool) (w' : World)
    (h : inode_create stack mem w sector length is_dir = some (b, w')) :
    w'.open_inodes = w.open_inodes := by
  unfold inode_create at h
  split at h
  · simp at h
  · split at h
    · simp only at h
      split at h
      · simp at h
      · split at h
        · simp at h
        · simp only [Option.some.injEq, Prod.mk.injEq] at h
          rw [← h.2]
      · simp only [Option.some.injEq, Prod.mk.injEq] at h
        rw [← h.2]
    · simp only [Option.some.injEq, Prod.mk.injEq] at h
      rw [← h.2]

theorem step_table (w w' : World) (o : Op) (hn : (open_addrs w.open_inodes).Nodup)
    (h : step w o = some w') : table_step w.open_inodes w'.open_inodes := by
  cases o with
  | inode_create stack mem sector length is_dir =>
    simp only [step, Option.map_eq_some'] at h
    obtain ⟨⟨b, w''⟩, h, rfl⟩ := h
    rw [inode_create_table _ _ _ _ _ _ _ _ h]
    exact table_step.same _
  | inode_open mem sector =>
    simp only [step, Option.map_eq_some'] at h
    obtain ⟨⟨w'', r⟩, h, rfl⟩ := h
    unfold inode_open at h
    split at h
    · rename_i q l hq
      simp only [Option.some.injEq, Prod.mk.injEq] at h
      obtain ⟨i, hi, -, hl⟩ := open_existing_some _ _ _ _ hn hq
      rw [← h.1, hl]
      exact table_step.update _ _ _ _ hi (inode_step.reopen i)
    · rename_i hq
      split at h
      · split at h
        · simp at h
        · simp only [Option.some.injEq, Prod.mk.injEq] at h
          rw [← h.1]
          exact table_step.push _ _ (open_existing_none _ _ hq) rfl rfl rfl
      · simp only [Option.some.injEq, Prod.mk.injEq] at h
        rw [← h.1]
        exact table_step.same _
  | inode_reopen p =>
    simp only [step, inode_reopen] at h
    split at h
    · simp at h
    · rename_i i hi
      simp only [Option.some.injEq] at h
      rw [← h]
      exact table_step.update _ _ _ _ hi (inode_step.reopen i)
  | inode_close p =>
    simp only [step, inode_close] at h
    split at h
    · simp at h
    · rename_i i hi
      split at h
      · rename_i h0
        split at h
        · split at h
          · simp at h
          · simp only [Option.some.injEq] at h
            rw [← h]
            exact table_step.unlink _ _ _ hi h0
        · simp only [Option.some.injEq] at h
          rw [← h]
          exact table_step.unlink _ _ _ hi h0
      · rename_i h0
        simp only [Option.some.injEq] at h
        rw [← h]
        exact table_step.update _ _ _ _ hi (inode_step.close i h0)
  | inode_remove p =>
    simp only [step, inode_remove] at h
    split at h
    · simp at h
    · rename_i i hi
      simp only [Option.some.injEq] at h
      rw [← h]
      exact table_step.update _ _ _ _ hi (inode_step.remove i)
  | inode_deny_write p =>
    simp only [step, inode_deny_write] at h
    split at h
    · simp at h
    · rename_i i hi
      split at h
      · rename_i hle
        simp only [Option.some.injEq] at h
        rw [← h]
        exact table_step.update _ _ _ _ hi (inode_step.deny i hle)
      · simp at h
  | inode_allow_write p =>
    simp only [step, inode_allow_write] at h
    split at h
    · simp at h
    · rename_i i hi
      split at h
      · rename_i hle
        simp only [Option.some.injEq] at h
        rw [← h]
        exact table_step.update _ _ _ _ hi (inode_step.allow i hle.1 hle.2)
      · simp at h
  | inode_read_at mem p buffer size offset =>
    simp only [step, Option.map_eq_some'] at h
    obtain ⟨⟨w'', r⟩, h, rfl⟩ := h
    unfold inode_read_at at h
    split at h
    · simp at h
    · split at h
      · simp at h
      · simp only [Option.some.injEq, Prod.mk.injEq] at h
        rw [← h.1]
        exact table_step.same _
  | inode_write_at stack mem p buffer size offset =>
    simp only [step, Option.map_eq_some'] at h
    obtain ⟨⟨w'', r⟩, h, rfl⟩ := h
    unfold inode_write_at at h
    split at h
    · simp at h
    · rename_i i hi
      split at h
      · simp only [Option.some.injEq, Prod.mk.injEq] at h
        rw [← h.1]
        exact table_step.same _
      · rename_i hd
        split at h
        · simp at h
        · simp only [Option.some.injEq, Prod.mk.injEq] at h
          rw [← h.1]
          exact table_step.update _ _ _ _ hi (inode_step.write i _ (by simpa using hd))

theorem inode_step_sector (i j : inode) (h : inode_step i j) : j.sector = i.sector := by
  cases h <;> rfl

theorem inode_step_removed (i j : inode) (h : inode_step i j) (hr : i.removed = true) :
    j.removed = true := by
  cases h <;> first | exact hr | rfl

theorem to_int_of_range (x : Int) (h1 : -2147483648 ≤ x) (h2 : x < 2147483648) :
    to_int x = x := by
  unfold to_int
  omega

theorem inode_step_counters (n : Int) (i j : inode) (h : inode_step i j)
    (hn : n < 2147483647) (hc : 1 ≤ i.open_cnt) (ho : i.open_cnt ≤ n)
    (hd0 : 0 ≤ i.deny_write_cnt) (hd : i.deny_write_cnt ≤ n) :
    1 ≤ j.open_cnt ∧ j.open_cnt ≤ n + 1 ∧ 0 ≤ j.deny_write_cnt ∧
    j.deny_write_cnt ≤ n + 1 := by
  cases h with
  | reopen =>
    have e := to_int_of_range (i.open_cnt + 1) (by omega) (by omega)
    dsimp only
    rw [e]
    omega
  | close h0 =>
    have e := to_int_of_range (i.open_cnt - 1) (by omega) (by omega)
    rw [e] at h0
    dsimp only
    rw [e]
    omega
  | remove =>
    dsimp only
    omega
  | deny _ =>
    have e := to_int_of_range (i.deny_write_cnt + 1) (by omega) (by omega)
    dsimp only
    rw [e]
    omega
  | allow hp _ =>
    have e := to_int_of_range (i.deny_write_cnt - 1) (by omega) (by omega)
    dsimp only
    rw [e]
    omega
  | write _ _ =>
    dsimp only
    omega

theorem table_step_ok (n : Int) (l l' : List (Nat × inode)) (hl : table_ok l)
    (hcnt : counters_le n l) (hn0 : 0 ≤ n) (hn : n < 2147483647) (h : table_step l l') :
    table_ok l' ∧ counters_le (n + 1) l' := by
  obtain ⟨ha, hs, hc⟩ := hl
  have hup : counters_le (n + 1) l := by
    intro e he
    obtain ⟨c1, c2, c3⟩ := hcnt e he
    exact ⟨by omega, c2, by omega⟩
  cases h with
  | same => exact ⟨⟨ha, hs, hc⟩, hup⟩
  | update p i j hi hst =>
    have hmem := inode_at_mem _ _ _ hi
    obtain ⟨c1, c2, c3⟩ := hcnt _ hmem
    obtain ⟨k1, k2, k3, k4⟩ := inode_step_counters n i j hst hn (hc _ hmem) c1 c2 c3
    refine ⟨⟨?_, ?_, ?_⟩, ?_⟩
    · rw [open_addrs_store]; exact ha
    · rw [open_sectors_store _ _ _ _ hi (inode_step_sector _ _ hst)]; exact hs
    · intro e he
      rcases mem_inode_store _ _ _ _ he with he | he
      · exact hc e he
      · rw [he]; exact k1
    · intro e he
      rcases mem_inode_store _ _ _ _ he with he | he
      · exact hup e he
      · rw [he]; exact ⟨k2, k3, k4⟩
  | unlink p i hi h0 =>
    have hsub := inode_unlink_sublist l p
    refine ⟨⟨?_, ?_, ?_⟩, ?_⟩
    · exact List.Nodup.sublist (hsub.map _) ha
    · exact List.Nodup.sublist (hsub.map _) hs
    · intro e he
      exact hc e (hsub.subset he)
    · intro e he
      exact hup e (hsub.subset he)
  | push i hsec hcnt1 hr hd =>
    refine ⟨⟨?_, ?_, ?_⟩, ?_⟩
    · exact List.nodup_cons.mpr ⟨fresh_addr_not_mem l, ha⟩
    · exact List.nodup_cons.mpr ⟨hsec, hs⟩
    · intro e he
      rcases List.mem_cons.mp he with he | he
      · rw [he]; show 1 ≤ i.open_cnt; omega
      · exact hc e he
    · intro e he
      rcases List.mem_cons.mp he with he | he
      · rw [he]
        show i.open_cnt ≤ n + 1 ∧ 0 ≤ i.deny_write_cnt ∧ i.deny_write_cnt ≤ n + 1
        omega
      · exact hup e he

theorem run_table_ok (ops : List Op) : ∀ (n : Int) (w w' : World), 0 ≤ n →
    table_ok w.open_inodes → counters_le n w.open_inodes →
    n + ops.length ≤ 2147483647 → run w ops = some w' →
    table_ok w'.open_inodes ∧ counters_le (n + ops.length) w'.open_inodes := by
  induction ops with
  | nil =>
    intro n w w' _ hw hc _ h
    simp only [run, Option.some.injEq] at h
    rw [← h]
    simpa using ⟨hw, hc⟩
  | cons o rest ih =>
    intro n w w' hn0 hw hc hlen h
    rw [run] at h
    simp only [List.length_cons, Nat.cast_add, Nat.cast_one] at hlen ⊢
    cases hs : step w o with
    | none => rw [hs] at h; simp at h
    | some w1 =>
      rw [hs] at h
      obtain ⟨t1, t2⟩ := table_step_ok n _ _ hw hc hn0 (by omega) (step_table _ _ _ hw.1 hs)
      have := ih (n + 1) w1 w' (by omega) t1 t2 (by omega) h
      have e : n + ((rest.length : Int) + 1) = n + 1 + rest.length := by ring
      rw [e]
      exact this

/-- The table of open inodes is empty after `inode_init`. -/
theorem inode_init_table (w0 : World) :
    table_ok (inode_init w0).open_inodes ∧ counters_le 0 (inode_init w0).open_inodes :=
  ⟨⟨List.nodup_nil, List.nodup_nil, by intro e he; simp [inode_init] at he⟩,
    by intro e he; simp [inode_init] at he⟩

theorem inode_at_unlink_same (l : List (Nat × inode)) (p : Nat) (hn : (open_addrs l).Nodup) :
    inode_at (inode_unlink l p) p = none := by
  induction l with
  | nil => rfl
  | cons x rest ih =>
    obtain ⟨a, k⟩ := x
    have hn0 := List.nodup_cons.mp (show (a :: open_addrs rest).Nodup from hn)
    by_cases hap : a = p
    · subst hap
      simp only [inode_unlink, if_true]
      cases hr : inode_at rest a with
      | none => rfl
      | some i => exact absurd (mem_open_addrs _ _ (inode_at_mem _ _ _ hr)) hn0.1
    · simp [inode_unlink, inode_at, hap, ih hn0.2]

theorem inode_at_unlink_other (l : List (Nat × inode)) (p q : Nat) (hq : q ≠ p) :
    inode_at (inode_unlink l p) q = inode_at l q := by
  induction l with
  | nil => rfl
  | cons x rest ih =>
    obtain ⟨a, k⟩ := x
    by_cases hap : a = p
    · subst hap
      simp [inode_unlink, inode_at, Ne.symm hq]
    · by_cases haq : a = q
      · subst haq
        simp [inode_unlink, inode_at, hap]
      · simp [inode_unlink, inode_at, hap, haq, ih]

theorem table_step_removed (l l' : List (Nat × inode)) (hn : (open_addrs l).Nodup)
    (h : table_step l l') (p : Nat) (i i' : inode) (hi : inode_at l p = some i)
    (hr : i.removed = true) (hi' : inode_at l' p = some i') : i'.removed = true := by
  cases h with
  | same => rw [hi] at hi'; simp only [Option.some.injEq] at hi'; rw [← hi']; exact hr
  | update q j k hj hst =>
    by_cases hqp : q = p
    · subst hqp
      rw [hi] at hj
      simp only [Option.some.injEq] at hj
      subst hj
      rw [inode_at_store_same _ _ _ _ hi] at hi'
      simp only [Option.some.injEq] at hi'
      rw [← hi']
      exact inode_step_removed _ _ hst hr
    · rw [inode_at_store_other _ _ _ _ (Ne.symm hqp), hi] at hi'
      simp only [Option.some.injEq] at hi'
      rw [← hi']; exact hr
  | unlink q j hj h0 =>
    by_cases hqp : q = p
    · subst hqp
      rw [inode_at_unlink_same _ _ hn] at hi'
      simp at hi'
    · rw [inode_at_unlink_other _ _ _ (Ne.symm hqp), hi] at hi'
      simp only [Option.some.injEq] at hi'
      rw [← hi']; exact hr
  | push k hsec hcnt hrk hd =>
    have hne : fresh_addr l ≠ p := by
      have := lt_fresh_addr l p (mem_open_addrs _ _ (inode_at_mem _ _ _ hi))
      omega
    simp only [inode_at, hne, if_false] at hi'
    rw [hi] at hi'
    simp only [Option.some.injEq] at hi'
    rw [← hi']; exact hr

/-! ### Rules for `while_loop` -/

theorem while_loop_inv {σ ρ : Type} (body : σ → Option (Sum ρ σ)) (I : σ → Prop) (Q : ρ → Prop)
    (hexit : ∀ s r, I s → body s = some (Sum.inl r) → Q r)
    (hnext : ∀ s s', I s → body s = some (Sum.inr s') → I s') :
    ∀ (fuel : Nat) (s : σ) (r : ρ), I s → while_loop body fuel s = some r → Q r := by
  intro fuel
  induction fuel with
  | zero => intro s r _ h; simp [while_loop] at h
  | succ fuel ih =>
    intro s r hI h
    rw [while_loop] at h
    cases hb : body s with
    | none => simp [hb] at h
    | some x =>
      cases x with
      | inl r' =>
        simp only [hb, Option.some.injEq] at h
        subst h
        exact hexit s r' hI hb
      | inr s' =>
        simp only [hb] at h
        exact ih s' r (hnext s s' hI hb) h

theorem while_loop_total {σ ρ : Type} (body : σ → Option (Sum ρ σ)) (I : σ → Prop)
    (Q : ρ → Prop) (μ : σ → Nat)
    (hbody : ∀ s, I s → (∃ r, body s = some (Sum.inl r) ∧ Q r) ∨
      (∃ s', body s = some (Sum.inr s') ∧ I s' ∧ μ s' < μ s)) :
    ∀ (fuel : Nat) (s : σ), I s → μ s < fuel → ∃ r, while_loop body fuel s = some r ∧ Q r := by
  intro fuel
  induction fuel with
  | zero => intro s _ h; omega
  | succ fuel ih =>
    intro s hI hμ
    rw [while_loop]
    rcases hbody s hI with ⟨r, hb, hq⟩ | ⟨s', hb, hI', hlt⟩
    · exact ⟨r, by simp [hb], hq⟩
    · obtain ⟨r, hr, hq⟩ := ih s' hI' (by omega)
      exact ⟨r, by simp [hb, hr], hq⟩

theorem while_loop_map {σ ρ : Type} (body : σ → Option (Sum ρ σ)) (g : σ → σ) (gr : ρ → ρ)
    (hbody : ∀ s, body (g s) = (body s).map (Sum.map gr g)) :
    ∀ (fuel : Nat) (s : σ), while_loop body fuel (g s) = (while_loop body fuel s).map gr := by
  intro fuel
  induction fuel with
  | zero => intro s; simp [while_loop]
  | succ fuel ih =>
    intro s
    rw [while_loop, while_loop, hbody]
    cases hb : body s with
    | none => simp
    | some x =>
      cases x with
      | inl r => simp
      | inr s' => simp [ih]

/-! ### Reading -/

theorem to_off_t_of_range (x : Int) (h1 : -2147483648 ≤ x) (h2 : x < 2147483648) :
    to_off_t x = x := by
  unfold to_off_t
  omega

theorem to_off_t_range (x : Int) : -2147483648 ≤ to_off_t x ∧ to_off_t x < 2147483648 := by
  unfold to_off_t
  omega

theorem disk_length_lt (inoded : inode_disk) : disk_length inoded < 2147483648 :=
  (to_off_t_range _).2

theorem byte_to_sector_eof (d : Disk) (inoded : inode_disk) (pos : Int)
    (h : ¬ pos < disk_length inoded) : byte_to_sector d inoded pos = some SECTOR_NONE := by
  unfold byte_to_sector
  rw [if_neg h]

theorem tmod_sector (offset : Int) (h : 0 ≤ offset) :
    Int.tmod offset (BLOCK_SECTOR_SIZE : Nat) = offset % 512 := by
  simp only [BLOCK_SECTOR_SIZE, Nat.cast_ofNat]
  exact Int.tmod_eq_emod h (by decide)

/-- The chunk is the least of `size`, the bytes left in the inode and the bytes left in the
sector, when no subtraction leaves the range of `off_t`. -/
theorem chunk_size_eq (size offset length : Int) (hoff : 0 ≤ offset)
    (h1 : -2147483648 ≤ length - offset) (h2 : length - offset < 2147483648) :
    chunk_size size offset length = min size (min (length - offset) (512 - offset % 512)) := by
  unfold chunk_size
  simp only [tmod_sector offset hoff, to_off_t_of_range _ h1 h2]
  simp only [BLOCK_SECTOR_SIZE, Nat.cast_ofNat]
  split_ifs <;> omega

theorem block_read_some (d : Disk) (s : Nat) (h : s < d.fs_device_size) :
    block_read d s = some (d.fs_device s) := by
  unfold block_read
  rw [if_pos h]

/-- One iteration of the read loop when every sector it needs can be read: it either leaves
the loop at end of file or with `size = 0`, or copies a chunk of at least one byte. -/
theorem inode_read_body_spec (d : Disk) (inoded : inode_disk) (v : read_vars)
    (hsize : 0 ≤ v.size) (hoff : 0 ≤ v.offset) (hoff2 : v.offset < 2147483648)
    (hlen : 0 ≤ disk_length inoded)
    (hmap : v.offset < disk_length inoded → 0 < v.size →
      ∃ s, byte_to_sector d inoded v.offset = some s ∧ s < d.fs_device_size) :
    (inode_read_body true d inoded v = some (Sum.inl (v.buffer, v.bytes_read)) ∧
      min v.size (max 0 (disk_length inoded - v.offset)) = 0) ∨
    (∃ (c : Int) (b : Buffer) (bn : Bool), 0 < c ∧ c ≤ v.size ∧
      c ≤ disk_length inoded - v.offset ∧
      inode_read_body true d inoded v = some (Sum.inr
        { buffer := b, size := v.size - c, offset := v.offset + c,
          bytes_read := v.bytes_read + c, bounce := bn })) := by
  have hlen2 := disk_length_lt inoded
  have hc := chunk_size_eq v.size v.offset (disk_length inoded) hoff (by omega) (by omega)
  unfold inode_read_body
  by_cases hs : v.size > 0
  · rw [if_pos hs]
    by_cases hlt : v.offset < disk_length inoded
    · obtain ⟨s, hs1, hs2⟩ := hmap hlt hs
      rw [hs1]
      right
      have hpos : ¬ chunk_size v.size v.offset (disk_length inoded) ≤ 0 := by
        rw [hc]; omega
      refine ⟨chunk_size v.size v.offset (disk_length inoded), ?_⟩
      simp only [tmod_sector _ hoff, block_read_some _ _ hs2, if_neg hpos]
      by_cases hfull : v.offset % 512 = 0 ∧
          chunk_size v.size v.offset (disk_length inoded) = (BLOCK_SECTOR_SIZE : Nat)
      · rw [if_pos hfull]
        exact ⟨_, _, by omega, by omega, by omega, rfl⟩
      · rw [if_neg hfull]
        have hofs : ¬ v.offset % 512 < 0 := by omega
        simp only [Bool.true_eq_false, and_false, if_false, hofs]
        exact ⟨_, _, by omega, by omega, by omega, rfl⟩
    · rw [byte_to_sector_eof _ _ _ hlt]
      left
      have hle : chunk_size v.size v.offset (disk_length inoded) ≤ 0 := by
        rw [hc]; omega
      simp only [if_pos hle]
      refine ⟨trivial, ?_⟩
      omega
  · rw [if_neg hs]
    left
    refine ⟨rfl, ?_⟩
    omega

/-! ## What a read returns -/

theorem tdiv_sector (offset : Int) (h : 0 ≤ offset) :
    Int.tdiv offset (BLOCK_SECTOR_SIZE : Nat) = offset / 512 := by
  simp only [BLOCK_SECTOR_SIZE, Nat.cast_ofNat]
  exact Int.tdiv_eq_ediv h (by decide)

/-- A chunk never crosses the end of the sector. -/
theorem chunk_size_le_sector (size offset length : Int) (hoff : 0 ≤ offset) :
    chunk_size size offset length ≤ 512 - offset % 512 := by
  unfold chunk_size
  simp only [tmod_sector offset hoff]
  simp only [BLOCK_SECTOR_SIZE, Nat.cast_ofNat]
  split_ifs <;> omega

theorem chunk_size_le_size (size offset length : Int) :
    chunk_size size offset length ≤ size := by
  unfold chunk_size
  simp only []
  split_ifs <;> omega

/-- A chunk never crosses the end of a file whose length is not negative. -/
theorem chunk_size_le_left (size offset length : Int) (hoff : 0 ≤ offset)
    (hoff2 : offset < 2147483648) (h0 : 0 ≤ length) (h1 : length < 2147483648) :
    chunk_size size offset length ≤ length - offset := by
  rw [chunk_size_eq size offset length hoff (by omega) (by omega)]
  omega

/-- One iteration of the read loop in normal form: the two copy paths are one `memcpy`. -/
theorem inode_read_body_eq (mem : Bool) (d : Disk) (inoded : inode_disk) (v : read_vars)
    (hoff : 0 ≤ v.offset) :
    inode_read_body mem d inoded v =
      if v.size > 0 then
        match byte_to_sector d inoded v.offset with
        | none => none
        | some s =>
          if chunk_size v.size v.offset (disk_length inoded) ≤ 0 then
            some (Sum.inl (v.buffer, v.bytes_read))
          else if ¬ (v.offset % 512 = 0 ∧ chunk_size v.size v.offset (disk_length inoded) = 512)
              ∧ v.bounce = false ∧ mem = false then
            some (Sum.inl (v.buffer, v.bytes_read))
          else
            match block_read d s with
            | none => none
            | some sec =>
              some (Sum.inr
                { buffer := memcpy v.buffer v.bytes_read.toNat sec (v.offset % 512).toNat
                    (chunk_size v.size v.offset (disk_length inoded)).toNat,
                  size := v.size - chunk_size v.size v.offset (disk_length inoded),
                  offset := v.offset + chunk_size v.size v.offset (disk_length inoded),
                  bytes_read := v.bytes_read + chunk_size v.size v.offset (disk_length inoded),
                  bounce := if v.offset % 512 = 0 ∧
                    chunk_size v.size v.offset (disk_length inoded) = 512 then v.bounce
                    else true })
      else some (Sum.inl (v.buffer, v.bytes_read)) := by
  unfold inode_read_body
  by_cases hs : v.size > 0
  · rw [if_pos hs, if_pos hs]
    cases hb : byte_to_sector d inoded v.offset with
    | none => rfl
    | some s =>
      simp only [tmod_sector _ hoff]
      by_cases hle : chunk_size v.size v.offset (disk_length inoded) ≤ 0
      · rw [if_pos hle, if_pos hle]
      · rw [if_neg hle, if_neg hle]
        by_cases hfull : v.offset % 512 = 0 ∧
            chunk_size v.size v.offset (disk_length inoded) = 512
        · have hfull' : v.offset % 512 = 0 ∧
            chunk_size v.size v.offset (disk_length inoded) = (BLOCK_SECTOR_SIZE : Nat) := by
            simpa [BLOCK_SECTOR_SIZE] using hfull
          rw [if_pos hfull', if_neg (by simp [hfull])]
          cases block_read d s with
          | none => rfl
          | some sec =>
            simp only []
            rw [if_pos hfull, hfull.1, hfull.2]
            rfl
        · have hfull' : ¬ (v.offset % 512 = 0 ∧
            chunk_size v.size v.offset (disk_length inoded) = (BLOCK_SECTOR_SIZE : Nat)) := by
            simpa [BLOCK_SECTOR_SIZE] using hfull
          rw [if_neg hfull']
          by_cases hbm : v.bounce = false ∧ mem = false
          · rw [if_pos hbm, if_pos ⟨hfull, hbm⟩]
          · have hofs : ¬ v.offset % 512 < 0 := by omega
            rw [if_neg hbm, if_neg hofs, if_neg (fun h => hbm h.2)]
            cases block_read d s with
            | none => rfl
            | some sec =>
              simp only []
              rw [if_neg hfull]
  · rw [if_neg hs, if_neg hs]

theorem block_read_eq_some (d : Disk) (s : Nat) (sec : Sector) (h : block_read d s = some sec) :
    s < d.fs_device_size ∧ sec = d.fs_device s := by
  unfold block_read at h
  by_cases hs : s < d.fs_device_size
  · rw [if_pos hs] at h
    simp only [Option.some.injEq] at h
    exact ⟨hs, h.symm⟩
  · rw [if_neg hs] at h
    simp at h

theorem inode_read_body_inl (mem : Bool) (d : Disk) (inoded : inode_disk) (v : read_vars)
    (hoff : 0 ≤ v.offset) (r : Buffer × Int)
    (h : inode_read_body mem d inoded v = some (Sum.inl r)) :
    r = (v.buffer, v.bytes_read) := by
  rw [inode_read_body_eq mem d inoded v hoff] at h
  by_cases hs : v.size > 0
  · rw [if_pos hs] at h
    cases hb : byte_to_sector d inoded v.offset with
    | none => rw [hb] at h; simp at h
    | some s =>
      rw [hb] at h
      simp only [] at h
      by_cases hle : chunk_size v.size v.offset (disk_length inoded) ≤ 0
      · rw [if_pos hle] at h
        simp only [Option.some.injEq, Sum.inl.injEq] at h
        exact h.symm
      · rw [if_neg hle] at h
        by_cases hbr : ¬ (v.offset % 512 = 0 ∧
            chunk_size v.size v.offset (disk_length inoded) = 512) ∧ v.bounce = false ∧
              mem = false
        · rw [if_pos hbr] at h
          simp only [Option.some.injEq, Sum.inl.injEq] at h
          exact h.symm
        · rw [if_neg hbr] at h
          cases hr : block_read d s with
          | none => rw [hr] at h; simp at h
          | some sec => rw [hr] at h; simp at h
  · rw [if_neg hs] at h
    simp only [Option.some.injEq, Sum.inl.injEq] at h
    exact h.symm

theorem inode_read_body_inr (mem : Bool) (d : Disk) (inoded : inode_disk) (v v' : read_vars)
    (hoff : 0 ≤ v.offset) (h : inode_read_body mem d inoded v = some (Sum.inr v')) :
    ∃ s, byte_to_sector d inoded v.offset = some s ∧ s < d.fs_device_size ∧
      0 < chunk_size v.size v.offset (disk_length inoded) ∧
      v'.buffer = memcpy v.buffer v.bytes_read.toNat (d.fs_device s) (v.offset % 512).toNat
        (chunk_size v.size v.offset (disk_length inoded)).toNat ∧
      v'.size = v.size - chunk_size v.size v.offset (disk_length inoded) ∧
      v'.offset = v.offset + chunk_size v.size v.offset (disk_length inoded) ∧
      v'.bytes_read = v.bytes_read + chunk_size v.size v.offset (disk_length inoded) := by
  rw [inode_read_body_eq mem d inoded v hoff] at h
  by_cases hs : v.size > 0
  · rw [if_pos hs] at h
    cases hb : byte_to_sector d inoded v.offset with
    | none => rw [hb] at h; simp at h
    | some s =>
      rw [hb] at h
      simp only [] at h
      by_cases hle : chunk_size v.size v.offset (disk_length inoded) ≤ 0
      · rw [if_pos hle] at h
        simp at h
      · rw [if_neg hle] at h
        by_cases hbr : ¬ (v.offset % 512 = 0 ∧
            chunk_size v.size v.offset (disk_length inoded) = 512) ∧ v.bounce = false ∧
              mem = false
        · rw [if_pos hbr] at h
          simp at h
        · rw [if_neg hbr] at h
          cases hr : block_read d s with
          | none => rw [hr] at h; simp at h
          | some sec =>
            rw [hr] at h
            simp only [Option.some.injEq, Sum.inr.injEq] at h
            obtain ⟨hs2, hsec⟩ := block_read_eq_some _ _ _ hr
            subst hsec
            rw [← h]
            exact ⟨s, rfl, hs2, by omega, rfl, rfl, rfl, rfl⟩
  · rw [if_neg hs] at h
    simp at h

/-- Within a chunk every byte is looked up like the first one: a position in the same sector
and on the same side of the end of file gives the same result. -/
theorem byte_to_sector_same (d : Disk) (inoded : inode_disk) (pos pos' : Int) (h0 : 0 ≤ pos)
    (hdiv : pos' / 512 = pos / 512)
    (hside : pos' < disk_length inoded ↔ pos < disk_length inoded) :
    byte_to_sector d inoded pos' = byte_to_sector d inoded pos := by
  have h0' : 0 ≤ pos' := by omega
  unfold byte_to_sector
  by_cases h : pos < disk_length inoded
  · rw [if_pos h, if_pos (hside.mpr h), tdiv_sector _ h0, tdiv_sector _ h0', hdiv]
  · rw [if_neg h, if_neg (fun h' => h (hside.mp h'))]

/-- What a read returns: it reads `n` bytes, below the length when the length is not negative,
and byte `j` of the result is the byte at `(offset + j) % 512` of the device sector that
`byte_to_sector` gives for position `offset + j`. -/
theorem read_loop_content (mem : Bool) (d : Disk) (inoded : inode_disk) (fuel : Nat)
    (buffer : Buffer) (size offset : Int) (hoff : 0 ≤ offset) (hoff2 : offset < 2147483648)
    (out : Buffer) (n : Int)
    (h : while_loop (inode_read_body mem d inoded) fuel
      { buffer := buffer, size := size, offset := offset, bytes_read := 0, bounce := false }
      = some (out, n)) :
    0 ≤ n ∧ ∀ j : Nat, (j : Int) < n →
      (0 ≤ disk_length inoded → offset + j < disk_length inoded) ∧
      ∃ s, byte_to_sector d inoded (offset + j) = some s ∧ s < d.fs_device_size ∧
        out j = d.fs_device s ((offset + j) % 512).toNat := by
  have hlen2 := disk_length_lt inoded
  refine while_loop_inv (inode_read_body mem d inoded)
    (fun v => 0 ≤ v.bytes_read ∧ v.offset = offset + v.bytes_read ∧
      (0 ≤ disk_length inoded → v.offset ≤ max offset (disk_length inoded)) ∧
      ∀ j : Nat, (j : Int) < v.bytes_read →
        (0 ≤ disk_length inoded → offset + j < disk_length inoded) ∧
        ∃ s, byte_to_sector d inoded (offset + j) = some s ∧ s < d.fs_device_size ∧
          v.buffer j = d.fs_device s ((offset + j) % 512).toNat)
    (fun r => 0 ≤ r.2 ∧ ∀ j : Nat, (j : Int) < r.2 →
      (0 ≤ disk_length inoded → offset + j < disk_length inoded) ∧
      ∃ s, byte_to_sector d inoded (offset + j) = some s ∧ s < d.fs_device_size ∧
        r.1 j = d.fs_device s ((offset + j) % 512).toNat)
    ?_ ?_ fuel _ (out, n) ?_ h
  · intro v r ⟨h1, h2, h3, h4⟩ hb
    have := inode_read_body_inl mem d inoded v (by omega) r hb
    subst this
    exact ⟨h1, h4⟩
  · intro v v' ⟨h1, h2, h3, h4⟩ hb
    obtain ⟨s, hs, hsz, hc, hbuf, -, hof, hbr⟩ :=
      inode_read_body_inr mem d inoded v v' (by omega) hb
    have hcs := chunk_size_le_sector v.size v.offset (disk_length inoded) (by omega)
    have hcl : 0 ≤ disk_length inoded →
        chunk_size v.size v.offset (disk_length inoded) ≤ disk_length inoded - v.offset :=
      fun h0 => chunk_size_le_left _ _ _ (by omega) (by have := h3 h0; omega) h0 hlen2
    generalize chunk_size v.size v.offset (disk_length inoded) = c at *
    refine ⟨by omega, by omega, ?_, ?_⟩
    · intro h0
      have := hcl h0
      omega
    intro j hj
    by_cases hjo : (j : Int) < v.bytes_read
    · obtain ⟨ha, s', hs', hsz', hv⟩ := h4 j hjo
      refine ⟨ha, s', hs', hsz', ?_⟩
      rw [hbuf, ← hv]
      unfold memcpy
      rw [if_neg (by omega)]
    · refine ⟨fun h0 => by have := hcl h0; omega, s, ?_, hsz, ?_⟩
      · rw [← hs]
        refine byte_to_sector_same d inoded v.offset (offset + j) (by omega) (by omega) ?_
        by_cases h0 : 0 ≤ disk_length inoded
        · have := hcl h0
          constructor <;> intro <;> omega
        · constructor <;> intro <;> omega
      · rw [hbuf]
        unfold memcpy
        rw [if_pos (by omega)]
        congr 1
        omega
  · exact ⟨le_refl _, by simp, by intro _; simp, by intro j hj; simp only at hj; omega⟩

/-! ## The lookup in the double-indirect region -/

/-- In the double-indirect region the lookup computes the slot numbers as `x / 512 / 4` and
`x % 512 / 4`: the logical sectors 632 and 633 (and 634, 635) get the same slot. -/
theorem _byte_to_sector_collision (d : Disk) (inoded : inode_disk) :
    _byte_to_sector d inoded 633 = _byte_to_sector d inoded 632 := by
  simp [_byte_to_sector, _byte_to_sector_loop, NUM_OF_DIRECT_POINTER, NUM_OF_INDIRECT_POINTER,
    BLOCK_SECTOR_SIZE, sizeof_block_sector_t]
  rfl

theorem byte_to_sector_lt (d : Disk) (inoded : inode_disk) (pos : Int)
    (h : pos < disk_length inoded) :
    byte_to_sector d inoded pos =
      _byte_to_sector d inoded (Int.tdiv pos (BLOCK_SECTOR_SIZE : Nat)) := by
  unfold byte_to_sector
  rw [if_pos h]

/-- A read never returns different bytes at the same place of the logical sectors 632 and
633: both come from the same device sector. -/
theorem read_collision (mem : Bool) (w w' : World) (q : Nat) (buffer out : Buffer)
    (size offset n : Int) (j1 j2 : Nat)
    (h : inode_read_at mem w q buffer size offset = some (w', out, n))
    (hoff : 0 ≤ offset) (hoff2 : offset < 2147483648) (hj1 : (j1 : Int) < n)
    (hj2 : (j2 : Int) < n) (h1 : (offset + j1) / 512 = 632) (h2 : (offset + j2) / 512 = 633)
    (hm : (offset + j1) % 512 = (offset + j2) % 512) : out j1 = out j2 := by
  unfold inode_read_at at h
  cases hi : inode_at w.open_inodes q with
  | none => rw [hi] at h; simp at h
  | some i =>
    rw [hi] at h
    simp only [] at h
    cases hl : while_loop (inode_read_body mem w.disk i.data) (size.toNat + 1)
        { buffer := buffer, size := size, offset := offset, bytes_read := 0,
          bounce := false } with
    | none => rw [hl] at h; simp at h
    | some r =>
      obtain ⟨b, m⟩ := r
      rw [hl] at h
      simp only [Option.some.injEq, Prod.mk.injEq] at h
      obtain ⟨-, hb, hn⟩ := h
      subst hb hn
      obtain ⟨-, hc⟩ := read_loop_content mem w.disk i.data _ buffer size offset hoff hoff2
        b m hl
      obtain ⟨ha1, s1, hs1, -, ho1⟩ := hc j1 hj1
      obtain ⟨ha2, s2, hs2, -, ho2⟩ := hc j2 hj2
      have hs : s1 = s2 := by
        by_cases h0 : 0 ≤ disk_length i.data
        · rw [byte_to_sector_lt _ _ _ (ha1 h0), tdiv_sector _ (by omega), h1] at hs1
          rw [byte_to_sector_lt _ _ _ (ha2 h0), tdiv_sector _ (by omega), h2,
            _byte_to_sector_collision, hs1] at hs2
          simpa using hs2
        · rw [byte_to_sector_eof _ _ _ (by omega)] at hs1 hs2
          simp only [Option.some.injEq] at hs1 hs2
          omega
      rw [ho1, ho2, hs, hm]

/-! ## Reading a result off one evaluation -/

theorem exists_of_check {α β : Type} (o : Option (α × β)) (P : α → β → Prop)
    [∀ a b, Decidable (P a b)]
    (h : (match o with
      | some (a, b) => decide (P a b)
      | none => false) = true) : ∃ a b, o = some (a, b) ∧ P a b := by
  cases o with
  | none => simp at h
  | some x => obtain ⟨a, b⟩ := x; exact ⟨a, b, rfl, by simpa using h⟩

theorem exists_of_check_true {β : Type} (o : Option (Bool × β)) (P : β → Prop)
    [∀ b, Decidable (P b)]
    (h : (match o with
      | some (true, b) => decide (P b)
      | _ => false) = true) : ∃ b, o = some (true, b) ∧ P b := by
  cases o with
  | none => simp at h
  | some x =>
    obtain ⟨a, b⟩ := x
    cases a with
    | false => simp at h
    | true => exact ⟨b, rfl, by simpa using h⟩

theorem exists_of_map_true {β : Type} (o : Option (Bool × β)) (P : β → Prop)
    [∀ b, Decidable (P b)]
    (h : o.map (fun r => r.1 && decide (P r.2)) = some true) :
    ∃ b, o = some (true, b) ∧ P b := by
  cases o with
  | none => simp at h
  | some x =>
    obtain ⟨a, b⟩ := x
    cases a with
    | false => simp at h
    | true => exact ⟨b, rfl, by simpa using h⟩

theorem exists_of_map {α : Type} (o : Option α) (P : α → Prop) [∀ a, Decidable (P a)]
    (h : o.map (fun a => decide (P a)) = some true) : ∃ a, o = some a ∧ P a := by
  cases o with
  | none => simp at h
  | some a => exact ⟨a, rfl, by simpa using h⟩

theorem exists_of_continue {ρ σ : Type} (o : Option (Sum ρ σ)) (P : σ → Prop)
    [∀ s, Decidable (P s)]
    (h : o.map (Sum.elim (fun _ => false) (fun s => decide (P s))) = some true) :
    ∃ s, o = some (Sum.inr s) ∧ P s := by
  cases o with
  | none => simp at h
  | some x =>
    cases x with
    | inl r => simp at h
    | inr s => exact ⟨s, rfl, by simpa using h⟩

/-! ## Words and blocks -/

theorem block_write_eq_some (d d' : Disk) (s : Nat) (buf : Sector)
    (h : block_write d s buf = some d') :
    s < d.fs_device_size ∧ d'.fs_device_size = d.fs_device_size ∧ d'.free_map = d.free_map ∧
    d'.fs_device = fun t => if t = s then (fun k => if k < 512 then buf k else 0)
      else d.fs_device t := by
  unfold block_write at h
  by_cases hs : s < d.fs_device_size
  · rw [if_pos hs] at h
    simp only [Option.some.injEq] at h
    subst h
    exact ⟨hs, rfl, rfl, rfl⟩
  · rw [if_neg hs] at h
    simp at h

theorem inode_allocate_indirect_true (k : Nat) : ∀ (i : Nat) (d : Disk) (inoded : inode_disk)
    (n : Nat) (r : inode_disk × Disk × Nat),
    inode_allocate_indirect k i d inoded n = some (some true, r) → n ≤ 128 * k := by
  induction k with
  | zero =>
    intro i d inoded n r h
    simp [inode_allocate_indirect] at h
  | succ k ih =>
    intro i d inoded n r h
    unfold inode_allocate_indirect at h
    split at h
    · simp at h
    · simp at h
    · split at h
      · simp at h
      · simp only [BLOCK_SECTOR_SIZE, sizeof_block_sector_t] at h
        generalize hm : (if n < 512 / 4 then n else 512 / 4) = m at h
        have hm2 : m = min n 128 := by
          split at hm <;> omega
        split at h
        · simp at h
        · simp at h
        · split at h
          · simp at h
          · by_cases h0 : n - m = 0
            · omega
            · rw [if_neg h0] at h
              have := ih _ _ _ _ _ h
              omega

theorem inode_allocate_double_true (stack : Sector) (inoded : inode_disk) (k : Nat) :
    ∀ (i : Nat) (d : Disk) (level1ptr : inode_indirect_pointer) (n : Nat) (d' : Disk),
    inode_allocate_double stack inoded k i d level1ptr n = some (some true, d') →
    double_indirect_pointer inoded < d'.fs_device_size ∧
    d'.fs_device (double_indirect_pointer inoded) = fun j => if j < 512 then stack j else 0 := by
  induction k with
  | zero =>
    intro i d level1ptr n d' h
    simp [inode_allocate_double] at h
  | succ k ih =>
    intro i d level1ptr n d' h
    unfold inode_allocate_double at h
    split at h
    · simp at h
    · simp at h
    · split at h
      · simp at h
      · simp only [BLOCK_SECTOR_SIZE, sizeof_block_sector_t] at h
        generalize (if n < 512 / 4 then n else 512 / 4) = m at h
        split at h
        · simp at h
        · simp at h
        · split at h
          · simp at h
          · by_cases h0 : n - m = 0
            · rw [if_pos h0] at h
              split at h
              · simp at h
              · rename_i d1 d2 hw
                simp only [Option.some.injEq, Prod.mk.injEq, true_and] at h
                subst h
                obtain ⟨h1, h2, -, h4⟩ := block_write_eq_some _ _ _ _ hw
                rw [h2, h4]
                exact ⟨h1, by simp⟩
            · rw [if_neg h0] at h
              exact ih _ _ _ _ _ h

/-- A successful `inode_allocate` for more than 632 sectors leaves in the double-indirect
sector the 512 bytes of the stack at `&level1ptr`, not the table `level1ptr` points to. -/
theorem inode_allocate_true_double (stack : Sector) (d d' : Disk) (inoded inoded' : inode_disk)
    (length : Int) (h : inode_allocate stack d inoded length = some (true, inoded', d'))
    (hn : 632 < bytes_to_sectors length) :
    double_indirect_pointer inoded' < d'.fs_device_size ∧
    d'.fs_device (double_indirect_pointer inoded') =
      fun j => if j < 512 then stack j else 0 := by
  unfold inode_allocate at h
  split at h
  · simp at h
  · simp only [NUM_OF_DIRECT_POINTER, NUM_OF_INDIRECT_POINTER, BLOCK_SECTOR_SIZE,
      sizeof_block_sector_t] at h
    generalize hN : bytes_to_sectors length = N at h hn
    generalize hm : (if N < 120 then N else 120) = m at h
    have hm2 : m = 120 := by split at hm <;> omega
    subst hm2
    split at h
    · simp at h
    · simp at h
    · rw [if_neg (by omega)] at h
      split at h
      · simp at h
      · rename_i b i1 d1 n1 hi
        simp only [Option.some.injEq, Prod.mk.injEq] at h
        obtain ⟨hb, -, -⟩ := h
        subst hb
        have := inode_allocate_indirect_true _ _ _ _ _ _ hi
        omega
      · split at h
        · simp at h
        · simp at h
        · split at h
          · simp at h
          · split at h
            · simp at h
            · rename_i b d2 hd
              simp only [Option.some.injEq, Prod.mk.injEq] at h
              obtain ⟨hb, hi, hd'⟩ := h
              subst hb hi hd'
              exact inode_allocate_double_true _ _ _ _ _ _ _ _ hd
            · simp at h

theorem get_word_set_word_same (s : Sector) (j v : Nat) :
    get_word (set_word s j v) j = v % 4294967296 := by
  unfold get_word set_word
  have h0 : 4 * j / 4 = j := by omega
  have h1 : (4 * j + 1) / 4 = j := by omega
  have h2 : (4 * j + 2) / 4 = j := by omega
  have h3 : (4 * j + 3) / 4 = j := by omega
  have m0 : 4 * j % 4 = 0 := by omega
  have m1 : (4 * j + 1) % 4 = 1 := by omega
  have m2 : (4 * j + 2) % 4 = 2 := by omega
  have m3 : (4 * j + 3) % 4 = 3 := by omega
  simp only [h0, h1, h2, h3, m0, m1, m2, m3, if_true]
  norm_num
  omega

theorem get_word_set_word_other (s : Sector) (i j v : Nat) (h : i ≠ j) :
    get_word (set_word s j v) i = get_word s i := by
  unfold get_word set_word
  have h0 : ¬ 4 * i / 4 = j := by omega
  have h1 : ¬ (4 * i + 1) / 4 = j := by omega
  have h2 : ¬ (4 * i + 2) / 4 = j := by omega
  have h3 : ¬ (4 * i + 3) / 4 = j := by omega
  simp only [h0, h1, h2, h3, if_false]

theorem get_word_block (buf : Sector) (j : Nat) (h : j < 128) :
    get_word (fun k => if k < 512 then buf k else 0) j = get_word buf j := by
  unfold get_word
  have h0 : 4 * j < 512 := by omega
  have h1 : 4 * j + 1 < 512 := by omega
  have h2 : 4 * j + 2 < 512 := by omega
  have h3 : 4 * j + 3 < 512 := by omega
  simp only [h0, h1, h2, h3, if_true]

theorem get_word_set_is_dir (s : Sector) (b : Bool) (j : Nat) (h : j ≠ 126) :
    get_word (set_is_dir s b) j = get_word s j := by
  unfold get_word set_is_dir
  have h0 : ¬ 4 * j = 504 := by omega
  have h1 : ¬ 4 * j + 1 = 504 := by omega
  have h2 : ¬ 4 * j + 2 = 504 := by omega
  have h3 : ¬ 4 * j + 3 = 504 := by omega
  simp only [h0, h1, h2, h3, if_false]

theorem to_size_t_of_range (x : Int) (h1 : 0 ≤ x) (h2 : x < 4294967296) :
    to_size_t x = x.toNat := by
  unfold to_size_t
  congr 1
  omega

/-- The record `inode_create` builds before allocating carries the length asked for. -/
theorem disk_length_fresh (length : Int) (is_dir : Bool) (h1 : 0 ≤ length)
    (h2 : length < 2147483648) :
    disk_length (set_is_dir (set_magic (set_length zeros length) INODE_MAGIC) is_dir)
      = length := by
  unfold disk_length set_magic set_length
  rw [get_word_set_is_dir _ _ _ (by decide), get_word_set_word_other _ _ _ _ (by decide),
    get_word_set_word_same, to_size_t_of_range _ h1 (by omega)]
  rw [to_off_t_of_range] <;> omega

/-- The lookup of the logical sector 632, the first of the double-indirect region: slot 0 of
the double-indirect sector, then slot 0 of the sector it names. -/
theorem _byte_to_sector_double_first (d : Disk) (inoded : inode_disk) :
    _byte_to_sector d inoded 632 =
      (block_read d (double_indirect_pointer inoded)).bind (fun level1ptr =>
        (block_read d (get_word level1ptr 0)).map (fun level2ptr => get_word level2ptr 0)) := by
  simp [_byte_to_sector, _byte_to_sector_loop, NUM_OF_DIRECT_POINTER, NUM_OF_INDIRECT_POINTER,
    BLOCK_SECTOR_SIZE, sizeof_block_sector_t]
  cases block_read d (double_indirect_pointer inoded) with
  | none => rfl
  | some l1 =>
    cases h2 : block_read d (get_word l1 0) with
    | none => simp [h2]
    | some l2 => simp [h2]

/-! ## What the allocator may touch -/

theorem alloc_frame_refl (W : Nat → Prop) (d : Disk) : alloc_frame W d d :=
  ⟨rfl, rfl, ⟨0, rfl⟩, fun _ _ _ => rfl⟩

theorem alloc_frame_trans (W : Nat → Prop) (d1 d2 d3 : Disk) (h12 : alloc_frame W d1 d2)
    (h23 : alloc_frame W d2 d3) : alloc_frame W d1 d3 := by
  obtain ⟨a1, a2, ⟨c1, a3⟩, a4⟩ := h12
  obtain ⟨b1, b2, ⟨c2, b3⟩, b4⟩ := h23
  refine ⟨b1.trans a1, b2.trans a2, ⟨c1 + c2, ?_⟩, ?_⟩
  · rw [b3, a3, List.drop_drop, Nat.add_comm]
  · intro t ht hw
    rw [b4 t (fun hm => ht (List.mem_of_mem_drop (a3 ▸ hm))) hw, a4 t ht hw]

theorem alloc_frame_mono (W W' : Nat → Prop) (d d' : Disk) (hW : ∀ t, W t → W' t)
    (h : alloc_frame W d d') : alloc_frame W' d d' :=
  ⟨h.1, h.2.1, h.2.2.1, fun t ht hw => h.2.2.2 t ht (fun hh => hw (hW t hh))⟩

/-- The three ways `_inode_allocate` returns: the slot is in use; the slot is empty and the
free map has nothing left; the slot is empty and gets the first free sector, which is zeroed
on the device. -/
theorem _inode_allocate_cases (d : Disk) (buf : Sector) (j : Nat) (b : Bool) (buf' : Sector)
    (d' : Disk) (h : _inode_allocate d buf j = some (b, buf', d')) :
    (get_word buf j ≠ 0 ∧ b = true ∧ buf' = buf ∧ d' = d) ∨
    (get_word buf j = 0 ∧ d.free_map.free = [] ∧ b = false ∧ buf' = buf ∧ d' = d) ∨
    (get_word buf j = 0 ∧ b = true ∧ ∃ s rest, d.free_map.free = s :: rest ∧
      s < d.fs_device_size ∧ buf' = set_word buf j s ∧
      d'.fs_device_size = d.fs_device_size ∧ d'.free_map.free = rest ∧
      d'.free_map.released = d.free_map.released ∧
      d'.fs_device = fun t => if t = s then (fun k => if k < 512 then zeros k else 0)
        else d.fs_device t) := by
  unfold _inode_allocate at h
  by_cases h0 : get_word buf j = 0
  · rw [if_pos h0] at h
    unfold free_map_allocate at h
    cases hf : d.free_map.free with
    | nil =>
      rw [hf] at h
      simp only [Option.some.injEq, Prod.mk.injEq] at h
      obtain ⟨hb, hbuf, hd⟩ := h
      exact Or.inr (Or.inl ⟨h0, rfl, hb.symm, hbuf.symm, hd.symm⟩)
    | cons s rest =>
      rw [hf] at h
      simp only at h
      split at h
      · simp at h
      · rename_i d1 hw
        simp only [Option.some.injEq, Prod.mk.injEq] at h
        obtain ⟨hb, hbuf, hd⟩ := h
        subst hd
        obtain ⟨w1, w2, w3, w4⟩ := block_write_eq_some _ _ _ _ hw
        exact Or.inr (Or.inr ⟨h0, hb.symm, s, rest, rfl, w1, hbuf.symm, w2, by rw [w3],
          by rw [w3], w4⟩)
  · rw [if_neg h0] at h
    simp only [Option.some.injEq, Prod.mk.injEq] at h
    obtain ⟨hb, hbuf, hd⟩ := h
    exact Or.inl ⟨h0, hb.symm, hbuf.symm, hd.symm⟩

theorem set_word_other_byte (s : Sector) (j v k : Nat) (h : k / 4 ≠ j) :
    set_word s j v k = s k := by
  unfold set_word
  rw [if_neg h]

/-- Facts about one call of `_inode_allocate` that do not depend on the case. -/
theorem _inode_allocate_frame (d : Disk) (buf : Sector) (j : Nat) (b : Bool) (buf' : Sector)
    (d' : Disk) (h : _inode_allocate d buf j = some (b, buf', d')) :
    alloc_frame (fun _ => False) d d' ∧ (∀ k, k / 4 ≠ j → buf' k = buf k) ∧
    (b = false → d'.free_map.free = []) := by
  rcases _inode_allocate_cases d buf j b buf' d' h with
    ⟨-, hb, hbuf, hd⟩ | ⟨-, hf, hb, hbuf, hd⟩ | ⟨-, hb, s, rest, hf, hs, hbuf, h1, h2, h3, h4⟩
  · subst hbuf hd hb
    exact ⟨alloc_frame_refl _ _, fun _ _ => rfl, by simp⟩
  · subst hbuf hd
    exact ⟨alloc_frame_refl _ _, fun _ _ => rfl, fun _ => hf⟩
  · subst hbuf hb
    refine ⟨⟨h1, h3, ⟨1, by rw [h2, hf]; rfl⟩, ?_⟩, fun k hk => set_word_other_byte _ _ _ _ hk,
      by simp⟩
    intro t ht _
    rw [h4]
    have : t ≠ s := by
      intro hts
      apply ht
      rw [hf, hts]
      exact List.mem_cons_self _ _
    simp only [if_neg this]

theorem allocate_slots_frame (base : Nat) (k : Nat) : ∀ (i : Nat) (d : Disk) (buf : Sector)
    (b : Bool) (buf' : Sector) (d' : Disk),
    allocate_slots base k i d buf = some (b, buf', d') →
    alloc_frame (fun _ => False) d d' ∧
    (∀ m, (m / 4 < base + i ∨ base + i + k ≤ m / 4) → buf' m = buf m) ∧
    (b = false → d'.free_map.free = []) := by
  induction k with
  | zero =>
    intro i d buf b buf' d' h
    simp only [allocate_slots, Option.some.injEq, Prod.mk.injEq] at h
    obtain ⟨hb, hbuf, hd⟩ := h
    subst hb hbuf hd
    exact ⟨alloc_frame_refl _ _, fun _ _ => rfl, by simp⟩
  | succ k ih =>
    intro i d buf b buf' d' h
    unfold allocate_slots at h
    split at h
    · simp at h
    · rename_i buf1 d1 h1
      simp only [Option.some.injEq, Prod.mk.injEq] at h
      obtain ⟨hb, hbuf, hd⟩ := h
      subst hb hbuf hd
      obtain ⟨f1, f2, f3⟩ := _inode_allocate_frame _ _ _ _ _ _ h1
      exact ⟨f1, fun m hm => f2 m (by omega), f3⟩
    · rename_i buf1 d1 h1
      obtain ⟨f1, f2, -⟩ := _inode_allocate_frame _ _ _ _ _ _ h1
      obtain ⟨g1, g2, g3⟩ := ih _ _ _ _ _ _ h
      refine ⟨alloc_frame_trans _ _ _ _ f1 g1, fun m hm => ?_, g3⟩
      rw [g2 m (by omega), f2 m (by omega)]

theorem block_write_frame (W : Nat → Prop) (d d' : Disk) (s : Nat) (buf : Sector)
    (h : block_write d s buf = some d') (hs : s ∈ d.free_map.free ∨ W s) :
    alloc_frame W d d' := by
  obtain ⟨-, h2, h3, h4⟩ := block_write_eq_some _ _ _ _ h
  refine ⟨h2, by rw [h3], ⟨0, by rw [h3]; rfl⟩, ?_⟩
  intro t ht hw
  rw [h4]
  have : t ≠ s := by
    rintro rfl
    rcases hs with hs | hs
    · exact ht hs
    · exact hw hs
  simp only [if_neg this]

theorem inode_allocate_indirect_basic (k : Nat) : ∀ (i : Nat) (d : Disk) (inoded : inode_disk)
    (n : Nat) (r : Option Bool) (inoded' : inode_disk) (d' : Disk) (n' : Nat),
    inode_allocate_indirect k i d inoded n = some (r, inoded', d', n') →
    alloc_frame (fun _ => True) d d' ∧
    (∀ m, (m / 4 < 120 + i ∨ 120 + i + k ≤ m / 4) → inoded' m = inoded m) ∧
    (r = some false → d'.free_map.free = []) ∧
    (r = some true → n ≤ 128 * k) ∧ (r = none → n' + 128 * k = n) := by
  induction k with
  | zero =>
    intro i d inoded n r inoded' d' n' h
    simp only [inode_allocate_indirect, Option.some.injEq, Prod.mk.injEq] at h
    obtain ⟨hr, hi, hd, hn⟩ := h
    subst hr hi hd hn
    exact ⟨alloc_frame_refl _ _, fun _ _ => rfl, by simp, by simp, by simp⟩
  | succ k ih =>
    intro i d inoded n r inoded' d' n' h
    unfold inode_allocate_indirect at h
    simp only [NUM_OF_DIRECT_POINTER] at h
    split at h
    · simp at h
    · rename_i inoded1 d1 h1
      simp only [Option.some.injEq, Prod.mk.injEq] at h
      obtain ⟨hr, hi, hd, hn⟩ := h
      subst hr hi hd hn
      obtain ⟨f1, f2, f3⟩ := _inode_allocate_frame _ _ _ _ _ _ h1
      exact ⟨alloc_frame_mono _ _ _ _ (fun _ _ => trivial) f1, fun m hm => f2 m (by omega),
        fun _ => f3 rfl, by simp, by simp⟩
    · rename_i inoded1 d1 h1
      obtain ⟨f1, f2, -⟩ := _inode_allocate_frame _ _ _ _ _ _ h1
      have f1' := alloc_frame_mono _ (fun _ => True) _ _ (fun _ _ => trivial) f1
      split at h
      · simp at h
      · simp only [BLOCK_SECTOR_SIZE, sizeof_block_sector_t] at h
        generalize hm : (if n < 512 / 4 then n else 512 / 4) = m at h
        have hm2 : m = min n 128 := by
          split at hm <;> omega
        split at h
        · simp at h
        · rename_i x2 d2 h2
          simp only [Option.some.injEq, Prod.mk.injEq] at h
          obtain ⟨hr, hi, hd, hn⟩ := h
          subst hr hi hd hn
          obtain ⟨g1, -, g3⟩ := allocate_slots_frame _ _ _ _ _ _ _ _ h2
          have g1' := alloc_frame_mono _ (fun _ => True) _ _ (fun _ _ => trivial) g1
          exact ⟨alloc_frame_trans _ _ _ _ f1' g1', fun m hm => f2 m (by omega),
            fun _ => g3 rfl, by simp, by simp⟩
        · rename_i indptr' d2 h2
          obtain ⟨g1, -, -⟩ := allocate_slots_frame _ _ _ _ _ _ _ _ h2
          have g1' := alloc_frame_mono _ (fun _ => True) _ _ (fun _ _ => trivial) g1
          split at h
          · simp at h
          · rename_i d3 h3
            have w1 := block_write_frame (fun _ => True) _ _ _ _ h3 (Or.inr trivial)
            have f123 := alloc_frame_trans _ _ _ _ (alloc_frame_trans _ _ _ _ f1' g1') w1
            by_cases h0 : n - m = 0
            · rw [if_pos h0] at h
              simp only [Option.some.injEq, Prod.mk.injEq] at h
              obtain ⟨hr, hi, hd, hn⟩ := h
              subst hr hi hd hn
              exact ⟨f123, fun m hm => f2 m (by omega), by simp, fun _ => by omega, by simp⟩
            · rw [if_neg h0] at h
              obtain ⟨e1, e2, e3, e4, e5⟩ := ih _ _ _ _ _ _ _ _ h
              refine ⟨alloc_frame_trans _ _ _ _ f123 e1, fun m hm => ?_, e3,
                fun hr => ?_, fun hr => ?_⟩
              · rw [e2 m (by omega), f2 m (by omega)]
              · have := e4 hr
                omega
              · have := e5 hr
                omega

theorem inode_allocate_double_basic (stack : Sector) (inoded : inode_disk) (k : Nat) :
    ∀ (i : Nat) (d : Disk) (level1ptr : inode_indirect_pointer) (n : Nat) (r : Option Bool)
    (d' : Disk),
    inode_allocate_double stack inoded k i d level1ptr n = some (r, d') →
    alloc_frame (fun _ => True) d d' ∧ (r = some false → d'.free_map.free = []) ∧
    (r = some true → n ≤ 128 * k) := by
  induction k with
  | zero =>
    intro i d level1ptr n r d' h
    simp only [inode_allocate_double, Option.some.injEq, Prod.mk.injEq] at h
    obtain ⟨hr, hd⟩ := h
    subst hr hd
    exact ⟨alloc_frame_refl _ _, by simp, by simp⟩
  | succ k ih =>
    intro i d level1ptr n r d' h
    unfold inode_allocate_double at h
    split at h
    · simp at h
    · rename_i x1 d1 h1
      simp only [Option.some.injEq, Prod.mk.injEq] at h
      obtain ⟨hr, hd⟩ := h
      subst hr hd
      obtain ⟨f1, -, f3⟩ := _inode_allocate_frame _ _ _ _ _ _ h1
      exact ⟨alloc_frame_mono _ _ _ _ (fun _ _ => trivial) f1, fun _ => f3 rfl, by simp⟩
    · rename_i level1ptr1 d1 h1
      obtain ⟨f1, -, -⟩ := _inode_allocate_frame _ _ _ _ _ _ h1
      have f1' := alloc_frame_mono _ (fun _ => True) _ _ (fun _ _ => trivial) f1
      split at h
      · simp at h
      · simp only [BLOCK_SECTOR_SIZE, sizeof_block_sector_t] at h
        generalize hm : (if n < 512 / 4 then n else 512 / 4) = m at h
        have hm2 : m = min n 128 := by
          split at hm <;> omega
        split at h
        · simp at h
        · rename_i x2 d2 h2
          simp only [Option.some.injEq, Prod.mk.injEq] at h
          obtain ⟨hr, hd⟩ := h
          subst hr hd
          obtain ⟨g1, -, g3⟩ := allocate_slots_frame _ _ _ _ _ _ _ _ h2
          have g1' := alloc_frame_mono _ (fun _ => True) _ _ (fun _ _ => trivial) g1
          exact ⟨alloc_frame_trans _ _ _ _ f1' g1', fun _ => g3 rfl, by simp⟩
        · rename_i level2ptr' d2 h2
          obtain ⟨g1, -, -⟩ := allocate_slots_frame _ _ _ _ _ _ _ _ h2
          have g1' := alloc_frame_mono _ (fun _ => True) _ _ (fun _ _ => trivial) g1
          split at h
          · simp at h
          · rename_i d3 h3
            have w1 := block_write_frame (fun _ => True) _ _ _ _ h3 (Or.inr trivial)
            have f123 := alloc_frame_trans _ _ _ _ (alloc_frame_trans _ _ _ _ f1' g1') w1
            by_cases h0 : n - m = 0
            · rw [if_pos h0] at h
              split at h
              · simp at h
              · rename_i d4 h4
                simp only [Option.some.injEq, Prod.mk.injEq] at h
                obtain ⟨hr, hd⟩ := h
                subst hr hd
                have w2 := block_write_frame (fun _ => True) _ _ _ _ h4 (Or.inr trivial)
                exact ⟨alloc_frame_trans _ _ _ _ f123 w2, by simp, fun _ => by omega⟩
            · rw [if_neg h0] at h
              obtain ⟨e1, e3, e4⟩ := ih _ _ _ _ _ _ h
              refine ⟨alloc_frame_trans _ _ _ _ f123 e1, e3, fun hr => ?_⟩
              have := e4 hr
              omega

/-- What every run of `inode_allocate` that returns has done: it took sectors from the front
of the free list and released none, it left the bytes of the record after the pointer fields
(length, `is_dir`, magic) alone, it returned false only with the free map empty, and true
only for a target of at most 17016 sectors. -/
theorem inode_allocate_basic (stack : Sector) (d d' : Disk) (inoded inoded' : inode_disk)
    (length : Int) (b : Bool)
    (h : inode_allocate stack d inoded length = some (b, inoded', d')) :
    alloc_frame (fun _ => True) d d' ∧ (∀ m, 125 ≤ m / 4 → inoded' m = inoded m) ∧
    (b = false → d'.free_map.free = []) ∧ (b = true → bytes_to_sectors length ≤ 17016) ∧
    0 ≤ length := by
  unfold inode_allocate at h
  split at h
  · simp at h
  · rename_i hlen
    simp only [NUM_OF_DIRECT_POINTER, NUM_OF_INDIRECT_POINTER, BLOCK_SECTOR_SIZE,
      sizeof_block_sector_t] at h
    generalize hN : bytes_to_sectors length = N at h
    generalize hm : (if N < 120 then N else 120) = m at h
    have hm2 : m = min N 120 := by split at hm <;> omega
    split at h
    · simp at h
    · rename_i x1 d1 h1
      simp only [Option.some.injEq, Prod.mk.injEq] at h
      obtain ⟨hb, hi, hd⟩ := h
      subst hb hi hd
      obtain ⟨f1, f2, f3⟩ := allocate_slots_frame _ _ _ _ _ _ _ _ h1
      exact ⟨alloc_frame_mono _ _ _ _ (fun _ _ => trivial) f1, fun m hm => f2 m (by omega),
        fun _ => f3 rfl, by simp, by omega⟩
    · rename_i inoded1 d1 h1
      obtain ⟨f1, f2, -⟩ := allocate_slots_frame _ _ _ _ _ _ _ _ h1
      have f1' := alloc_frame_mono _ (fun _ => True) _ _ (fun _ _ => trivial) f1
      by_cases h0 : N - m = 0
      · rw [if_pos h0] at h
        simp only [Option.some.injEq, Prod.mk.injEq] at h
        obtain ⟨hb, hi, hd⟩ := h
        subst hb hi hd
        exact ⟨f1', fun m hm => f2 m (by omega), by simp, fun _ => by omega, by omega⟩
      · rw [if_neg h0] at h
        split at h
        · simp at h
        · rename_i b2 inoded2 d2 n2 h2
          simp only [Option.some.injEq, Prod.mk.injEq] at h
          obtain ⟨hb, hi, hd⟩ := h
          subst hb hi hd
          obtain ⟨e1, e2, e3, e4, -⟩ := inode_allocate_indirect_basic _ _ _ _ _ _ _ _ _ h2
          refine ⟨alloc_frame_trans _ _ _ _ f1' e1, fun m hm => ?_, fun hb => e3 (by rw [hb]),
            fun hb => ?_, by omega⟩
          · rw [e2 m (by omega), f2 m (by omega)]
          · have := e4 (by rw [hb])
            omega
        · rename_i inoded2 d2 n2 h2
          obtain ⟨e1, e2, -, -, e5⟩ := inode_allocate_indirect_basic _ _ _ _ _ _ _ _ _ h2
          have e5' := e5 rfl
          have f12 := alloc_frame_trans _ _ _ _ f1' e1
          split at h
          · simp at h
          · rename_i x3 d3 h3
            simp only [Option.some.injEq, Prod.mk.injEq] at h
            obtain ⟨hb, hi, hd⟩ := h
            subst hb hi hd
            obtain ⟨g1, g2, g3⟩ := _inode_allocate_frame _ _ _ _ _ _ h3
            refine ⟨alloc_frame_trans _ _ _ _ f12
              (alloc_frame_mono _ _ _ _ (fun _ _ => trivial) g1), fun m hm => ?_,
              fun _ => g3 rfl, by simp, by omega⟩
            rw [g2 m (by omega), e2 m (by omega), f2 m (by omega)]
          · rename_i inoded3 d3 h3
            obtain ⟨g1, g2, -⟩ := _inode_allocate_frame _ _ _ _ _ _ h3
            have f123 := alloc_frame_trans _ _ _ _ f12
              (alloc_frame_mono _ (fun _ => True) _ _ (fun _ _ => trivial) g1)
            have hrec : ∀ m, 125 ≤ m / 4 → inoded3 m = inoded m := by
              intro m hm
              rw [g2 m (by omega), e2 m (by omega), f2 m (by omega)]
            split at h
            · simp at h
            · split at h
              · simp at h
              · rename_i b4 d4 h4
                simp only [Option.some.injEq, Prod.mk.injEq] at h
                obtain ⟨hb, hi, hd⟩ := h
                subst hb hi hd
                obtain ⟨k1, k2, k3⟩ := inode_allocate_double_basic _ _ _ _ _ _ _ _ _ h4
                refine ⟨alloc_frame_trans _ _ _ _ f123 k1, hrec, fun hb => k2 (by rw [hb]),
                  fun hb => ?_, by omega⟩
                have := k3 (by rw [hb])
                omega
              · simp at h

/-! ## Runs of calls, and the lookup in the first two regions -/

theorem open_existing_of_not_mem (l : List (Nat × inode)) (sector : Nat)
    (h : sector ∉ open_sectors l) : open_existing l sector = none := by
  induction l with
  | nil => rfl
  | cons e rest ih =>
    obtain ⟨a, i⟩ := e
    simp only [open_sectors, List.map_cons, List.mem_cons, not_or] at h
    unfold open_existing
    rw [if_neg (fun hh => h.1 hh.symm)]
    have := ih h.2
    rw [this]

theorem inode_open_fresh (w : World) (s : Nat) (hs : s ∉ open_sectors w.open_inodes)
    (hdev : s < w.disk.fs_device_size) :
    inode_open true w s = some (opened w s 1, some (fresh_addr w.open_inodes)) := by
  unfold inode_open
  rw [open_existing_of_not_mem _ _ hs]
  simp only [if_true, block_read_some _ _ hdev]
  rfl

theorem inode_open_opened (mem : Bool) (w : World) (s : Nat) (c : Int) (h0 : 0 ≤ c)
    (h1 : c < 2147483647) :
    inode_open mem (opened w s c) s
      = some (opened w s (c + 1), some (fresh_addr w.open_inodes)) := by
  simp [inode_open, opened, open_existing, to_int_of_range (c + 1) (by omega) (by omega)]

theorem inode_close_opened (w : World) (s : Nat) (c : Int) (hc : c - 1 ≠ 0) (h0 : 1 ≤ c)
    (h1 : c ≤ 2147483647) :
    inode_close (opened w s c) (fresh_addr w.open_inodes) = some (opened w s (c - 1)) := by
  simp [inode_close, opened, inode_at, inode_store,
    to_int_of_range (c - 1) (by omega) (by omega), hc]

theorem inode_close_opened_last (w : World) (s : Nat) :
    inode_close (opened w s 1) (fresh_addr w.open_inodes) = some w := by
  simp [inode_close, opened, inode_at, inode_unlink,
    to_int_of_range 0 (by norm_num) (by norm_num)]

theorem run_append (a b : List Op) : ∀ w : World,
    run w (a ++ b) = (run w a).bind (fun v => run v b) := by
  induction a with
  | nil => intro w; rfl
  | cons o rest ih =>
    intro w
    simp only [List.cons_append, run]
    cases step w o with
    | none => rfl
    | some v => exact ih v

theorem run_reopen (w : World) (s : Nat) (n : Nat) : ∀ c : Int, 0 ≤ c →
    c + n ≤ 2147483647 →
    run (opened w s c) (List.replicate n (Op.inode_open true s)) = some (opened w s (c + n)) := by
  induction n with
  | zero => intro c _ _; simp [run]
  | succ n ih =>
    intro c h0 h1
    push_cast at h1
    simp only [List.replicate_succ, run, step, inode_open_opened true w s c h0 (by omega),
      Option.map_some']
    rw [ih _ (by omega) (by omega)]
    congr 2
    push_cast
    ring

theorem run_close (w : World) (s : Nat) (k : Nat) : ∀ c : Int, (k : Int) < c →
    c ≤ 2147483647 →
    run (opened w s c) (List.replicate k (Op.inode_close (fresh_addr w.open_inodes)))
      = some (opened w s (c - k)) := by
  induction k with
  | zero => intro c _ _; simp [run]
  | succ k ih =>
    intro c hc h1
    push_cast at hc
    simp only [List.replicate_succ, run, step,
      inode_close_opened w s c (by omega) (by omega) h1]
    rw [ih _ (by omega) (by omega)]
    congr 2
    push_cast
    ring

theorem forall_inode_store (P : inode → Prop) (l : List (Nat × inode)) (p : Nat) (j : inode)
    (hl : ∀ e ∈ l, P e.2) (hj : P j) : ∀ e ∈ inode_store l p j, P e.2 := by
  intro e he
  rcases mem_inode_store _ _ _ _ he with h | h
  · exact hl e h
  · rw [h]; exact hj

theorem step_deny_le (w w' : World) (o : Op) (n : Int) (hok : table_ok w.open_inodes)
    (hcnt : counters_le n w.open_inodes) (hn2 : n < 2147483647)
    (h : step w o = some w') (hg : close_allowed w o = true)
    (hl : ∀ e ∈ w.open_inodes, e.2.deny_write_cnt ≤ e.2.open_cnt) :
    ∀ e ∈ w'.open_inodes, e.2.deny_write_cnt ≤ e.2.open_cnt := by
  have hn := hok.1
  cases o with
  | inode_close p =>
    simp only [step, inode_close] at h
    simp only [close_allowed] at hg
    split at h
    · simp at h
    · rename_i i hi
      rw [hi] at hg
      simp only [decide_eq_true_eq] at hg
      have hK := hl _ (inode_at_mem _ _ _ hi)
      split at h
      · rename_i h0
        have hsub : ∀ e ∈ inode_unlink w.open_inodes p, e.2.deny_write_cnt ≤ e.2.open_cnt :=
          fun e he => hl e ((inode_unlink_sublist _ _).subset he)
        split at h
        · split at h
          · simp at h
          · simp only [Option.some.injEq] at h
            rw [← h]; exact hsub
        · simp only [Option.some.injEq] at h
          rw [← h]; exact hsub
      · rename_i h0
        simp only [Option.some.injEq] at h
        rw [← h]
        have hm := inode_at_mem _ _ _ hi
        have c0 : 1 ≤ i.open_cnt := hok.2.2 _ hm
        have c1 : i.open_cnt ≤ n := (hcnt _ hm).1
        have e := to_int_of_range (i.open_cnt - 1) (by omega) (by omega)
        refine forall_inode_store (fun i => i.deny_write_cnt ≤ i.open_cnt) _ _ _ hl ?_
        simp only [e] at h0 hK ⊢
        omega
  | inode_create stack mem sector length is_dir =>
    simp only [step, Option.map_eq_some'] at h
    obtain ⟨⟨b, w''⟩, h, rfl⟩ := h
    rw [inode_create_table _ _ _ _ _ _ _ _ h]
    exact hl
  | inode_open mem sector =>
    simp only [step, Option.map_eq_some'] at h
    obtain ⟨⟨w'', r⟩, h, rfl⟩ := h
    unfold inode_open at h
    split at h
    · rename_i q l hq
      simp only [Option.some.injEq, Prod.mk.injEq] at h
      obtain ⟨i, hi, -, hl'⟩ := open_existing_some _ _ _ _ hn hq
      rw [← h.1, hl']
      have hm := inode_at_mem _ _ _ hi
      have hK := hl _ hm
      have c0 : 1 ≤ i.open_cnt := hok.2.2 _ hm
      have c1 : i.open_cnt ≤ n := (hcnt _ hm).1
      have e := to_int_of_range (i.open_cnt + 1) (by omega) (by omega)
      refine forall_inode_store (fun i => i.deny_write_cnt ≤ i.open_cnt) _ _ _ hl ?_
      simp only [e] at hK ⊢
      omega
    · split at h
      · split at h
        · simp at h
        · simp only [Option.some.injEq, Prod.mk.injEq] at h
          rw [← h.1]
          intro e he
          rcases List.mem_cons.mp he with h' | h'
          · rw [h']; show (0 : Int) ≤ 1; omega
          · exact hl e h'
      · simp only [Option.some.injEq, Prod.mk.injEq] at h
        rw [← h.1]
        exact hl
  | inode_reopen p =>
    simp only [step, inode_reopen] at h
    split at h
    · simp at h
    · rename_i i hi
      simp only [Option.some.injEq] at h
      rw [← h]
      have hm := inode_at_mem _ _ _ hi
      have hK := hl _ hm
      have c0 : 1 ≤ i.open_cnt := hok.2.2 _ hm
      have c1 : i.open_cnt ≤ n := (hcnt _ hm).1
      have e := to_int_of_range (i.open_cnt + 1) (by omega) (by omega)
      refine forall_inode_store (fun i => i.deny_write_cnt ≤ i.open_cnt) _ _ _ hl ?_
      simp only [e] at hK ⊢
      omega
  | inode_remove p =>
    simp only [step, inode_remove] at h
    split at h
    · simp at h
    · rename_i i hi
      simp only [Option.some.injEq] at h
      rw [← h]
      exact forall_inode_store (fun i => i.deny_write_cnt ≤ i.open_cnt) _ _ _ hl
        (hl _ (inode_at_mem _ _ _ hi))
  | inode_deny_write p =>
    simp only [step, inode_deny_write] at h
    split at h
    · simp at h
    · rename_i i hi
      split at h
      · rename_i hle
        simp only [Option.some.injEq] at h
        rw [← h]
        exact forall_inode_store (fun i => i.deny_write_cnt ≤ i.open_cnt) _ _ _ hl hle
      · simp at h
  | inode_allow_write p =>
    simp only [step, inode_allow_write] at h
    split at h
    · simp at h
    · rename_i i hi
      split at h
      · rename_i hle
        simp only [Option.some.injEq] at h
        rw [← h]
        have c2 : 0 ≤ i.deny_write_cnt := (hcnt _ (inode_at_mem _ _ _ hi)).2.1
        have c3 : i.deny_write_cnt ≤ n := (hcnt _ (inode_at_mem _ _ _ hi)).2.2
        have e := to_int_of_range (i.deny_write_cnt - 1) (by omega) (by omega)
        refine forall_inode_store (fun i => i.deny_write_cnt ≤ i.open_cnt) _ _ _ hl ?_
        simp only [e] at hle ⊢
        omega
      · simp at h
  | inode_read_at mem p buffer size offset =>
    simp only [step, Option.map_eq_some'] at h
    obtain ⟨⟨w'', r⟩, h, rfl⟩ := h
    unfold inode_read_at at h
    split at h
    · simp at h
    · split at h
      · simp at h
      · simp only [Option.some.injEq, Prod.mk.injEq] at h
        rw [← h.1]
        exact hl
  | inode_write_at stack mem p buffer size offset =>
    simp only [step, Option.map_eq_some'] at h
    obtain ⟨⟨w'', r⟩, h, rfl⟩ := h
    unfold inode_write_at at h
    split at h
    · simp at h
    · rename_i i hi
      split at h
      · simp only [Option.some.injEq, Prod.mk.injEq] at h
        rw [← h.1]
        exact hl
      · split at h
        · simp at h
        · simp only [Option.some.injEq, Prod.mk.injEq] at h
          rw [← h.1]
          exact forall_inode_store (fun i => i.deny_write_cnt ≤ i.open_cnt) _ _ _ hl
            (hl _ (inode_at_mem _ _ _ hi))

theorem run_deny_le (ops : List Op) : ∀ (n : Int) (w w' : World), 0 ≤ n →
    table_ok w.open_inodes → counters_le n w.open_inodes →
    (∀ e ∈ w.open_inodes, e.2.deny_write_cnt ≤ e.2.open_cnt) →
    n + ops.length ≤ 2147483647 → disciplined w ops = true →
    run w ops = some w' → ∀ e ∈ w'.open_inodes, e.2.deny_write_cnt ≤ e.2.open_cnt := by
  induction ops with
  | nil =>
    intro n w w' _ _ _ hl _ _ h
    simp only [run, Option.some.injEq] at h
    rw [← h]; exact hl
  | cons o rest ih =>
    intro n w w' hn0 hok hcnt hl hlen hd h
    simp only [run] at h
    simp only [disciplined, Bool.and_eq_true] at hd
    simp only [List.length_cons, Nat.cast_add, Nat.cast_one] at hlen
    split at h
    · simp at h
    · rename_i v hv
      rw [hv] at hd
      obtain ⟨t1, t2⟩ := table_step_ok n _ _ hok hcnt hn0 (by omega)
        (step_table w v o hok.1 hv)
      exact ih (n + 1) v w' (by omega) t1 t2
        (step_deny_le w v o n hok hcnt (by omega) hv hd.1 hl) (by omega) hd.2 h

theorem _byte_to_sector_direct (d : Disk) (inoded : inode_disk) (i : Int) (h0 : 0 ≤ i)
    (h1 : i < 120) : _byte_to_sector d inoded i = some (direct_pointer inoded i.toNat) := by
  unfold _byte_to_sector
  simp only [NUM_OF_DIRECT_POINTER, Nat.cast_ofNat, mul_one]
  rw [if_pos h1, if_pos h0]

theorem _byte_to_sector_indirect (d : Disk) (inoded : inode_disk) (i : Int) (h0 : 120 ≤ i)
    (h1 : i < 632) :
    _byte_to_sector d inoded i =
      (block_read d (indirect_pointer inoded ((i - 120) / 128).toNat)).map
        (fun indptr => get_word indptr ((i - 120) % 128).toNat) := by
  unfold _byte_to_sector
  simp only [NUM_OF_DIRECT_POINTER, NUM_OF_INDIRECT_POINTER, BLOCK_SECTOR_SIZE,
    sizeof_block_sector_t, Nat.cast_ofNat, mul_one]
  rw [if_neg (by omega)]
  simp only [_byte_to_sector_loop, BLOCK_SECTOR_SIZE, sizeof_block_sector_t]
  norm_num
  by_cases c1 : i < 248
  · rw [if_pos c1]
    have e1 : ((i - 120) / 128).toNat = 0 := by omega
    have e2 : (i - 120) % 128 = i - 120 := by omega
    rw [e1, e2]
    cases block_read d (indirect_pointer inoded 0) <;> rfl
  · rw [if_neg c1]
    by_cases c2 : i < 376
    · rw [if_pos c2]
      have e1 : ((i - 120) / 128).toNat = 1 := by omega
      have e2 : (i - 120) % 128 = i - 248 := by omega
      rw [e1, e2]
      cases block_read d (indirect_pointer inoded 1) <;> rfl
    · rw [if_neg c2]
      by_cases c3 : i < 504
      · rw [if_pos c3]
        have e1 : ((i - 120) / 128).toNat = 2 := by omega
        have e2 : (i - 120) % 128 = i - 376 := by omega
        rw [e1, e2]
        cases block_read d (indirect_pointer inoded 2) <;> rfl
      · rw [if_neg c3, if_pos h1]
        have e1 : ((i - 120) / 128).toNat = 3 := by omega
        have e2 : (i - 120) % 128 = i - 504 := by omega
        rw [e1, e2]
        cases block_read d (indirect_pointer inoded 3) <;> rfl

/-! ## The write loop -/

theorem get_word_congr (a b : Sector) (j : Nat) (h : ∀ k, k / 4 = j → a k = b k) :
    get_word a j = get_word b j := by
  unfold get_word
  rw [h (4 * j) (by omega), h (4 * j + 1) (by omega), h (4 * j + 2) (by omega),
    h (4 * j + 3) (by omega)]

theorem disk_length_congr (a b : inode_disk) (h : ∀ m, 125 ≤ m / 4 → a m = b m) :
    disk_length a = disk_length b := by
  unfold disk_length
  rw [get_word_congr a b 125 (fun k hk => h k (by omega))]

theorem disk_length_set_length (data : inode_disk) (v : Int) (h0 : 0 ≤ v)
    (h1 : v < 2147483648) : disk_length (set_length data v) = v := by
  unfold disk_length set_length
  rw [get_word_set_word_same, to_size_t_of_range _ h0 (by omega)]
  rw [to_off_t_of_range] <;> omega

theorem to_off_t_nonneg (x : Int) (h0 : 0 ≤ x) (h1 : x < 4294967296) (h : 0 ≤ to_off_t x) :
    x < 2147483648 := by
  unfold to_off_t at h
  omega

theorem min3_cases (a b c m : Int) (h : a ⊓ (b ⊓ c) = m) :
    m ≤ a ∧ m ≤ b ∧ m ≤ c ∧ (m = a ∨ m = b ∨ m = c) := by
  subst h
  simp only [min_def]
  split_ifs <;> omega

/-- One iteration of the write loop keeps `write_inv`, and leaves the loop with
`write_post`. -/
theorem inode_write_body_inv (stack : Sector) (mem : Bool) (buffer : Buffer) (sector : Nat)
    (offset size L : Int) (h0 : 0 ≤ offset) (hL : 0 ≤ L) (hsz : size < 2147483648)
    (v : write_vars) (res : Sum (Disk × inode_disk × Int) write_vars)
    (hI : write_inv offset size L v)
    (h : inode_write_body stack mem buffer sector v = some res) :
    match res with
    | Sum.inl r => write_post mem offset size L r
    | Sum.inr v' => write_inv offset size L v' := by
  obtain ⟨i1, i2, i3, i4, i5, i6⟩ := hI
  have hlen2 := disk_length_lt v.data
  have hlen0 : 0 ≤ disk_length v.data := by rcases i6 with h | h <;> omega
  have hc := chunk_size_eq v.size v.offset (disk_length v.data) (by omega) (by omega)
    (by omega)
  have hmod : 0 ≤ v.offset % 512 ∧ v.offset % 512 < 512 := by omega
  unfold inode_write_body at h
  by_cases hs : v.size > 0
  · rw [if_pos hs] at h
    cases hb : byte_to_sector v.disk v.data v.offset with
    | none => rw [hb] at h; simp at h
    | some sector_idx =>
      rw [hb] at h
      simp only [] at h
      rw [hc] at h
      generalize hcd : v.size ⊓ ((disk_length v.data - v.offset) ⊓ (512 - v.offset % 512)) = c
        at h
      obtain ⟨c1, c2, c3, c4⟩ := min3_cases _ _ _ _ hcd
      clear hc hcd
      by_cases hc0 : c ≤ 0
      · rw [if_pos hc0] at h
        have hle : disk_length v.data ≤ v.offset := by omega
        have hng : disk_length v.data = L ∧ v.offset ≤ max offset L := by
          rcases i6 with h | h
          · exact h
          · omega
        have hvo : v.offset = max offset L := by
          have := hng.2
          rcases le_max_iff.mp this with h' | h'
          · rw [max_eq_left] <;> omega
          · rw [max_eq_right] <;> omega
        by_cases hsn : sector_idx ≠ SECTOR_NONE
        · rw [if_pos hsn] at h; simp at h
        · rw [if_neg hsn] at h
          cases ha : inode_allocate stack v.disk v.data (to_off_t (v.offset + v.size)) with
          | none => rw [ha] at h; simp at h
          | some x =>
            obtain ⟨b, data', d'⟩ := x
            rw [ha] at h
            obtain ⟨-, a2, a3, a4, a5⟩ := inode_allocate_basic _ _ _ _ _ _ _ ha
            have hT : v.offset + v.size < 2147483648 :=
              to_off_t_nonneg _ (by omega) (by omega) a5
            rw [to_off_t_of_range _ (by omega) hT] at a4
            cases b with
            | true =>
              simp only [] at h
              cases hw : block_write d' sector (set_length data' (v.offset + v.size)) with
              | none => rw [hw] at h; simp at h
              | some d2 =>
                rw [hw] at h
                simp only [Option.some.injEq] at h
                subst h
                refine ⟨i1, i2, i3, i4, i5, Or.inr ?_⟩
                dsimp only
                rw [disk_length_set_length _ _ (by omega) hT]
                refine ⟨i4, by omega, ?_⟩
                rw [← i4]
                exact a4 rfl
            | false =>
              simp only [Option.some.injEq] at h
              subst h
              have hdl : disk_length data' = L := by
                rw [disk_length_congr data' v.data a2]
                exact hng.1
              unfold write_post
              dsimp only
              refine ⟨by omega, by omega, by omega, Or.inl hdl, ?_, ?_⟩
              · intro hh; omega
              · intro _ _
                refine ⟨hdl, ?_, a3 rfl⟩
                rw [i5, hvo]
                rcases le_total offset L with h' | h'
                · rw [max_eq_right h', max_eq_right (by omega)]
                · rw [max_eq_left h', max_eq_left (by omega)]
                  omega
      · rw [if_neg hc0] at h
        have hadv : ∀ (d : Disk) (bn : Bool), write_inv offset size L
            { disk := d, data := v.data, size := v.size - c, offset := v.offset + c,
              bytes_written := v.bytes_written + c, bounce := bn } := by
          intro d bn
          refine ⟨by dsimp only; omega, by dsimp only; omega, by dsimp only; omega,
            by dsimp only; omega, by dsimp only; omega, ?_⟩
          dsimp only
          rcases i6 with h' | h'
          · left
            refine ⟨h'.1, ?_⟩
            have : v.offset + c ≤ L := by omega
            exact le_trans this (le_max_right _ _)
          · exact Or.inr h'
        by_cases hfull : Int.tmod v.offset (BLOCK_SECTOR_SIZE : Nat) = 0 ∧
            c = (BLOCK_SECTOR_SIZE : Nat)
        · rw [if_pos hfull] at h
          cases hw : block_write v.disk sector_idx
              (fun k => buffer (v.bytes_written.toNat + k)) with
          | none => rw [hw] at h; simp at h
          | some d2 =>
            rw [hw] at h
            simp only [Option.some.injEq] at h
            subst h
            exact hadv _ _
        · rw [if_neg hfull] at h
          by_cases hbn : v.bounce = false ∧ mem = false
          · rw [if_pos hbn] at h
            simp only [Option.some.injEq] at h
            subst h
            unfold write_post
            dsimp only
            refine ⟨by rcases i6 with h | h <;> omega, by omega, by omega, ?_, ?_, ?_⟩
            · rcases i6 with h | h
              · exact Or.inl h.1
              · exact Or.inr h
            · intro hh; omega
            · intro hm
              rw [hbn.2] at hm
              exact absurd hm (by decide)
          · rw [if_neg hbn] at h
            by_cases hneg : Int.tmod v.offset (BLOCK_SECTOR_SIZE : Nat) < 0
            · rw [if_pos hneg] at h; simp at h
            · rw [if_neg hneg] at h
              split at h
              · simp at h
              · split at h
                · simp at h
                · simp only [Option.some.injEq] at h
                  subst h
                  exact hadv _ _
  · rw [if_neg hs] at h
    simp only [Option.some.injEq] at h
    subst h
    have hz : v.size = 0 := by omega
    unfold write_post
    dsimp only
    refine ⟨by rcases i6 with h | h <;> omega, by omega, by omega, ?_, ?_, ?_⟩
    · rcases i6 with h | h
      · exact Or.inl h.1
      · exact Or.inr h
    · intro _
      rcases i6 with h | h
      · by_cases hz' : size = 0
        · exact Or.inl hz'
        · right
          rw [h.1]
          have := h.2
          rcases le_max_iff.mp this with h' | h' <;> omega
      · right; omega
    · intro _ hlt
      omega

/-- The write loop, started as `inode_write_at` starts it, leaves with `write_post`. -/
theorem write_loop_post (stack : Sector) (mem : Bool) (buffer : Buffer) (sector : Nat)
    (offset size : Int) (d : Disk) (data : inode_disk) (h0 : 0 ≤ offset)
    (ho : offset < 2147483648) (hs0 : 0 ≤ size) (hsz : size < 2147483648)
    (hL : 0 ≤ disk_length data) (fuel : Nat) (r : Disk × inode_disk × Int)
    (h : while_loop (inode_write_body stack mem buffer sector) fuel
      { disk := d, data := data, size := size, offset := offset, bytes_written := 0,
        bounce := false } = some r) :
    write_post mem offset size (disk_length data) r := by
  refine while_loop_inv (inode_write_body stack mem buffer sector)
    (write_inv offset size (disk_length data)) (write_post mem offset size (disk_length data))
    ?_ ?_ fuel _ r ?_ h
  · intro s r hI hb
    exact inode_write_body_inv stack mem buffer sector offset size _ h0 hL hsz s _ hI hb
  · intro s s' hI hb
    exact inode_write_body_inv stack mem buffer sector offset size _ h0 hL hsz s _ hI hb
  · exact ⟨le_refl _, ho, hs0, rfl, by simp, Or.inl ⟨rfl, le_max_left _ _⟩⟩

/-- What a call of `inode_write_at` that returns has done to the inode: the result of the
loop is stored in the inode at `p`. -/
theorem inode_write_at_post (stack : Sector) (mem : Bool) (w w' : World) (p : Nat) (i : inode)
    (buffer : Buffer) (size offset n : Int) (hp : inode_at w.open_inodes p = some i)
    (hd : i.deny_write_cnt = 0) (h0 : 0 ≤ offset) (ho : offset < 2147483648)
    (hs0 : 0 ≤ size) (hsz : size < 2147483648) (hL : 0 ≤ inode_length i)
    (h : inode_write_at stack mem w p buffer size offset = some (w', n)) :
    ∃ data', inode_at w'.open_inodes p = some { i with data := data' } ∧
      write_post mem offset size (inode_length i) (w'.disk, data', n) := by
  unfold inode_write_at at h
  rw [hp] at h
  have hd' : ¬ (i.deny_write_cnt ≠ 0) := by simp [hd]
  simp only [] at h
  rw [if_neg hd'] at h
  cases hl : while_loop (inode_write_body stack mem buffer i.sector) (size.toNat + 2)
      { disk := w.disk, data := i.data, size := size, offset := offset, bytes_written := 0,
        bounce := false } with
  | none => rw [hl] at h; simp at h
  | some r =>
    obtain ⟨d', data', m⟩ := r
    rw [hl] at h
    simp only [Option.some.injEq, Prod.mk.injEq] at h
    obtain ⟨hw, hn⟩ := h
    subst hw hn
    exact ⟨data', inode_at_store_same _ _ _ _ hp,
      write_loop_post stack mem buffer i.sector offset size w.disk i.data h0 ho hs0 hsz hL _ _
        hl⟩

/-- The first iteration of the write loop at or past end of file, when the growth fails: the
loop is left with nothing written in this iteration. -/
theorem inode_write_body_fail (stack : Sector) (mem : Bool) (buffer : Buffer) (sector : Nat)
    (v : write_vars) (data' : inode_disk) (d' : Disk) (hs : 0 < v.size) (h0 : 0 ≤ v.offset)
    (hsum : v.offset + v.size < 2147483648) (hlen : 0 ≤ disk_length v.data)
    (hle : disk_length v.data ≤ v.offset)
    (hfail : inode_allocate stack v.disk v.data (v.offset + v.size) = some (false, data', d')) :
    inode_write_body stack mem buffer sector v = some (Sum.inl (d', data', v.bytes_written)) := by
  have hc := chunk_size_eq v.size v.offset (disk_length v.data) h0 (by omega) (by omega)
  have hmod : 0 ≤ v.offset % 512 ∧ v.offset % 512 < 512 := by omega
  unfold inode_write_body
  rw [if_pos hs, byte_to_sector_eof _ _ _ (by omega)]
  simp only []
  rw [hc]
  generalize hcd : v.size ⊓ ((disk_length v.data - v.offset) ⊓ (512 - v.offset % 512)) = c
  obtain ⟨-, c2, -, -⟩ := min3_cases _ _ _ _ hcd
  rw [if_pos (by omega), if_neg (by simp), to_off_t_of_range _ (by omega) hsum, hfail]

/-! ## How many sectors the allocator takes -/

theorem _inode_allocate_taken (d : Disk) (buf : Sector) (j : Nat) (b : Bool) (buf' : Sector)
    (d' : Disk) (h : _inode_allocate d buf j = some (b, buf', d')) :
    d.free_map.free.length ≤ d'.free_map.free.length + 1 := by
  rcases _inode_allocate_cases d buf j b buf' d' h with
    ⟨-, -, -, hd⟩ | ⟨-, -, -, -, hd⟩ | ⟨-, -, s, rest, hf, -, -, -, h2, -, -⟩
  · rw [hd]; omega
  · rw [hd]; omega
  · rw [hf, h2]; simp

theorem allocate_slots_taken (base : Nat) (k : Nat) : ∀ (i : Nat) (d : Disk) (buf : Sector)
    (b : Bool) (buf' : Sector) (d' : Disk),
    allocate_slots base k i d buf = some (b, buf', d') →
    d.free_map.free.length ≤ d'.free_map.free.length + k := by
  induction k with
  | zero =>
    intro i d buf b buf' d' h
    simp only [allocate_slots, Option.some.injEq, Prod.mk.injEq] at h
    rw [← h.2.2]; omega
  | succ k ih =>
    intro i d buf b buf' d' h
    unfold allocate_slots at h
    split at h
    · simp at h
    · rename_i buf1 d1 h1
      simp only [Option.some.injEq, Prod.mk.injEq] at h
      have := _inode_allocate_taken _ _ _ _ _ _ h1
      rw [← h.2.2]; omega
    · rename_i buf1 d1 h1
      have := _inode_allocate_taken _ _ _ _ _ _ h1
      have := ih _ _ _ _ _ _ h
      omega

theorem block_write_free (d d' : Disk) (s : Nat) (buf : Sector)
    (h : block_write d s buf = some d') : d'.free_map = d.free_map :=
  (block_write_eq_some _ _ _ _ h).2.2.1

theorem inode_allocate_indirect_taken (k : Nat) : ∀ (i : Nat) (d : Disk) (inoded : inode_disk)
    (n : Nat) (r : Option Bool) (inoded' : inode_disk) (d' : Disk) (n' : Nat),
    inode_allocate_indirect k i d inoded n = some (r, inoded', d', n') →
    d.free_map.free.length ≤ d'.free_map.free.length + 129 * k := by
  induction k with
  | zero =>
    intro i d inoded n r inoded' d' n' h
    simp only [inode_allocate_indirect, Option.some.injEq, Prod.mk.injEq] at h
    rw [← h.2.2.1]; omega
  | succ k ih =>
    intro i d inoded n r inoded' d' n' h
    unfold inode_allocate_indirect at h
    split at h
    · simp at h
    · rename_i inoded1 d1 h1
      simp only [Option.some.injEq, Prod.mk.injEq] at h
      have := _inode_allocate_taken _ _ _ _ _ _ h1
      rw [← h.2.2.1]; omega
    · rename_i inoded1 d1 h1
      have t1 := _inode_allocate_taken _ _ _ _ _ _ h1
      split at h
      · simp at h
      · simp only [BLOCK_SECTOR_SIZE, sizeof_block_sector_t] at h
        generalize hm : (if n < 512 / 4 then n else 512 / 4) = m at h
        have hm2 : m ≤ 128 := by
          split at hm <;> omega
        split at h
        · simp at h
        · rename_i x2 d2 h2
          simp only [Option.some.injEq, Prod.mk.injEq] at h
          have := allocate_slots_taken _ _ _ _ _ _ _ _ h2
          rw [← h.2.2.1]; omega
        · rename_i indptr' d2 h2
          have t2 := allocate_slots_taken _ _ _ _ _ _ _ _ h2
          split at h
          · simp at h
          · rename_i d3 h3
            have t3 := block_write_free _ _ _ _ h3
            split at h
            · simp only [Option.some.injEq, Prod.mk.injEq] at h
              rw [← h.2.2.1, t3]; omega
            · have := ih _ _ _ _ _ _ _ _ h
              rw [t3] at this
              omega

theorem inode_allocate_double_taken (stack : Sector) (inoded : inode_disk) (k : Nat) :
    ∀ (i : Nat) (d : Disk) (level1ptr : inode_indirect_pointer) (n : Nat) (r : Option Bool)
    (d' : Disk),
    inode_allocate_double stack inoded k i d level1ptr n = some (r, d') →
    d.free_map.free.length ≤ d'.free_map.free.length + 129 * k := by
  induction k with
  | zero =>
    intro i d level1ptr n r d' h
    simp only [inode_allocate_double, Option.some.injEq, Prod.mk.injEq] at h
    rw [← h.2]; omega
  | succ k ih =>
    intro i d level1ptr n r d' h
    unfold inode_allocate_double at h
    split at h
    · simp at h
    · rename_i x1 d1 h1
      simp only [Option.some.injEq, Prod.mk.injEq] at h
      have := _inode_allocate_taken _ _ _ _ _ _ h1
      rw [← h.2]; omega
    · rename_i level1ptr1 d1 h1
      have t1 := _inode_allocate_taken _ _ _ _ _ _ h1
      split at h
      · simp at h
      · simp only [BLOCK_SECTOR_SIZE, sizeof_block_sector_t] at h
        generalize hm : (if n < 512 / 4 then n else 512 / 4) = m at h
        have hm2 : m ≤ 128 := by
          split at hm <;> omega
        split at h
        · simp at h
        · rename_i x2 d2 h2
          simp only [Option.some.injEq, Prod.mk.injEq] at h
          have := allocate_slots_taken _ _ _ _ _ _ _ _ h2
          rw [← h.2]; omega
        · rename_i level2ptr' d2 h2
          have t2 := allocate_slots_taken _ _ _ _ _ _ _ _ h2
          split at h
          · simp at h
          · rename_i d3 h3
            have t3 := block_write_free _ _ _ _ h3
            split at h
            · split at h
              · simp at h
              · rename_i d4 h4
                have t4 := block_write_free _ _ _ _ h4
                simp only [Option.some.injEq, Prod.mk.injEq] at h
                rw [← h.2, t4, t3]; omega
            · have := ih _ _ _ _ _ _ h
              rw [t3] at this
              omega

/-- A run of `inode_allocate` takes at most 17149 sectors from the free map: one for each
of the 17016 data slots and the 133 table sectors. -/
theorem inode_allocate_taken (stack : Sector) (d d' : Disk) (inoded inoded' : inode_disk)
    (length : Int) (b : Bool)
    (h : inode_allocate stack d inoded length = some (b, inoded', d')) :
    d.free_map.free.length ≤ d'.free_map.free.length + 17149 := by
  unfold inode_allocate at h
  split at h
  · simp at h
  · simp only [NUM_OF_DIRECT_POINTER, NUM_OF_INDIRECT_POINTER, BLOCK_SECTOR_SIZE,
      sizeof_block_sector_t] at h
    generalize hN : bytes_to_sectors length = N at h
    generalize hm : (if N < 120 then N else 120) = m at h
    have hm2 : m ≤ 120 := by split at hm <;> omega
    split at h
    · simp at h
    · rename_i x1 d1 h1
      simp only [Option.some.injEq, Prod.mk.injEq] at h
      have := allocate_slots_taken _ _ _ _ _ _ _ _ h1
      rw [← h.2.2]; omega
    · rename_i inoded1 d1 h1
      have t1 := allocate_slots_taken _ _ _ _ _ _ _ _ h1
      split at h
      · simp only [Option.some.injEq, Prod.mk.injEq] at h
        rw [← h.2.2]; omega
      · split at h
        · simp at h
        · rename_i b2 inoded2 d2 n2 h2
          simp only [Option.some.injEq, Prod.mk.injEq] at h
          have := inode_allocate_indirect_taken _ _ _ _ _ _ _ _ _ h2
          rw [← h.2.2]; omega
        · rename_i inoded2 d2 n2 h2
          have t2 := inode_allocate_indirect_taken _ _ _ _ _ _ _ _ _ h2
          split at h
          · simp at h
          · rename_i x3 d3 h3
            simp only [Option.some.injEq, Prod.mk.injEq] at h
            have := _inode_allocate_taken _ _ _ _ _ _ h3
            rw [← h.2.2]; omega
          · rename_i inoded3 d3 h3
            have t3 := _inode_allocate_taken _ _ _ _ _ _ h3
            split at h
            · simp at h
            · split at h
              · simp at h
              · rename_i b4 d4 h4
                simp only [Option.some.injEq, Prod.mk.injEq] at h
                have := inode_allocate_double_taken _ _ _ _ _ _ _ _ _ h4
                rw [← h.2.2]; omega
              · simp at h

theorem bytes_to_sectors_eq (length : Int) (h0 : 0 ≤ length) (h1 : length < 2147483648) :
    (bytes_to_sectors length : Int) = (length + 511) / 512 := by
  unfold bytes_to_sectors DIV_ROUND_UP
  simp only [BLOCK_SECTOR_SIZE, Nat.cast_ofNat]
  rw [Int.tdiv_eq_ediv (by omega) (by norm_num)]
  rw [to_size_t_of_range _ (by omega) (by omega)]
  omega

/-- With memory available, what `inode_create` returns is what `inode_allocate` returned for
the fresh record, and the free map is as the allocation left it. -/
theorem inode_create_alloc (stack : Sector) (w w' : World) (sector : Nat) (length : Int)
    (is_dir b : Bool) (h0 : 0 ≤ length) (h1 : length < 2147483648)
    (h : inode_create stack true w sector length is_dir = some (b, w')) :
    ∃ inoded' d', inode_allocate stack w.disk
        (set_is_dir (set_magic (set_length zeros length) INODE_MAGIC) is_dir) length
        = some (b, inoded', d') ∧ w'.disk.free_map = d'.free_map := by
  unfold inode_create at h
  rw [if_neg (by omega)] at h
  simp only [if_true] at h
  rw [disk_length_fresh _ _ h0 h1] at h
  split at h
  · simp at h
  · rename_i x inoded' d' ha
    split at h
    · simp at h
    · rename_i d2 hw
      simp only [Option.some.injEq, Prod.mk.injEq] at h
      obtain ⟨hb, hw'⟩ := h
      subst hb hw'
      exact ⟨inoded', d', ha, block_write_free _ _ _ _ hw⟩
  · rename_i x d' ha
    simp only [Option.some.injEq, Prod.mk.injEq] at h
    obtain ⟨hb, hw'⟩ := h
    subst hb hw'
    exact ⟨_, d', ha, rfl⟩

/-- Above the ceiling of 17016 sectors `inode_allocate` does not return true, and it returns
false only with the free map empty. -/
theorem inode_allocate_above_ceiling (stack : Sector) (d d' : Disk)
    (inoded inoded' : inode_disk) (length : Int) (b : Bool) (hlen : 17016 * 512 < length)
    (hlen2 : length < 2147483648)
    (h : inode_allocate stack d inoded length = some (b, inoded', d')) :
    b = false ∧ d'.free_map.free = [] := by
  have hN : (17016 : Int) < bytes_to_sectors length := by
    rw [bytes_to_sectors_eq _ (by omega) hlen2]
    omega
  obtain ⟨-, -, a3, a4, -⟩ := inode_allocate_basic _ _ _ _ _ _ _ h
  cases b with
  | true =>
    have := a4 rfl
    omega
  | false => exact ⟨rfl, a3 rfl⟩

theorem get_word_zero_block (m : Nat) :
    get_word (fun k => if k < 512 then zeros k else 0) m = 0 := by
  unfold get_word zeros
  simp

/-- A call of `_inode_allocate` on an empty slot that returns true took the first free
sector, zeroed it and stored its number in the slot. -/
theorem _inode_allocate_zero (d : Disk) (buf : Sector) (j : Nat) (buf' : Sector) (d' : Disk)
    (hsz : d.fs_device_size ≤ 4294967296)
    (h : _inode_allocate d buf j = some (true, buf', d')) (h0 : get_word buf j = 0) :
    ∃ s rest, d.free_map.free = s :: rest ∧ s < d.fs_device_size ∧
      buf' = set_word buf j s ∧ get_word buf' j = s ∧
      d'.fs_device_size = d.fs_device_size ∧ d'.free_map.free = rest ∧
      d'.fs_device s = (fun k => if k < 512 then zeros k else 0) := by
  rcases _inode_allocate_cases d buf j true buf' d' h with
    ⟨hne, -⟩ | ⟨-, -, hb, -⟩ | ⟨-, -, s, rest, hf, hs, hbuf, h1, h2, -, h4⟩
  · exact absurd h0 hne
  · simp at hb
  · refine ⟨s, rest, hf, hs, hbuf, ?_, h1, h2, ?_⟩
    · rw [hbuf, get_word_set_word_same]
      exact Nat.mod_eq_of_lt (by omega)
    · rw [h4]; simp

theorem allocate_slots_count (base : Nat) (k : Nat) : ∀ (i : Nat) (d : Disk) (buf : Sector)
    (buf' : Sector) (d' : Disk), d.fs_device_size ≤ 4294967296 →
    allocate_slots base k i d buf = some (true, buf', d') →
    (∀ m, base + i ≤ m → m < base + i + k → get_word buf m = 0) →
    d'.free_map.free = d.free_map.free.drop k ∧ k ≤ d.free_map.free.length := by
  induction k with
  | zero =>
    intro i d buf buf' d' _ h _
    simp only [allocate_slots, Option.some.injEq, Prod.mk.injEq] at h
    rw [← h.2.2]
    simp
  | succ k ih =>
    intro i d buf buf' d' hsz h hz
    unfold allocate_slots at h
    split at h
    · simp at h
    · simp at h
    · rename_i buf1 d1 h1
      obtain ⟨s, rest, hf, -, hbuf, -, hs1, hr, -⟩ :=
        _inode_allocate_zero _ _ _ _ _ hsz h1 (hz _ (by omega) (by omega))
      have hz1 : ∀ m, base + (i + 1) ≤ m → m < base + (i + 1) + k → get_word buf1 m = 0 := by
        intro m hm1 hm2
        rw [hbuf, get_word_set_word_other _ _ _ _ (by omega)]
        exact hz m (by omega) (by omega)
      obtain ⟨e1, e2⟩ := ih _ _ _ _ _ (by omega) h hz1
      rw [e1, hr, hf]
      rw [hr] at e2
      exact ⟨by simp, by simp; omega⟩

/-- On slots that are all in use `allocate_slots` changes nothing. -/
theorem allocate_slots_full (base : Nat) (k : Nat) : ∀ (i : Nat) (d : Disk) (buf : Sector),
    (∀ m, base + i ≤ m → m < base + i + k → get_word buf m ≠ 0) →
    allocate_slots base k i d buf = some (true, buf, d) := by
  induction k with
  | zero => intro i d buf _; rfl
  | succ k ih =>
    intro i d buf hz
    unfold allocate_slots
    have h1 : _inode_allocate d buf (base + i) = some (true, buf, d) := by
      unfold _inode_allocate
      rw [if_neg (hz _ (by omega) (by omega))]
    rw [h1]
    exact ih _ _ _ (fun m hm1 hm2 => hz m (by omega) (by omega))

theorem drop_cons_drop (l rest : List Nat) (s a : Nat) (l2 : List Nat) (c : Nat)
    (hf : l = s :: rest) (h2 : l2 = rest.drop a) (hc : c = a + 1) : l2 = l.drop c := by
  subst hf hc h2
  rfl

/-- A fresh table: after `_inode_allocate` filled the empty slot `j` of `buf`, the sector the
slot names reads as a table of empty slots. -/
theorem block_read_fresh (d d1 : Disk) (buf buf1 : Sector) (j : Nat) (tbl : Sector)
    (hsz : d.fs_device_size ≤ 4294967296)
    (h1 : _inode_allocate d buf j = some (true, buf1, d1)) (h0 : get_word buf j = 0)
    (hr : block_read d1 (get_word buf1 j) = some tbl) : ∀ m, get_word tbl m = 0 := by
  obtain ⟨s, rest, -, hs, -, hgw, hs1, -, hz⟩ := _inode_allocate_zero _ _ _ _ _ hsz h1 h0
  rw [hgw, block_read_some _ _ (by omega), hz] at hr
  simp only [Option.some.injEq] at hr
  intro m
  rw [← hr]
  exact get_word_zero_block m

theorem inode_allocate_indirect_count (k : Nat) : ∀ (i : Nat) (d : Disk) (inoded : inode_disk)
    (n : Nat) (r : Option Bool) (inoded' : inode_disk) (d' : Disk) (n' : Nat),
    d.fs_device_size ≤ 4294967296 → 1 ≤ n →
    inode_allocate_indirect k i d inoded n = some (r, inoded', d', n') →
    (∀ i', i ≤ i' → i' < i + k → get_word inoded (120 + i') = 0) →
    (r = some true → d'.free_map.free = d.free_map.free.drop (n + (n + 127) / 128) ∧
      n + (n + 127) / 128 ≤ d.free_map.free.length) ∧
    (r = none → d'.free_map.free = d.free_map.free.drop (129 * k) ∧
      129 * k ≤ d.free_map.free.length ∧ 1 ≤ n') := by
  induction k with
  | zero =>
    intro i d inoded n r inoded' d' n' _ hn h _
    simp only [inode_allocate_indirect, Option.some.injEq, Prod.mk.injEq] at h
    obtain ⟨hr, -, hd, hn'⟩ := h
    subst hr hd hn'
    exact ⟨by simp, fun _ => ⟨by simp, by simp, hn⟩⟩
  | succ k ih =>
    intro i d inoded n r inoded' d' n' hsz hn h hz
    unfold inode_allocate_indirect at h
    simp only [NUM_OF_DIRECT_POINTER] at h
    split at h
    · simp at h
    · simp only [Option.some.injEq, Prod.mk.injEq] at h
      obtain ⟨hr, -⟩ := h
      subst hr
      exact ⟨by simp, by simp⟩
    · rename_i inoded1 d1 h1
      have hz0 := hz i (le_refl _) (by omega)
      obtain ⟨s, rest, hf, -, hbuf, -, hs1, hr1, -⟩ := _inode_allocate_zero _ _ _ _ _ hsz h1 hz0
      split at h
      · simp at h
      · rename_i indptr hrd
        have htbl := block_read_fresh _ _ _ _ _ _ hsz h1 hz0 hrd
        simp only [BLOCK_SECTOR_SIZE, sizeof_block_sector_t] at h
        generalize hm : (if n < 512 / 4 then n else 512 / 4) = m at h
        have hm2 : m = min n 128 := by
          split at hm <;> omega
        split at h
        · simp at h
        · simp only [Option.some.injEq, Prod.mk.injEq] at h
          obtain ⟨hr, -⟩ := h
          subst hr
          exact ⟨by simp, by simp⟩
        · rename_i indptr' d2 h2
          obtain ⟨c1, c2⟩ := allocate_slots_count _ _ _ _ _ _ _ (by omega) h2
            (fun m _ _ => htbl m)
          obtain ⟨⟨g1, -⟩, -, -⟩ := allocate_slots_frame _ _ _ _ _ _ _ _ h2
          split at h
          · simp at h
          · rename_i d3 h3
            have t3 := block_write_free _ _ _ _ h3
            have s3 := (block_write_eq_some _ _ _ _ h3).2.1
            by_cases h0 : n - m = 0
            · rw [if_pos h0] at h
              simp only [Option.some.injEq, Prod.mk.injEq] at h
              obtain ⟨hr, -, hd, -⟩ := h
              subst hr hd
              refine ⟨fun _ => ?_, by simp⟩
              rw [t3, c1, hr1]
              rw [hr1] at c2
              have hc : n + (n + 127) / 128 = m + 1 := by omega
              refine ⟨drop_cons_drop _ _ _ _ _ _ hf rfl hc, ?_⟩
              rw [hf, hc]
              simp only [List.length_cons]
              omega
            · rw [if_neg h0] at h
              have hz1 : ∀ i', i + 1 ≤ i' → i' < i + 1 + k →
                  get_word inoded1 (120 + i') = 0 := by
                intro i' hi1 hi2
                rw [hbuf, get_word_set_word_other _ _ _ _ (by omega)]
                exact hz i' (by omega) (by omega)
              obtain ⟨e1, e2⟩ := ih _ _ _ _ _ _ _ _ (by omega) (by omega) h hz1
              rw [t3, c1, hr1] at e1 e2
              rw [hr1] at c2
              constructor
              · intro hr
                obtain ⟨e3, e4⟩ := e1 hr
                rw [List.drop_drop] at e3
                rw [List.length_drop] at e4
                constructor
                · rw [e3]
                  exact drop_cons_drop _ _ _ _ _ _ hf rfl (by omega)
                · rw [hf]
                  simp only [List.length_cons]
                  omega
              · intro hr
                obtain ⟨e3, e4, e5⟩ := e2 hr
                rw [List.drop_drop] at e3
                rw [List.length_drop] at e4
                refine ⟨?_, ?_, e5⟩
                · rw [e3]
                  exact drop_cons_drop _ _ _ _ _ _ hf rfl (by omega)
                · rw [hf]
                  simp only [List.length_cons]
                  omega

theorem inode_allocate_double_count (stack : Sector) (inoded : inode_disk) (k : Nat) :
    ∀ (i : Nat) (d : Disk) (level1ptr : inode_indirect_pointer) (n : Nat) (d' : Disk),
    d.fs_device_size ≤ 4294967296 → 1 ≤ n →
    inode_allocate_double stack inoded k i d level1ptr n = some (some true, d') →
    (∀ i', i ≤ i' → i' < i + k → get_word level1ptr i' = 0) →
    d'.free_map.free = d.free_map.free.drop (n + (n + 127) / 128) ∧
      n + (n + 127) / 128 ≤ d.free_map.free.length := by
  induction k with
  | zero =>
    intro i d level1ptr n d' _ _ h _
    simp [inode_allocate_double] at h
  | succ k ih =>
    intro i d level1ptr n d' hsz hn h hz
    unfold inode_allocate_double at h
    split at h
    · simp at h
    · simp at h
    · rename_i level1ptr1 d1 h1
      have hz0 := hz i (le_refl _) (by omega)
      obtain ⟨s, rest, hf, -, hbuf, -, hs1, hr1, -⟩ := _inode_allocate_zero _ _ _ _ _ hsz h1 hz0
      split at h
      · simp at h
      · rename_i level2ptr hrd
        have htbl := block_read_fresh _ _ _ _ _ _ hsz h1 hz0 hrd
        simp only [BLOCK_SECTOR_SIZE, sizeof_block_sector_t] at h
        generalize hm : (if n < 512 / 4 then n else 512 / 4) = m at h
        have hm2 : m = min n 128 := by
          split at hm <;> omega
        split at h
        · simp at h
        · simp at h
        · rename_i level2ptr' d2 h2
          obtain ⟨c1, c2⟩ := allocate_slots_count _ _ _ _ _ _ _ (by omega) h2
            (fun m _ _ => htbl m)
          obtain ⟨⟨g1, -⟩, -, -⟩ := allocate_slots_frame _ _ _ _ _ _ _ _ h2
          split at h
          · simp at h
          · rename_i d3 h3
            have t3 := block_write_free _ _ _ _ h3
            have s3 := (block_write_eq_some _ _ _ _ h3).2.1
            by_cases h0 : n - m = 0
            · rw [if_pos h0] at h
              split at h
              · simp at h
              · rename_i d4 h4
                have t4 := block_write_free _ _ _ _ h4
                simp only [Option.some.injEq, Prod.mk.injEq, true_and] at h
                subst h
                rw [t4, t3, c1, hr1]
                rw [hr1] at c2
                have hc : n + (n + 127) / 128 = m + 1 := by omega
                refine ⟨drop_cons_drop _ _ _ _ _ _ hf rfl hc, ?_⟩
                rw [hf, hc]
                simp only [List.length_cons]
                omega
            · rw [if_neg h0] at h
              have hz1 : ∀ i', i + 1 ≤ i' → i' < i + 1 + k → get_word level1ptr1 i' = 0 := by
                intro i' hi1 hi2
                rw [hbuf, get_word_set_word_other _ _ _ _ (by omega)]
                exact hz i' (by omega) (by omega)
              obtain ⟨e3, e4⟩ := ih _ _ _ _ _ (by omega) (by omega) h hz1
              rw [t3, c1, hr1] at e3 e4
              rw [hr1] at c2
              rw [List.drop_drop] at e3
              rw [List.length_drop] at e4
              constructor
              · rw [e3]
                exact drop_cons_drop _ _ _ _ _ _ hf rfl (by omega)
              · rw [hf]
                simp only [List.length_cons]
                omega

theorem get_word_of_bytes (a b : Sector) (lo hi : Nat)
    (h : ∀ m, (m / 4 < lo ∨ hi ≤ m / 4) → a m = b m) (j : Nat) (hj : j < lo ∨ hi ≤ j) :
    get_word a j = get_word b j :=
  get_word_congr a b j (fun k hk => h k (by omega))

/-- From a record whose pointer slots are all empty, a successful `inode_allocate` for `N`
sectors takes exactly `sectors_taken N` sectors from the front of the free list. -/
theorem inode_allocate_count (stack : Sector) (d d' : Disk) (inoded inoded' : inode_disk)
    (length : Int) (hsz : d.fs_device_size ≤ 4294967296)
    (h : inode_allocate stack d inoded length = some (true, inoded', d'))
    (hz : ∀ m, m < 125 → get_word inoded m = 0) :
    d'.free_map.free = d.free_map.free.drop (sectors_taken (bytes_to_sectors length)) ∧
    sectors_taken (bytes_to_sectors length) ≤ d.free_map.free.length := by
  have hb := (inode_allocate_basic _ _ _ _ _ _ _ h).2.2.2.1 rfl
  unfold inode_allocate at h
  split at h
  · simp at h
  · simp only [NUM_OF_DIRECT_POINTER, NUM_OF_INDIRECT_POINTER, BLOCK_SECTOR_SIZE,
      sizeof_block_sector_t] at h
    generalize hN : bytes_to_sectors length = N at h hb ⊢
    generalize hm : (if N < 120 then N else 120) = m at h
    have hm2 : m = min N 120 := by split at hm <;> omega
    split at h
    · simp at h
    · simp at h
    · rename_i inoded1 d1 h1
      obtain ⟨c1, c2⟩ := allocate_slots_count _ _ _ _ _ _ _ hsz h1
        (fun j _ hj => hz j (by omega))
      obtain ⟨⟨g1, -⟩, g2, -⟩ := allocate_slots_frame _ _ _ _ _ _ _ _ h1
      by_cases h0 : N - m = 0
      · have : sectors_taken N = m := by
          unfold sectors_taken
          rw [if_pos (by omega)]
          omega
        rw [if_pos h0] at h
        simp only [Option.some.injEq, Prod.mk.injEq, true_and] at h
        rw [← h.2, this]
        exact ⟨c1, c2⟩
      · rw [if_neg h0] at h
        have hm3 : m = 120 := by omega
        subst hm3
        have hz1 : ∀ j, 120 ≤ j → j < 125 → get_word inoded1 j = 0 := by
          intro j hj1 hj2
          rw [get_word_of_bytes inoded1 inoded (0 + 0) (0 + 0 + 120) g2 j (by omega)]
          exact hz j hj2
        split at h
        · simp at h
        · rename_i b2 inoded2 d2 n2 h2
          simp only [Option.some.injEq, Prod.mk.injEq] at h
          obtain ⟨hb2, -, hd⟩ := h
          subst hb2 hd
          obtain ⟨-, -, -, e4, -⟩ := inode_allocate_indirect_basic _ _ _ _ _ _ _ _ _ h2
          have e4' := e4 rfl
          obtain ⟨k1, -⟩ := inode_allocate_indirect_count _ _ _ _ _ _ _ _ _ (by omega) (by omega)
            h2 (fun i' _ hi => hz1 _ (by omega) (by omega))
          obtain ⟨k2, k3⟩ := k1 rfl
          have : sectors_taken N = 120 + (N - 120 + (N - 120 + 127) / 128) := by
            unfold sectors_taken
            rw [if_neg (by omega), if_pos (by omega)]
            omega
          rw [this, k2, c1, List.drop_drop]
          rw [c1, List.length_drop] at k3
          exact ⟨rfl, by omega⟩
        · rename_i inoded2 d2 n2 h2
          obtain ⟨⟨e0, -⟩, e2, -, -, e5⟩ := inode_allocate_indirect_basic _ _ _ _ _ _ _ _ _ h2
          have e5' := e5 rfl
          obtain ⟨-, k1⟩ := inode_allocate_indirect_count _ _ _ _ _ _ _ _ _ (by omega) (by omega)
            h2 (fun i' _ hi => hz1 _ (by omega) (by omega))
          obtain ⟨k2, k3, k4⟩ := k1 rfl
          have hz2 : get_word inoded2 124 = 0 := by
            rw [get_word_of_bytes inoded2 inoded1 (120 + 0) (120 + 0 + 4) e2 124 (by omega)]
            exact hz1 124 (by omega) (by omega)
          split at h
          · simp at h
          · simp at h
          · rename_i inoded3 d3 h3
            obtain ⟨s, rest, hf, -, -, -, hs3, hr3, -⟩ :=
              _inode_allocate_zero _ _ _ _ _ (by omega) h3 hz2
            split at h
            · simp at h
            · rename_i level1ptr hrd
              have htbl := block_read_fresh _ _ _ _ _ _ (by omega) h3 hz2 hrd
              split at h
              · simp at h
              · rename_i b4 d4 h4
                simp only [Option.some.injEq, Prod.mk.injEq] at h
                obtain ⟨hb4, -, hd⟩ := h
                subst hb4 hd
                obtain ⟨q1, q2⟩ := inode_allocate_double_count _ _ _ _ _ _ _ _ (by omega) k4 h4
                  (fun i' _ _ => htbl i')
                have : sectors_taken N
                    = 120 + 129 * 4 + (n2 + (n2 + 127) / 128 + 1) := by
                  unfold sectors_taken
                  rw [if_neg (by omega), if_neg (by omega)]
                  omega
                rw [this, q1, hr3]
                rw [hr3] at q2
                rw [k2, c1, List.drop_drop] at hf
                rw [c1, List.length_drop] at k3
                have hlen : (s :: rest).length = d.free_map.free.length - (120 + 129 * 4) := by
                  rw [← hf, List.length_drop]
                simp only [List.length_cons] at hlen
                constructor
                · rw [drop_cons_drop _ rest s (n2 + (n2 + 127) / 128) _ _ hf rfl rfl,
                    List.drop_drop]
                · omega
              · simp at h

theorem allocate_slots_one (base i : Nat) (d : Disk) (buf buf' : Sector) (d' : Disk)
    (h : allocate_slots base 1 i d buf = some (true, buf', d')) :
    _inode_allocate d buf (base + i) = some (true, buf', d') := by
  unfold allocate_slots at h
  split at h
  · simp at h
  · simp at h
  · rename_i buf1 d1 h1
    simp only [allocate_slots, Option.some.injEq, Prod.mk.injEq, true_and] at h
    rw [h1, h.1, h.2]

/-- Growing a file of 120 sectors by one: the direct slots are in use and the first indirect
slot is empty; a successful `inode_allocate` for 121 sectors takes two sectors, the first
as indirect sector and the second as the data sector in its slot 0. -/
theorem inode_allocate_first_indirect (stack : Sector) (d d' : Disk)
    (inoded inoded' : inode_disk) (length : Int) (hsz : d.fs_device_size ≤ 4294967296)
    (h : inode_allocate stack d inoded length = some (true, inoded', d'))
    (hN : bytes_to_sectors length = 121) (hd : ∀ m, m < 120 → get_word inoded m ≠ 0)
    (hi : get_word inoded 120 = 0) :
    ∃ s1 s2 rest, d.free_map.free = s1 :: s2 :: rest ∧ d'.free_map.free = rest ∧
      indirect_pointer inoded' 0 = s1 ∧ get_word (d'.fs_device s1) 0 = s2 ∧
      ∀ m, m ≠ 120 → get_word inoded' m = get_word inoded m := by
  unfold inode_allocate at h
  split at h
  · simp at h
  · simp only [NUM_OF_DIRECT_POINTER, NUM_OF_INDIRECT_POINTER, BLOCK_SECTOR_SIZE,
      sizeof_block_sector_t, hN] at h
    norm_num at h
    rw [allocate_slots_full 0 120 0 d inoded (fun m _ hm => hd m (by omega))] at h
    simp only [] at h
    split at h
    · simp at h
    · rename_i r2 inoded2 d2 n2 h2
      simp only [Option.some.injEq, Prod.mk.injEq] at h
      obtain ⟨hb, hi2, hd2⟩ := h
      subst hb hi2 hd2
      unfold inode_allocate_indirect at h2
      simp only [NUM_OF_DIRECT_POINTER, BLOCK_SECTOR_SIZE, sizeof_block_sector_t] at h2
      norm_num at h2
      split at h2
      · simp at h2
      · simp at h2
      · rename_i inoded1 d1 h1
        obtain ⟨s1, rest1, hf1, hs1, hbuf1, hgw1, hsz1, hr1, -⟩ :=
          _inode_allocate_zero _ _ _ _ _ hsz h1 hi
        split at h2
        · simp at h2
        · rename_i indptr hrd
          have htbl := block_read_fresh _ _ _ _ _ _ hsz h1 hi hrd
          split at h2
          · simp at h2
          · simp at h2
          · rename_i indptr1 d2' h3
            have h3' := allocate_slots_one _ _ _ _ _ _ h3
            obtain ⟨s2, rest2, hf2, hs2, hbuf2, hgw2, hsz2, hr2, -⟩ :=
              _inode_allocate_zero _ _ _ _ _ (by omega) h3' (htbl _)
            split at h2
            · simp at h2
            · rename_i d3 hw
              simp only [Option.some.injEq, Prod.mk.injEq] at h2
              obtain ⟨-, hi', hd', -⟩ := h2
              subst hi' hd'
              obtain ⟨-, -, w3, w4⟩ := block_write_eq_some _ _ _ _ hw
              have hp : indirect_pointer inoded1 0 = s1 := hgw1
              refine ⟨s1, s2, rest2, ?_, ?_, hp, ?_, ?_⟩
              · rw [hf1, ← hr1, hf2]
              · rw [w3, hr2]
              · rw [w4, hp]
                simp only [if_true]
                rw [get_word_block _ _ (by decide)]
                exact hgw2
              · intro m hm
                rw [hbuf1, get_word_set_word_other _ _ _ _ hm]
    · rename_i inoded2 d2 n2 h2
      have := (inode_allocate_indirect_basic _ _ _ _ _ _ _ _ _ h2).2.2.2.2 rfl
      omega

/-- For a target of at most 120 sectors `inode_allocate` touches the direct slots only. -/
theorem inode_allocate_direct_only (stack : Sector) (d d' : Disk) (inoded inoded' : inode_disk)
    (length : Int) (b : Bool)
    (h : inode_allocate stack d inoded length = some (b, inoded', d'))
    (hN : bytes_to_sectors length ≤ 120) : ∀ m, 120 ≤ m / 4 → inoded' m = inoded m := by
  unfold inode_allocate at h
  split at h
  · simp at h
  · simp only [NUM_OF_DIRECT_POINTER, NUM_OF_INDIRECT_POINTER, BLOCK_SECTOR_SIZE,
      sizeof_block_sector_t] at h
    generalize hN' : bytes_to_sectors length = N at h hN
    generalize hm : (if N < 120 then N else 120) = m at h
    have hm2 : m = N := by split at hm <;> omega
    split at h
    · simp at h
    · rename_i x1 d1 h1
      simp only [Option.some.injEq, Prod.mk.injEq] at h
      obtain ⟨-, hi, -⟩ := h
      subst hi
      intro q hq
      exact (allocate_slots_frame _ _ _ _ _ _ _ _ h1).2.1 q (by omega)
    · rename_i inoded1 d1 h1
      rw [if_pos (by omega)] at h
      simp only [Option.some.injEq, Prod.mk.injEq] at h
      obtain ⟨-, hi, -⟩ := h
      subst hi
      intro q hq
      exact (allocate_slots_frame _ _ _ _ _ _ _ _ h1).2.1 q (by omega)

/-! ## Sectors the allocator leaves alone -/

theorem alloc_frame_write (W : Nat → Prop) (d d2 d3 : Disk) (P : Nat) (buf : Sector)
    (h : alloc_frame W d d2) (hw : block_write d2 P buf = some d3)
    (hP : P ∈ d.free_map.free ∨ W P) : alloc_frame W d d3 := by
  obtain ⟨a1, a2, ⟨c, a3⟩, a4⟩ := h
  obtain ⟨-, w2, w3, w4⟩ := block_write_eq_some _ _ _ _ hw
  refine ⟨w2.trans a1, by rw [w3]; exact a2, ⟨c, by rw [w3]; exact a3⟩, ?_⟩
  intro t ht hW
  have : t ≠ P := by
    rintro rfl
    rcases hP with hP | hP
    · exact ht hP
    · exact hW hP
  rw [w4]
  simp only [if_neg this]
  exact a4 t ht hW

/-- The sector an allocated slot names is one that was in use before or one the free map
just handed out. -/
theorem _inode_allocate_pointer (d : Disk) (buf : Sector) (j : Nat) (buf' : Sector) (d' : Disk)
    (hsz : d.fs_device_size ≤ 4294967296)
    (h : _inode_allocate d buf j = some (true, buf', d')) :
    (get_word buf j ≠ 0 ∧ get_word buf' j = get_word buf j ∧ buf' = buf ∧ d' = d) ∨
    (get_word buf j = 0 ∧ get_word buf' j ∈ d.free_map.free ∧
      ∀ m, get_word (d'.fs_device (get_word buf' j)) m = 0) := by
  by_cases h0 : get_word buf j = 0
  · right
    obtain ⟨s, rest, hf, -, -, hgw, -, -, hz⟩ := _inode_allocate_zero _ _ _ _ _ hsz h h0
    refine ⟨h0, ?_, ?_⟩
    · rw [hgw, hf]; exact List.mem_cons_self _ _
    · intro m
      rw [hgw, hz]
      exact get_word_zero_block m
  · left
    rcases _inode_allocate_cases d buf j true buf' d' h with
      ⟨-, -, hbuf, hd⟩ | ⟨-, -, hb, -⟩ | ⟨hz, -⟩
    · exact ⟨h0, by rw [hbuf], hbuf, hd⟩
    · simp at hb
    · exact absurd hz h0

theorem inode_allocate_indirect_frame (k : Nat) : ∀ (i : Nat) (d : Disk) (inoded : inode_disk)
    (n : Nat) (r : Option Bool) (inoded' : inode_disk) (d' : Disk) (n' : Nat),
    d.fs_device_size ≤ 4294967296 →
    inode_allocate_indirect k i d inoded n = some (r, inoded', d', n') →
    alloc_frame (fun t => ∃ i', i ≤ i' ∧ i' < i + k ∧ get_word inoded (120 + i') ≠ 0 ∧
      get_word inoded (120 + i') = t) d d' := by
  induction k with
  | zero =>
    intro i d inoded n r inoded' d' n' _ h
    simp only [inode_allocate_indirect, Option.some.injEq, Prod.mk.injEq] at h
    obtain ⟨-, -, hd, -⟩ := h
    subst hd
    exact alloc_frame_refl _ _
  | succ k ih =>
    intro i d inoded n r inoded' d' n' hsz h
    unfold inode_allocate_indirect at h
    simp only [NUM_OF_DIRECT_POINTER] at h
    split at h
    · simp at h
    · rename_i inoded1 d1 h1
      simp only [Option.some.injEq, Prod.mk.injEq] at h
      obtain ⟨-, -, hd, -⟩ := h
      subst hd
      exact alloc_frame_mono _ _ _ _ (fun _ hf => hf.elim)
        (_inode_allocate_frame _ _ _ _ _ _ h1).1
    · rename_i inoded1 d1 h1
      obtain ⟨f1, f2, -⟩ := _inode_allocate_frame _ _ _ _ _ _ h1
      have f1' := alloc_frame_mono _ (fun t => ∃ i', i ≤ i' ∧ i' < i + (k + 1) ∧
        get_word inoded (120 + i') ≠ 0 ∧ get_word inoded (120 + i') = t) _ _
        (fun _ hf => hf.elim) f1
      have hP : indirect_pointer inoded1 i ∈ d.free_map.free ∨
          (∃ i', i ≤ i' ∧ i' < i + (k + 1) ∧ get_word inoded (120 + i') ≠ 0 ∧
            get_word inoded (120 + i') = indirect_pointer inoded1 i) := by
        rcases _inode_allocate_pointer _ _ _ _ _ hsz h1 with ⟨p1, p2, -⟩ | ⟨-, p2, -⟩
        · exact Or.inr ⟨i, le_refl _, by omega, p1, p2.symm⟩
        · exact Or.inl p2
      split at h
      · simp at h
      · simp only [BLOCK_SECTOR_SIZE, sizeof_block_sector_t] at h
        generalize (if n < 512 / 4 then n else 512 / 4) = m at h
        split at h
        · simp at h
        · rename_i x2 d2 h2
          simp only [Option.some.injEq, Prod.mk.injEq] at h
          obtain ⟨-, -, hd, -⟩ := h
          subst hd
          exact alloc_frame_trans _ _ _ _ f1' (alloc_frame_mono _ _ _ _ (fun _ hf => hf.elim)
            (allocate_slots_frame _ _ _ _ _ _ _ _ h2).1)
        · rename_i indptr' d2 h2
          have f12 := alloc_frame_trans _ _ _ _ f1' (alloc_frame_mono _ _ _ _
            (fun _ hf => hf.elim) (allocate_slots_frame _ _ _ _ _ _ _ _ h2).1)
          split at h
          · simp at h
          · rename_i d3 h3
            have f123 := alloc_frame_write _ _ _ _ _ _ f12 h3 hP
            split at h
            · simp only [Option.some.injEq, Prod.mk.injEq] at h
              obtain ⟨-, -, hd, -⟩ := h
              subst hd
              exact f123
            · have e := ih _ _ _ _ _ _ _ _ (by rw [f123.1]; exact hsz) h
              refine alloc_frame_trans _ _ _ _ f123 (alloc_frame_mono _ _ _ _ ?_ e)
              rintro t ⟨i', hi1, hi2, hi3, hi4⟩
              have hw : get_word inoded1 (120 + i') = get_word inoded (120 + i') :=
                get_word_congr _ _ _ (fun q hq => f2 q (by omega))
              rw [hw] at hi3 hi4
              exact ⟨i', by omega, by omega, hi3, hi4⟩

theorem inode_allocate_double_frame (stack : Sector) (inoded : inode_disk) (k : Nat) :
    ∀ (i : Nat) (d : Disk) (level1ptr : inode_indirect_pointer) (n : Nat) (r : Option Bool)
    (d' : Disk), d.fs_device_size ≤ 4294967296 →
    inode_allocate_double stack inoded k i d level1ptr n = some (r, d') →
    alloc_frame (fun t => t = double_indirect_pointer inoded ∨
      ∃ i', i ≤ i' ∧ i' < i + k ∧ get_word level1ptr i' ≠ 0 ∧ get_word level1ptr i' = t)
      d d' := by
  induction k with
  | zero =>
    intro i d level1ptr n r d' _ h
    simp only [inode_allocate_double, Option.some.injEq, Prod.mk.injEq] at h
    obtain ⟨-, hd⟩ := h
    subst hd
    exact alloc_frame_refl _ _
  | succ k ih =>
    intro i d level1ptr n r d' hsz h
    unfold inode_allocate_double at h
    split at h
    · simp at h
    · rename_i x1 d1 h1
      simp only [Option.some.injEq, Prod.mk.injEq] at h
      obtain ⟨-, hd⟩ := h
      subst hd
      exact alloc_frame_mono _ _ _ _ (fun _ hf => hf.elim)
        (_inode_allocate_frame _ _ _ _ _ _ h1).1
    · rename_i level1ptr1 d1 h1
      obtain ⟨f1, f2, -⟩ := _inode_allocate_frame _ _ _ _ _ _ h1
      have f1' := alloc_frame_mono _ (fun t => t = double_indirect_pointer inoded ∨
        ∃ i', i ≤ i' ∧ i' < i + (k + 1) ∧ get_word level1ptr i' ≠ 0 ∧
          get_word level1ptr i' = t) _ _ (fun _ hf => hf.elim) f1
      have hP : get_word level1ptr1 i ∈ d.free_map.free ∨
          (get_word level1ptr1 i = double_indirect_pointer inoded ∨
            ∃ i', i ≤ i' ∧ i' < i + (k + 1) ∧ get_word level1ptr i' ≠ 0 ∧
              get_word level1ptr i' = get_word level1ptr1 i) := by
        rcases _inode_allocate_pointer _ _ _ _ _ hsz h1 with ⟨p1, p2, -⟩ | ⟨-, p2, -⟩
        · exact Or.inr (Or.inr ⟨i, le_refl _, by omega, p1, p2.symm⟩)
        · exact Or.inl p2
      split at h
      · simp at h
      · simp only [BLOCK_SECTOR_SIZE, sizeof_block_sector_t] at h
        generalize (if n < 512 / 4 then n else 512 / 4) = m at h
        split at h
        · simp at h
        · rename_i x2 d2 h2
          simp only [Option.some.injEq, Prod.mk.injEq] at h
          obtain ⟨-, hd⟩ := h
          subst hd
          exact alloc_frame_trans _ _ _ _ f1' (alloc_frame_mono _ _ _ _ (fun _ hf => hf.elim)
            (allocate_slots_frame _ _ _ _ _ _ _ _ h2).1)
        · rename_i level2ptr' d2 h2
          have f12 := alloc_frame_trans _ _ _ _ f1' (alloc_frame_mono _ _ _ _
            (fun _ hf => hf.elim) (allocate_slots_frame _ _ _ _ _ _ _ _ h2).1)
          split at h
          · simp at h
          · rename_i d3 h3
            have f123 := alloc_frame_write _ _ _ _ _ _ f12 h3 hP
            split at h
            · split at h
              · simp at h
              · rename_i d4 h4
                simp only [Option.some.injEq, Prod.mk.injEq] at h
                obtain ⟨-, hd⟩ := h
                subst hd
                exact alloc_frame_write _ _ _ _ _ _ f123 h4 (Or.inr (Or.inl rfl))
            · have e := ih _ _ _ _ _ _ (by rw [f123.1]; exact hsz) h
              refine alloc_frame_trans _ _ _ _ f123 (alloc_frame_mono _ _ _ _ ?_ e)
              rintro t (ht | ⟨i', hi1, hi2, hi3, hi4⟩)
              · exact Or.inl ht
              · have hw : get_word level1ptr1 i' = get_word level1ptr i' :=
                  get_word_congr _ _ _ (fun q hq => f2 q (by omega))
                rw [hw] at hi3 hi4
                exact Or.inr ⟨i', by omega, by omega, hi3, hi4⟩

theorem alloc_frame_free (W : Nat → Prop) (d d' : Disk) (h : alloc_frame W d d') (t : Nat)
    (ht : t ∉ d.free_map.free) : t ∉ d'.free_map.free := by
  obtain ⟨-, -, ⟨c, a3⟩, -⟩ := h
  intro hm
  rw [a3] at hm
  exact ht (List.mem_of_mem_drop hm)

/-- A sector apart from the allocator's work keeps its contents through `inode_allocate`,
whatever the call returns. -/
theorem inode_allocate_apart (stack : Sector) (d d' : Disk) (inoded inoded' : inode_disk)
    (length : Int) (b : Bool) (hsz : d.fs_device_size ≤ 4294967296)
    (h : inode_allocate stack d inoded length = some (b, inoded', d')) (t : Nat)
    (ht : apart d inoded t) : d'.fs_device t = d.fs_device t := by
  obtain ⟨t1, t2, t3⟩ := ht
  unfold inode_allocate at h
  split at h
  · simp at h
  · simp only [NUM_OF_DIRECT_POINTER, NUM_OF_INDIRECT_POINTER, BLOCK_SECTOR_SIZE,
      sizeof_block_sector_t] at h
    generalize hN : bytes_to_sectors length = N at h
    generalize hm : (if N < 120 then N else 120) = m at h
    have hm2 : m ≤ 120 := by split at hm <;> omega
    split at h
    · simp at h
    · rename_i x1 d1 h1
      simp only [Option.some.injEq, Prod.mk.injEq] at h
      obtain ⟨-, -, hd⟩ := h
      subst hd
      exact (allocate_slots_frame _ _ _ _ _ _ _ _ h1).1.2.2.2 t t1 (fun hf => hf)
    · rename_i inoded1 d1 h1
      obtain ⟨f1, f2, -⟩ := allocate_slots_frame _ _ _ _ _ _ _ _ h1
      have e1 : d1.fs_device t = d.fs_device t := f1.2.2.2 t t1 (fun hf => hf)
      split at h
      · simp only [Option.some.injEq, Prod.mk.injEq] at h
        obtain ⟨-, -, hd⟩ := h
        subst hd
        exact e1
      · have hw1 : ∀ j, 120 ≤ j → get_word inoded1 j = get_word inoded j :=
          fun j hj => get_word_congr _ _ _ (fun q hq => f2 q (by omega))
        -- the indirect phase, relative to the device at entry
        have hind : ∀ r2 inoded2 d2 n2,
            inode_allocate_indirect 4 0 d1 inoded1 (N - m) = some (r2, inoded2, d2, n2) →
            alloc_frame (fun t => ∃ i', i' < 4 ∧ get_word inoded (120 + i') ≠ 0 ∧
              get_word inoded (120 + i') = t) d d2 := by
          intro r2 inoded2 d2 n2 h2
          have g := inode_allocate_indirect_frame _ _ _ _ _ _ _ _ _
            (by rw [f1.1]; exact hsz) h2
          refine alloc_frame_trans _ _ _ _ (alloc_frame_mono _ _ _ _ (fun _ hf => hf.elim) f1)
            (alloc_frame_mono _ _ _ _ ?_ g)
          rintro q ⟨i', -, hi2, hi3, hi4⟩
          rw [hw1 _ (by omega)] at hi3 hi4
          exact ⟨i', by omega, hi3, hi4⟩
        have hnotW : ¬ ∃ i', i' < 4 ∧ get_word inoded (120 + i') ≠ 0 ∧
            get_word inoded (120 + i') = t := by
          rintro ⟨i', hi1, hi2, hi3⟩
          rcases t2 i' hi1 with h0 | h0
          · exact hi2 h0
          · exact h0 hi3
        split at h
        · simp at h
        · rename_i b2 inoded2 d2 n2 h2
          simp only [Option.some.injEq, Prod.mk.injEq] at h
          obtain ⟨-, -, hd⟩ := h
          subst hd
          exact (hind _ _ _ _ h2).2.2.2 t t1 hnotW
        · rename_i inoded2 d2 n2 h2
          have g2 := hind _ _ _ _ h2
          have e2 : d2.fs_device t = d.fs_device t := g2.2.2.2 t t1 hnotW
          have hw2 : get_word inoded2 124 = get_word inoded 124 := by
            rw [get_word_congr inoded2 inoded1 124 (fun q hq =>
              (inode_allocate_indirect_basic _ _ _ _ _ _ _ _ _ h2).2.1 q (by omega))]
            exact hw1 124 (by omega)
          have hsz2 : d2.fs_device_size ≤ 4294967296 := by rw [g2.1]; exact hsz
          split at h
          · simp at h
          · rename_i x3 d3 h3
            simp only [Option.some.injEq, Prod.mk.injEq] at h
            obtain ⟨-, -, hd⟩ := h
            subst hd
            rw [(_inode_allocate_frame _ _ _ _ _ _ h3).1.2.2.2 t
              (alloc_frame_free _ _ _ g2 t t1) (fun hf => hf)]
            exact e2
          · rename_i inoded3 d3 h3
            obtain ⟨k1, -, -⟩ := _inode_allocate_frame _ _ _ _ _ _ h3
            have e3 : d3.fs_device t = d.fs_device t := by
              rw [k1.2.2.2 t (alloc_frame_free _ _ _ g2 t t1) (fun hf => hf)]
              exact e2
            have t3' : t ∉ d3.free_map.free :=
              alloc_frame_free _ _ _ k1 t (alloc_frame_free _ _ _ g2 t t1)
            split at h
            · simp at h
            · rename_i level1ptr hrd
              split at h
              · simp at h
              · rename_i b4 d4 h4
                simp only [Option.some.injEq, Prod.mk.injEq] at h
                obtain ⟨-, -, hd⟩ := h
                subst hd
                have g4 := inode_allocate_double_frame _ _ _ _ _ _ _ _ _
                  (by rw [k1.1]; exact hsz2) h4
                rw [g4.2.2.2 t t3' ?_]
                · exact e3
                · -- `t` is neither the double-indirect sector nor named by one of its slots
                  rcases _inode_allocate_pointer _ _ _ _ _ hsz2 h3 with
                    ⟨p1, p2, p3, p4⟩ | ⟨p1, p2, p3⟩
                  · -- the double-indirect sector was there before
                    rw [hw2] at p1 p2
                    have hD : double_indirect_pointer inoded3 = double_indirect_pointer inoded :=
                      p2
                    rcases t3 with t0 | ⟨u1, u2, u3, u4⟩
                    · exact absurd t0 p1
                    · have hnW : ¬ ∃ i', i' < 4 ∧ get_word inoded (120 + i') ≠ 0 ∧
                          get_word inoded (120 + i') = double_indirect_pointer inoded := by
                        rintro ⟨i', hi1, -, hi3⟩
                        exact u3 i' hi1 hi3
                      have hl : level1ptr = d.fs_device (double_indirect_pointer inoded) := by
                        rw [hD, p4] at hrd
                        unfold block_read at hrd
                        split at hrd
                        · simp only [Option.some.injEq] at hrd
                          rw [← hrd]
                          exact g2.2.2.2 _ u2 hnW
                        · simp at hrd
                      rintro (hc | ⟨i', -, hi2, hi3, hi4⟩)
                      · rw [hD] at hc
                        exact u1 hc.symm
                      · rw [hl] at hi3 hi4
                        rcases u4 i' (by omega) with h0 | h0
                        · exact hi3 h0
                        · exact h0 hi4
                  · -- the double-indirect sector is fresh
                    have hfree : double_indirect_pointer inoded3 ∈ d.free_map.free := by
                      by_contra hc
                      exact alloc_frame_free _ _ _ g2 _ hc p2
                    have hl : ∀ m, get_word level1ptr m = 0 := by
                      intro m
                      unfold block_read at hrd
                      split at hrd
                      · simp only [Option.some.injEq] at hrd
                        rw [← hrd]
                        exact p3 m
                      · simp at hrd
                    rintro (hc | ⟨i', -, -, hi3, -⟩)
                    · apply t1
                      rw [hc]
                      exact hfree
                    · exact hi3 (hl i')
              · simp at h

theorem bytes_to_sectors_gt (length : Int) (h1 : 323584 < length) (h2 : length < 2147483648) :
    632 < bytes_to_sectors length := by
  have := bytes_to_sectors_eq length (by omega) h2
  omega

/-- What a successful `inode_create` of more than 632 sectors leaves on the device: the home
sector holds the record, which carries the length asked for, and the double-indirect sector
holds the stack image. -/
theorem inode_create_double (stack : Sector) (mem : Bool) (w w' : World) (sector : Nat)
    (length : Int) (is_dir : Bool)
    (h : inode_create stack mem w sector length is_dir = some (true, w'))
    (hlen : 323584 < length) (hlen2 : length < 2147483648)
    (hhome : sector ≠ double_indirect_pointer (w'.disk.fs_device sector)) :
    disk_length (w'.disk.fs_device sector) = length ∧
    double_indirect_pointer (w'.disk.fs_device sector) < w'.disk.fs_device_size ∧
    w'.disk.fs_device (double_indirect_pointer (w'.disk.fs_device sector)) =
      (fun j => if j < 512 then stack j else 0) := by
  unfold inode_create at h
  rw [if_neg (by omega)] at h
  split at h
  · simp only [] at h
    rw [disk_length_fresh _ _ (by omega) hlen2] at h
    split at h
    · simp at h
    · rename_i r inoded' d ha
      split at h
      · simp at h
      · rename_i d' hw
        simp only [Option.some.injEq, Prod.mk.injEq, true_and] at h
        subst h
        obtain ⟨h1, h2, -, h4⟩ := block_write_eq_some _ _ _ _ hw
        obtain ⟨h5, h6⟩ := inode_allocate_true_double _ _ _ _ _ _ ha
          (bytes_to_sectors_gt _ hlen hlen2)
        obtain ⟨-, a2, -⟩ := inode_allocate_basic _ _ _ _ _ _ _ ha
        simp only at hhome ⊢
        have hrec : d'.fs_device sector = fun k => if k < 512 then inoded' k else 0 := by
          rw [h4]; simp
        have hdbl : double_indirect_pointer (d'.fs_device sector)
            = double_indirect_pointer inoded' := by
          rw [hrec]; exact get_word_block _ _ (by decide)
        have hl : disk_length (d'.fs_device sector) = length := by
          rw [hrec]
          unfold disk_length
          rw [get_word_block _ _ (by decide)]
          have := disk_length_congr _ _ a2
          unfold disk_length at this
          rw [this]
          exact disk_length_fresh _ is_dir (by omega) hlen2
        rw [hdbl] at hhome ⊢
        refine ⟨hl, by rw [h2]; exact h5, ?_⟩
        rw [h4]
        simp only [if_neg (Ne.symm hhome)]
        exact h6
    · simp at h
  · simp at h

theorem alloc_frame_mem (W : Nat → Prop) (d d' : Disk) (h : alloc_frame W d d') (t : Nat)
    (ht : t ∈ d'.free_map.free) : t ∈ d.free_map.free := by
  by_contra hc
  exact alloc_frame_free W d d' h t hc ht

/-- A successful `inode_allocate` of more than 632 sectors on a record without a
double-indirect sector takes that sector from the free map. -/
theorem inode_allocate_double_fresh (stack : Sector) (d d' : Disk) (inoded inoded' : inode_disk)
    (length : Int) (hsz : d.fs_device_size ≤ 4294967296)
    (h : inode_allocate stack d inoded length = some (true, inoded', d'))
    (hn : 632 < bytes_to_sectors length) (hz : get_word inoded 124 = 0) :
    double_indirect_pointer inoded' ∈ d.free_map.free := by
  unfold inode_allocate at h
  split at h
  · simp at h
  · simp only [NUM_OF_DIRECT_POINTER, NUM_OF_INDIRECT_POINTER, BLOCK_SECTOR_SIZE,
      sizeof_block_sector_t] at h
    generalize hN : bytes_to_sectors length = N at h hn
    generalize hm : (if N < 120 then N else 120) = m at h
    have hm2 : m = 120 := by split at hm <;> omega
    subst hm2
    split at h
    · simp at h
    · simp at h
    · rename_i inoded1 d1 h1
      obtain ⟨f1, f2, -⟩ := allocate_slots_frame _ _ _ _ _ _ _ _ h1
      rw [if_neg (by omega)] at h
      split at h
      · simp at h
      · rename_i b i1 d2 n1 hi
        simp only [Option.some.injEq, Prod.mk.injEq] at h
        obtain ⟨hb, -, -⟩ := h
        subst hb
        have := inode_allocate_indirect_true _ _ _ _ _ _ hi
        omega
      · rename_i inoded2 d2 n2 h2
        obtain ⟨e1, e2, -⟩ := inode_allocate_indirect_basic _ _ _ _ _ _ _ _ _ h2
        have hz2 : get_word inoded2 124 = 0 := by
          rw [get_word_congr inoded2 inoded1 124 (fun q hq => e2 q (by omega)),
            get_word_congr inoded1 inoded 124 (fun q hq => f2 q (by omega))]
          exact hz
        split at h
        · simp at h
        · simp at h
        · rename_i inoded3 d3 h3
          have hmem : get_word inoded3 124 ∈ d2.free_map.free := by
            rcases _inode_allocate_pointer _ _ _ _ _ (by rw [e1.1, f1.1]; exact hsz) h3 with
              ⟨p1, -⟩ | ⟨-, p2, -⟩
            · exact absurd hz2 p1
            · exact p2
          split at h
          · simp at h
          · split at h
            · simp at h
            · simp only [Option.some.injEq, Prod.mk.injEq] at h
              obtain ⟨-, hi, -⟩ := h
              subst hi
              exact alloc_frame_mem _ _ _ f1 _ (alloc_frame_mem _ _ _ e1 _ hmem)
            · simp at h

theorem get_word_zeros (j : Nat) : get_word zeros j = 0 := by
  unfold get_word zeros
  rfl

/-- What `inode_create` leaves on the device and in the free map comes from the allocation
and the write of the home sector. -/
theorem inode_create_true (stack : Sector) (mem : Bool) (w w' : World) (sector : Nat)
    (length : Int) (is_dir : Bool) (h0 : 0 ≤ length) (h1 : length < 2147483648)
    (h : inode_create stack mem w sector length is_dir = some (true, w')) :
    ∃ inoded' d', inode_allocate stack w.disk
        (set_is_dir (set_magic (set_length zeros length) INODE_MAGIC) is_dir) length
        = some (true, inoded', d') ∧ block_write d' sector inoded' = some w'.disk := by
  unfold inode_create at h
  rw [if_neg (by omega)] at h
  split at h
  · simp only [] at h
    rw [disk_length_fresh _ _ h0 h1] at h
    split at h
    · simp at h
    · rename_i r inoded' d ha
      split at h
      · simp at h
      · rename_i d' hw
        simp only [Option.some.injEq, Prod.mk.injEq, true_and] at h
        subst h
        exact ⟨inoded', d, ha, hw⟩
    · simp at h
  · simp at h

theorem get_word_lt (s : Sector) (j : Nat) : get_word s j < 4294967296 := by
  unfold get_word
  omega

/-! ## Allocation keeps the slots in use -/

theorem _inode_allocate_keep (d : Disk) (buf : Sector) (j : Nat) (b : Bool) (buf' : Sector)
    (d' : Disk) (h : _inode_allocate d buf j = some (b, buf', d')) :
    ∀ m, get_word buf m ≠ 0 → get_word buf' m = get_word buf m := by
  intro m hm
  rcases _inode_allocate_cases _ _ _ _ _ _ h with ⟨-, -, e, -⟩ | ⟨-, -, -, e, -⟩ |
    ⟨h0, -, s, rest, -, -, e, -⟩
  · rw [e]
  · rw [e]
  · rw [e]
    exact get_word_set_word_other _ _ _ _ (fun hc => hm (hc ▸ h0))

theorem allocate_slots_keep (base : Nat) (k : Nat) : ∀ (i : Nat) (d : Disk) (buf : Sector)
    (b : Bool) (buf' : Sector) (d' : Disk),
    allocate_slots base k i d buf = some (b, buf', d') →
    ∀ m, get_word buf m ≠ 0 → get_word buf' m = get_word buf m := by
  induction k with
  | zero =>
    intro i d buf b buf' d' h
    simp only [allocate_slots, Option.some.injEq, Prod.mk.injEq] at h
    obtain ⟨-, hbuf, -⟩ := h
    subst hbuf
    exact fun _ _ => rfl
  | succ k ih =>
    intro i d buf b buf' d' h
    unfold allocate_slots at h
    split at h
    · simp at h
    · rename_i buf1 d1 h1
      simp only [Option.some.injEq, Prod.mk.injEq] at h
      obtain ⟨-, hbuf, -⟩ := h
      subst hbuf
      exact _inode_allocate_keep _ _ _ _ _ _ h1
    · rename_i buf1 d1 h1
      intro m hm
      have f := _inode_allocate_keep _ _ _ _ _ _ h1 m hm
      rw [ih _ _ _ _ _ _ h m (by rw [f]; exact hm), f]

theorem inode_allocate_indirect_keep (k : Nat) : ∀ (i : Nat) (d : Disk) (inoded : inode_disk)
    (n : Nat) (r : Option Bool) (inoded' : inode_disk) (d' : Disk) (n' : Nat),
    inode_allocate_indirect k i d inoded n = some (r, inoded', d', n') →
    ∀ m, get_word inoded m ≠ 0 → get_word inoded' m = get_word inoded m := by
  induction k with
  | zero =>
    intro i d inoded n r inoded' d' n' h
    simp only [inode_allocate_indirect, Option.some.injEq, Prod.mk.injEq] at h
    obtain ⟨-, hi, -, -⟩ := h
    subst hi
    exact fun _ _ => rfl
  | succ k ih =>
    intro i d inoded n r inoded' d' n' h
    unfold inode_allocate_indirect at h
    split at h
    · simp at h
    · rename_i inoded1 d1 h1
      simp only [Option.some.injEq, Prod.mk.injEq] at h
      obtain ⟨-, hi, -, -⟩ := h
      subst hi
      exact _inode_allocate_keep _ _ _ _ _ _ h1
    · rename_i inoded1 d1 h1
      have f := _inode_allocate_keep _ _ _ _ _ _ h1
      split at h
      · simp at h
      · simp only [BLOCK_SECTOR_SIZE, sizeof_block_sector_t] at h
        generalize (if n < 512 / 4 then n else 512 / 4) = m at h
        split at h
        · simp at h
        · simp only [Option.some.injEq, Prod.mk.injEq] at h
          obtain ⟨-, hi, -, -⟩ := h
          subst hi
          exact f
        · split at h
          · simp at h
          · by_cases h0 : n - m = 0
            · rw [if_pos h0] at h
              simp only [Option.some.injEq, Prod.mk.injEq] at h
              obtain ⟨-, hi, -, -⟩ := h
              subst hi
              exact f
            · rw [if_neg h0] at h
              intro w hw
              rw [ih _ _ _ _ _ _ _ _ h w (by rw [f w hw]; exact hw), f w hw]

theorem inode_allocate_keep (stack : Sector) (d d' : Disk) (inoded inoded' : inode_disk)
    (length : Int) (b : Bool)
    (h : inode_allocate stack d inoded length = some (b, inoded', d')) :
    ∀ m, get_word inoded m ≠ 0 → get_word inoded' m = get_word inoded m := by
  unfold inode_allocate at h
  split at h
  · simp at h
  · simp only [NUM_OF_DIRECT_POINTER, NUM_OF_INDIRECT_POINTER, BLOCK_SECTOR_SIZE,
      sizeof_block_sector_t] at h
    generalize bytes_to_sectors length = N at h
    generalize (if N < 120 then N else 120) = m at h
    split at h
    · simp at h
    · rename_i x1 d1 h1
      simp only [Option.some.injEq, Prod.mk.injEq] at h
      obtain ⟨-, hi, -⟩ := h
      subst hi
      exact allocate_slots_keep _ _ _ _ _ _ _ _ h1
    · rename_i inoded1 d1 h1
      have f := allocate_slots_keep _ _ _ _ _ _ _ _ h1
      by_cases h0 : N - m = 0
      · rw [if_pos h0] at h
        simp only [Option.some.injEq, Prod.mk.injEq] at h
        obtain ⟨-, hi, -⟩ := h
        subst hi
        exact f
      · rw [if_neg h0] at h
        split at h
        · simp at h
        · rename_i b2 inoded2 d2 n2 h2
          simp only [Option.some.injEq, Prod.mk.injEq] at h
          obtain ⟨-, hi, -⟩ := h
          subst hi
          have e := inode_allocate_indirect_keep _ _ _ _ _ _ _ _ _ h2
          intro w hw
          rw [e w (by rw [f w hw]; exact hw), f w hw]
        · rename_i inoded2 d2 n2 h2
          have e := inode_allocate_indirect_keep _ _ _ _ _ _ _ _ _ h2
          have fe : ∀ w, get_word inoded w ≠ 0 → get_word inoded2 w = get_word inoded w := by
            intro w hw
            rw [e w (by rw [f w hw]; exact hw), f w hw]
          split at h
          · simp at h
          · rename_i x3 d3 h3
            simp only [Option.some.injEq, Prod.mk.injEq] at h
            obtain ⟨-, hi, -⟩ := h
            subst hi
            have g := _inode_allocate_keep _ _ _ _ _ _ h3
            intro w hw
            rw [g w (by rw [fe w hw]; exact hw), fe w hw]
          · rename_i inoded3 d3 h3
            have g := _inode_allocate_keep _ _ _ _ _ _ h3
            have feg : ∀ w, get_word inoded w ≠ 0 →
                get_word inoded3 w = get_word inoded w := by
              intro w hw
              rw [g w (by rw [fe w hw]; exact hw), fe w hw]
            split at h
            · simp at h
            · split at h
              · simp at h
              · simp only [Option.some.injEq, Prod.mk.injEq] at h
                obtain ⟨-, hi, -⟩ := h
                subst hi
                exact feg
              · simp at h

/-! ## Allocation over a stale double-indirect sector -/

theorem inode_allocate_double_stale (stack : Sector) (inoded : inode_disk) (k i : Nat)
    (d : Disk) (level1ptr : inode_indirect_pointer) (n : Nat) (hk : 0 < k)
    (h0 : get_word level1ptr i ≠ 0) (hbig : d.fs_device_size ≤ get_word level1ptr i) :
    inode_allocate_double stack inoded k i d level1ptr n = none := by
  obtain ⟨k', rfl⟩ : ∃ k', k = k' + 1 := ⟨k - 1, by omega⟩
  have e1 : _inode_allocate d level1ptr i = some (true, level1ptr, d) := by
    unfold _inode_allocate
    rw [if_neg h0]
  have e2 : block_read d (get_word level1ptr i) = none := by
    unfold block_read
    rw [if_neg (by omega)]
  unfold inode_allocate_double
  rw [e1]
  simp only []
  rw [e2]

/-- A second `inode_allocate` for more than 632 sectors on a record whose double-indirect
sector holds the stack image left by a first call does not succeed. -/
theorem inode_allocate_stale (stack : Sector) (d1 : Disk) (r1 : inode_disk) (t' : Int)
    (hn' : 632 < bytes_to_sectors t') (hheap : d1.fs_device_size ≤ get_word stack 0)
    (hs : double_indirect_pointer r1 < d1.fs_device_size)
    (hst : d1.fs_device (double_indirect_pointer r1) = fun j => if j < 512 then stack j else 0)
    (hD0 : double_indirect_pointer r1 ≠ 0)
    (hfree : double_indirect_pointer r1 ∉ d1.free_map.free)
    (hind : ∀ i, i < 4 → indirect_pointer r1 i ≠ double_indirect_pointer r1)
    (r2 : inode_disk) (d2 : Disk) : inode_allocate stack d1 r1 t' ≠ some (true, r2, d2) := by
  intro h
  have hsz : d1.fs_device_size ≤ 4294967296 := by
    have := get_word_lt stack 0
    omega
  unfold inode_allocate at h
  split at h
  · simp at h
  · simp only [NUM_OF_DIRECT_POINTER, NUM_OF_INDIRECT_POINTER, BLOCK_SECTOR_SIZE,
      sizeof_block_sector_t] at h
    generalize hN : bytes_to_sectors t' = N at h hn'
    generalize hm : (if N < 120 then N else 120) = m at h
    have hm2 : m = 120 := by split at hm <;> omega
    subst hm2
    split at h
    · simp at h
    · simp at h
    · rename_i ra da h1
      rw [if_neg (by omega)] at h
      obtain ⟨f1, f2, -⟩ := allocate_slots_frame _ _ _ _ _ _ _ _ h1
      split at h
      · simp at h
      · rename_i b rb db nb h2
        simp only [Option.some.injEq, Prod.mk.injEq] at h
        obtain ⟨hb, -, -⟩ := h
        subst hb
        have := (inode_allocate_indirect_basic _ _ _ _ _ _ _ _ _ h2).2.2.2.1 rfl
        omega
      · rename_i rb db nb h2
        obtain ⟨-, e2, -, -, -⟩ := inode_allocate_indirect_basic _ _ _ _ _ _ _ _ _ h2
        have e6 := inode_allocate_indirect_frame 4 0 da ra _ _ _ _ _ (by rw [f1.1]; exact hsz) h2
        have hwb : double_indirect_pointer rb = double_indirect_pointer r1 := by
          unfold double_indirect_pointer
          apply get_word_congr
          intro k hk
          rw [e2 k (by omega), f2 k (by omega)]
        have hdev : db.fs_device (double_indirect_pointer r1)
            = d1.fs_device (double_indirect_pointer r1) := by
          rw [e6.2.2.2 _ (alloc_frame_free _ _ _ f1 _ hfree), f1.2.2.2 _ hfree (fun hc => hc)]
          rintro ⟨i', -, hi', -, hw⟩
          apply hind i' (by omega)
          rw [← hw]
          unfold indirect_pointer
          simp only [NUM_OF_DIRECT_POINTER]
          apply get_word_congr
          intro k hk
          rw [f2 k (by omega)]
        have hsize : db.fs_device_size = d1.fs_device_size := by rw [e6.1, f1.1]
        split at h
        · simp at h
        · simp at h
        · rename_i rc dc h3
          have h3' : rc = rb ∧ dc = db := by
            rcases _inode_allocate_cases _ _ _ _ _ _ h3 with ⟨-, -, hrc, hdc⟩ | ⟨-, -, hb, -⟩ |
              ⟨hz, -⟩
            · exact ⟨hrc, hdc⟩
            · simp at hb
            · exact absurd hz (by
                show double_indirect_pointer rb ≠ 0
                rw [hwb]
                exact hD0)
          obtain ⟨hrc, hdc⟩ := h3'
          subst hrc hdc
          rw [hwb, block_read_some _ _ (by rw [hsize]; exact hs), hdev, hst] at h
          simp only [] at h
          rw [inode_allocate_double_stale _ _ _ _ _ _ _ (by norm_num)
            (by rw [get_word_block _ _ (by decide)]; omega)
            (by rw [get_word_block _ _ (by decide), hsize]; exact hheap)] at h
          simp at h

/-! ## What deallocation releases -/

theorem release_slots_spec (buf : Sector) (k : Nat) : ∀ (i : Nat) (d : Disk),
    (release_slots buf k i d).fs_device = d.fs_device ∧
    (release_slots buf k i d).fs_device_size = d.fs_device_size ∧
    (release_slots buf k i d).free_map.released =
      d.free_map.released ++ (List.range k).map (fun j => get_word buf (i + j)) := by
  induction k with
  | zero => intro i d; simp [release_slots]
  | succ k ih =>
    intro i d
    obtain ⟨h1, h2, h3⟩ := ih (i + 1) (release d (get_word buf i))
    unfold release_slots
    refine ⟨by rw [h1]; rfl, by rw [h2]; rfl, ?_⟩
    rw [h3, List.range_succ_eq_map]
    simp only [release, free_map_release, List.map_cons, List.map_map, List.append_assoc,
      List.singleton_append, add_zero]
    congr 2
    apply List.map_congr_left
    intro j _
    simp only [Function.comp]
    congr 1
    omega

theorem inode_deallocate_indirect_device (inoded : inode_disk) (k : Nat) :
    ∀ (i : Nat) (d : Disk) (n : Nat) (b : Bool) (d' : Disk) (n' : Nat),
    inode_deallocate_indirect inoded k i d n = some (b, d', n') →
    d'.fs_device = d.fs_device ∧ d'.fs_device_size = d.fs_device_size := by
  induction k with
  | zero =>
    intro i d n b d' n' h
    simp only [inode_deallocate_indirect, Option.some.injEq, Prod.mk.injEq] at h
    obtain ⟨-, hd, -⟩ := h
    subst hd
    exact ⟨rfl, rfl⟩
  | succ k ih =>
    intro i d n b d' n' h
    unfold inode_deallocate_indirect at h
    simp only [] at h
    split at h
    · simp at h
    · simp only [BLOCK_SECTOR_SIZE, sizeof_block_sector_t] at h
      generalize (if n < 512 / 4 then n else 512 / 4) = m at h
      rename_i indptr _
      obtain ⟨r1, r2, -⟩ := release_slots_spec indptr m 0 (release d (indirect_pointer inoded i))
      by_cases h0 : n - m = 0
      · rw [if_pos h0] at h
        simp only [Option.some.injEq, Prod.mk.injEq] at h
        obtain ⟨-, hd, -⟩ := h
        subst hd
        exact ⟨r1, r2⟩
      · rw [if_neg h0] at h
        obtain ⟨e1, e2⟩ := ih _ _ _ _ _ _ h
        exact ⟨by rw [e1, r1]; rfl, by rw [e2, r2]; rfl⟩

theorem inode_deallocate_double_device (level1ptr : inode_indirect_pointer) (k : Nat) :
    ∀ (i : Nat) (d : Disk) (n : Nat) (d' : Disk),
    inode_deallocate_double level1ptr k i d n = some d' →
    d'.fs_device = d.fs_device ∧ d'.fs_device_size = d.fs_device_size := by
  induction k with
  | zero =>
    intro i d n d' h
    simp [inode_deallocate_double] at h
  | succ k ih =>
    intro i d n d' h
    unfold inode_deallocate_double at h
    simp only [] at h
    split at h
    · simp at h
    · simp only [BLOCK_SECTOR_SIZE, sizeof_block_sector_t] at h
      generalize (if n < 512 / 4 then n else 512 / 4) = m at h
      rename_i level2ptr _
      obtain ⟨r1, r2, -⟩ := release_slots_spec level2ptr m 0 (release d (get_word level1ptr i))
      by_cases h0 : n - m = 0
      · rw [if_pos h0] at h
        simp only [Option.some.injEq] at h
        subst h
        exact ⟨r1, r2⟩
      · rw [if_neg h0] at h
        obtain ⟨e1, e2⟩ := ih _ _ _ _ h
        exact ⟨by rw [e1, r1]; rfl, by rw [e2, r2]; rfl⟩

/-- The function `inode_deallocate` writes nothing to the device. -/
theorem inode_deallocate_device (d d' : Disk) (inoded : inode_disk)
    (h : inode_deallocate d inoded = some d') :
    d'.fs_device = d.fs_device ∧ d'.fs_device_size = d.fs_device_size := by
  unfold inode_deallocate at h
  split at h
  · simp at h
  · simp only [NUM_OF_DIRECT_POINTER, NUM_OF_INDIRECT_POINTER, BLOCK_SECTOR_SIZE,
      sizeof_block_sector_t] at h
    generalize bytes_to_sectors (disk_length inoded) = N at h
    generalize (if N < 120 then N else 120) = m at h
    obtain ⟨r1, r2, -⟩ := release_slots_spec inoded m 0 d
    by_cases h0 : N - m = 0
    · rw [if_pos h0] at h
      simp only [Option.some.injEq] at h
      subst h
      exact ⟨r1, r2⟩
    · rw [if_neg h0] at h
      split at h
      · simp at h
      · rename_i d2 n2 h2
        simp only [Option.some.injEq] at h
        subst h
        obtain ⟨e1, e2⟩ := inode_deallocate_indirect_device _ _ _ _ _ _ _ _ h2
        exact ⟨by rw [e1, r1], by rw [e2, r2]⟩
      · rename_i d2 n2 h2
        obtain ⟨e1, e2⟩ := inode_deallocate_indirect_device _ _ _ _ _ _ _ _ h2
        split at h
        · simp at h
        · obtain ⟨g1, g2⟩ := inode_deallocate_double_device _ _ _ _ _ _ h
          exact ⟨by rw [g1]; show d2.fs_device = _; rw [e1, r1],
            by rw [g2]; show d2.fs_device_size = _; rw [e2, r2]⟩

theorem mem_release_slots (buf : Sector) (k : Nat) (d : Disk) :
    ∃ l, (release_slots buf k 0 d).free_map.released = d.free_map.released ++ l ∧
      (release_slots buf k 0 d).fs_device = d.fs_device ∧
      (release_slots buf k 0 d).fs_device_size = d.fs_device_size ∧
      ∀ s, s ∈ l ↔ ∃ j, j < k ∧ s = get_word buf j := by
  obtain ⟨h1, h2, h3⟩ := release_slots_spec buf k 0 d
  refine ⟨_, h3, h1, h2, fun s => ?_⟩
  rw [List.mem_map]
  constructor
  · rintro ⟨j, hj, rfl⟩
    exact ⟨j, List.mem_range.mp hj, by rw [Nat.zero_add]⟩
  · rintro ⟨j, hj, rfl⟩
    exact ⟨j, List.mem_range.mpr hj, by rw [Nat.zero_add]⟩

theorem slot_index_up (n m q i j : Nat) (hm : m = min n 128) (h0 : ¬ n - m = 0)
    (a : i + 1 ≤ q) (h : 128 * (q - (i + 1)) + j < n - m) : 128 * (q - i) + j < n := by
  omega

theorem slot_index_down (n m q i j : Nat) (hm : m = min n 128) (a : i ≤ q) (hq : ¬ q = i)
    (h : 128 * (q - i) + j < n) : 128 * (q - (i + 1)) + j < n - m := by
  omega

theorem inode_deallocate_indirect_released (inoded : inode_disk) (k : Nat) :
    ∀ (i : Nat) (d : Disk) (n : Nat) (b : Bool) (d' : Disk) (n' : Nat), 0 < n →
    inode_deallocate_indirect inoded k i d n = some (b, d', n') →
    (b = true → n ≤ 128 * k) ∧ (b = false → n' + 128 * k = n ∧ 0 < n') ∧
    ∃ l, d'.free_map.released = d.free_map.released ++ l ∧
      ∀ s, s ∈ l ↔ ∃ q, i ≤ q ∧ q < i + k ∧ 128 * (q - i) < n ∧
        (s = indirect_pointer inoded q ∨ ∃ j, j < 128 ∧ 128 * (q - i) + j < n ∧
          s = get_word (d.fs_device (indirect_pointer inoded q)) j) := by
  induction k with
  | zero =>
    intro i d n b d' n' hn h
    simp only [inode_deallocate_indirect, Option.some.injEq, Prod.mk.injEq] at h
    obtain ⟨hb, hd, hn'⟩ := h
    subst hb hd hn'
    refine ⟨by simp, fun _ => ⟨by omega, hn⟩, [], by simp, fun s => ?_⟩
    constructor
    · intro hs; simp at hs
    · rintro ⟨q, h1, h2, -⟩; omega
  | succ k ih =>
    intro i d n b d' n' hn h
    unfold inode_deallocate_indirect at h
    simp only [] at h
    split at h
    · simp at h
    · rename_i indptr hr
      obtain ⟨-, hind⟩ := block_read_eq_some _ _ _ hr
      have hind' : indptr = d.fs_device (indirect_pointer inoded i) := hind
      simp only [BLOCK_SECTOR_SIZE, sizeof_block_sector_t] at h
      generalize hm : (if n < 512 / 4 then n else 512 / 4) = m at h
      have hm2 : m = min n 128 := by split at hm <;> omega
      obtain ⟨l1, r1, r2, -, r4⟩ := mem_release_slots indptr m
        (release d (indirect_pointer inoded i))
      have hhead : ∀ s, (s = indirect_pointer inoded i ∨ s ∈ l1) ↔
          (s = indirect_pointer inoded i ∨ ∃ j, j < 128 ∧ j < n ∧
            s = get_word (d.fs_device (indirect_pointer inoded i)) j) := by
        intro s
        rw [r4, hind']
        constructor
        · rintro (h1 | ⟨j, hj, h1⟩)
          · exact Or.inl h1
          · exact Or.inr ⟨j, by omega, by omega, h1⟩
        · rintro (h1 | ⟨j, hj, hj2, h1⟩)
          · exact Or.inl h1
          · exact Or.inr ⟨j, by omega, h1⟩
      by_cases h0 : n - m = 0
      · rw [if_pos h0] at h
        simp only [Option.some.injEq, Prod.mk.injEq] at h
        obtain ⟨hb, hd, -⟩ := h
        subst hb hd
        refine ⟨fun _ => by omega, by simp, indirect_pointer inoded i :: l1, ?_, fun s => ?_⟩
        · rw [r1]
          simp [release, free_map_release]
        · rw [List.mem_cons, hhead]
          constructor
          · rintro (h1 | ⟨j, hj, hj2, h1⟩)
            · exact ⟨i, le_refl _, by omega, by omega, Or.inl h1⟩
            · exact ⟨i, le_refl _, by omega, by omega,
                Or.inr ⟨j, hj, by omega, h1⟩⟩
          · rintro ⟨q, q1, q2, q3, hq⟩
            have hqi : q = i := by omega
            subst hqi
            rcases hq with h1 | ⟨j, hj, hj2, h1⟩
            · exact Or.inl h1
            · exact Or.inr ⟨j, hj, by omega, h1⟩
      · rw [if_neg h0] at h
        obtain ⟨e1, e2, l2, e3, e4⟩ := ih _ _ _ _ _ _ (by omega) h
        refine ⟨fun hb => by have := e1 hb; omega, fun hb => by have := e2 hb; omega,
          (indirect_pointer inoded i :: l1) ++ l2, ?_, fun s => ?_⟩
        · rw [e3, r1]
          simp [release, free_map_release]
        · rw [List.mem_append, List.mem_cons, hhead, e4, r2]
          constructor
          · rintro ((h1 | ⟨j, hj, hj2, h1⟩) | ⟨q, q1, q2, q3, hq⟩)
            · exact ⟨i, le_refl _, by omega, by omega, Or.inl h1⟩
            · exact ⟨i, le_refl _, by omega, by omega, Or.inr ⟨j, hj, by omega, h1⟩⟩
            · have a1 : i ≤ q := by omega
              have a2 : q < i + (k + 1) := by omega
              have a3 : 128 * (q - i) < n := by clear hq; omega
              rcases hq with h1 | ⟨j, hj, hj2, h1⟩
              · exact ⟨q, a1, a2, a3, Or.inl h1⟩
              · exact ⟨q, a1, a2, a3,
                  Or.inr ⟨j, hj, slot_index_up n m q i j hm2 h0 q1 hj2, h1⟩⟩
          · rintro ⟨q, q1, q2, q3, hq⟩
            by_cases hqi : q = i
            · subst hqi
              left
              rcases hq with h1 | ⟨j, hj, hj2, h1⟩
              · exact Or.inl h1
              · exact Or.inr ⟨j, hj, by omega, h1⟩
            · right
              have a1 : i + 1 ≤ q := by omega
              have a2 : q < i + 1 + k := by omega
              have a3 : 128 * (q - (i + 1)) < n - m := by clear hq; omega
              rcases hq with h1 | ⟨j, hj, hj2, h1⟩
              · exact ⟨q, a1, a2, a3, Or.inl h1⟩
              · exact ⟨q, a1, a2, a3,
                  Or.inr ⟨j, hj, slot_index_down n m q i j hm2 q1 hqi hj2, h1⟩⟩

theorem inode_deallocate_double_released (level1ptr : inode_indirect_pointer) (k : Nat) :
    ∀ (i : Nat) (d : Disk) (n : Nat) (d' : Disk), 0 < n →
    inode_deallocate_double level1ptr k i d n = some d' →
    n ≤ 128 * k ∧
    ∃ l, d'.free_map.released = d.free_map.released ++ l ∧
      ∀ s, s ∈ l ↔ ∃ q, i ≤ q ∧ q < i + k ∧ 128 * (q - i) < n ∧
        (s = get_word level1ptr q ∨ ∃ j, j < 128 ∧ 128 * (q - i) + j < n ∧
          s = get_word (d.fs_device (get_word level1ptr q)) j) := by
  induction k with
  | zero =>
    intro i d n d' hn h
    simp [inode_deallocate_double] at h
  | succ k ih =>
    intro i d n d' hn h
    unfold inode_deallocate_double at h
    simp only [] at h
    split at h
    · simp at h
    · rename_i level2ptr hr
      obtain ⟨-, hind⟩ := block_read_eq_some _ _ _ hr
      have hind' : level2ptr = d.fs_device (get_word level1ptr i) := hind
      simp only [BLOCK_SECTOR_SIZE, sizeof_block_sector_t] at h
      generalize hm : (if n < 512 / 4 then n else 512 / 4) = m at h
      have hm2 : m = min n 128 := by split at hm <;> omega
      obtain ⟨l1, r1, r2, -, r4⟩ := mem_release_slots level2ptr m
        (release d (get_word level1ptr i))
      have hhead : ∀ s, (s = get_word level1ptr i ∨ s ∈ l1) ↔
          (s = get_word level1ptr i ∨ ∃ j, j < 128 ∧ j < n ∧
            s = get_word (d.fs_device (get_word level1ptr i)) j) := by
        intro s
        rw [r4, hind']
        constructor
        · rintro (h1 | ⟨j, hj, h1⟩)
          · exact Or.inl h1
          · exact Or.inr ⟨j, by omega, by omega, h1⟩
        · rintro (h1 | ⟨j, hj, hj2, h1⟩)
          · exact Or.inl h1
          · exact Or.inr ⟨j, by omega, h1⟩
      by_cases h0 : n - m = 0
      · rw [if_pos h0] at h
        simp only [Option.some.injEq] at h
        subst h
        refine ⟨by omega, get_word level1ptr i :: l1, ?_, fun s => ?_⟩
        · rw [r1]
          simp [release, free_map_release]
        · rw [List.mem_cons, hhead]
          constructor
          · rintro (h1 | ⟨j, hj, hj2, h1⟩)
            · exact ⟨i, le_refl _, by omega, by omega, Or.inl h1⟩
            · exact ⟨i, le_refl _, by omega, by omega,
                Or.inr ⟨j, hj, by omega, h1⟩⟩
          · rintro ⟨q, q1, q2, q3, hq⟩
            have hqi : q = i := by clear hq; omega
            subst hqi
            rcases hq with h1 | ⟨j, hj, hj2, h1⟩
            · exact Or.inl h1
            · exact Or.inr ⟨j, hj, by omega, h1⟩
      · rw [if_neg h0] at h
        obtain ⟨e1, l2, e3, e4⟩ := ih _ _ _ _ (by omega) h
        refine ⟨by omega, (get_word level1ptr i :: l1) ++ l2, ?_, fun s => ?_⟩
        · rw [e3, r1]
          simp [release, free_map_release]
        · rw [List.mem_append, List.mem_cons, hhead, e4, r2]
          constructor
          · rintro ((h1 | ⟨j, hj, hj2, h1⟩) | ⟨q, q1, q2, q3, hq⟩)
            · exact ⟨i, le_refl _, by omega, by omega, Or.inl h1⟩
            · exact ⟨i, le_refl _, by omega, by omega, Or.inr ⟨j, hj, by omega, h1⟩⟩
            · have a1 : i ≤ q := by omega
              have a2 : q < i + (k + 1) := by omega
              have a3 : 128 * (q - i) < n := by clear hq; omega
              rcases hq with h1 | ⟨j, hj, hj2, h1⟩
              · exact ⟨q, a1, a2, a3, Or.inl h1⟩
              · exact ⟨q, a1, a2, a3,
                  Or.inr ⟨j, hj, slot_index_up n m q i j hm2 h0 q1 hj2, h1⟩⟩
          · rintro ⟨q, q1, q2, q3, hq⟩
            by_cases hqi : q = i
            · subst hqi
              left
              rcases hq with h1 | ⟨j, hj, hj2, h1⟩
              · exact Or.inl h1
              · exact Or.inr ⟨j, hj, by omega, h1⟩
            · right
              have a1 : i + 1 ≤ q := by omega
              have a2 : q < i + 1 + k := by omega
              have a3 : 128 * (q - (i + 1)) < n - m := by clear hq; omega
              rcases hq with h1 | ⟨j, hj, hj2, h1⟩
              · exact ⟨q, a1, a2, a3, Or.inl h1⟩
              · exact ⟨q, a1, a2, a3,
                  Or.inr ⟨j, hj, slot_index_down n m q i j hm2 q1 hqi hj2, h1⟩⟩

/-- Whenever `inode_deallocate` returns, it has passed to `free_map_release` the sector
numbers on the deallocation walk and no other. -/
theorem inode_deallocate_released (d d' : Disk) (inoded : inode_disk)
    (h : inode_deallocate d inoded = some d') :
    0 ≤ disk_length inoded ∧ bytes_to_sectors (disk_length inoded) ≤ 17016 ∧
    ∃ l, d'.free_map.released = d.free_map.released ++ l ∧
      ∀ s, s ∈ l ↔
        deallocate_visits d.fs_device inoded (bytes_to_sectors (disk_length inoded)) s := by
  unfold inode_deallocate at h
  split at h
  · simp at h
  · rename_i hlen
    simp only [NUM_OF_DIRECT_POINTER, NUM_OF_INDIRECT_POINTER, BLOCK_SECTOR_SIZE,
      sizeof_block_sector_t] at h
    generalize bytes_to_sectors (disk_length inoded) = N at h
    generalize hm : (if N < 120 then N else 120) = m at h
    have hm2 : m = min N 120 := by split at hm <;> omega
    obtain ⟨l1, r1, r2, -, r4⟩ := mem_release_slots inoded m d
    have hA : ∀ s, s ∈ l1 ↔ ∃ i, i < 120 ∧ i < N ∧ s = direct_pointer inoded i := by
      intro s
      rw [r4]
      constructor
      · rintro ⟨j, hj, h1⟩
        exact ⟨j, by omega, by omega, h1⟩
      · rintro ⟨j, hj, hj2, h1⟩
        exact ⟨j, by omega, h1⟩
    by_cases h0 : N - m = 0
    · rw [if_pos h0] at h
      simp only [Option.some.injEq] at h
      subst h
      refine ⟨by omega, by omega, l1, r1, fun s => ?_⟩
      unfold deallocate_visits
      rw [hA]
      constructor
      · exact fun hs => Or.inl hs
      · rintro (hs | ⟨q, -, hq, -⟩ | ⟨hq, -⟩)
        · exact hs
        · omega
        · omega
    · rw [if_neg h0] at h
      split at h
      · simp at h
      · rename_i d2 n2 h2
        simp only [Option.some.injEq] at h
        subst h
        obtain ⟨e1, -, l2, e3, e4⟩ :=
          inode_deallocate_indirect_released _ _ _ _ _ _ _ _ (by omega) h2
        have e1' := e1 rfl
        refine ⟨by omega, by omega, l1 ++ l2, by rw [e3, r1, List.append_assoc],
          fun s => ?_⟩
        unfold deallocate_visits
        rw [List.mem_append, hA, e4, r2]
        constructor
        · rintro (hs | ⟨q, -, q2, q3, hq⟩)
          · exact Or.inl hs
          · have a2 : q < 4 := by omega
            have a3 : 120 + 128 * q < N := by clear hq; omega
            rcases hq with h1 | ⟨j, hj, hj2, h1⟩
            · exact Or.inr (Or.inl ⟨q, a2, a3, Or.inl h1⟩)
            · exact Or.inr (Or.inl ⟨q, a2, a3, Or.inr ⟨j, hj, by omega, h1⟩⟩)
        · rintro (hs | ⟨q, q2, q3, hq⟩ | ⟨hq, -⟩)
          · exact Or.inl hs
          · have a2 : q < 0 + 4 := by omega
            have a3 : 128 * (q - 0) < N - m := by clear hq; omega
            rcases hq with h1 | ⟨j, hj, hj2, h1⟩
            · exact Or.inr ⟨q, Nat.zero_le _, a2, a3, Or.inl h1⟩
            · exact Or.inr ⟨q, Nat.zero_le _, a2, a3, Or.inr ⟨j, hj, by omega, h1⟩⟩
          · omega
      · rename_i d2 n2 h2
        obtain ⟨-, e2, l2, e3, e4⟩ :=
          inode_deallocate_indirect_released _ _ _ _ _ _ _ _ (by omega) h2
        obtain ⟨e2a, e2b⟩ := e2 rfl
        obtain ⟨g1, g2⟩ := inode_deallocate_indirect_device _ _ _ _ _ _ _ _ h2
        have hdev : d2.fs_device = d.fs_device := by rw [g1, r2]
        split at h
        · simp at h
        · rename_i level1ptr hr
          obtain ⟨-, hl1⟩ := block_read_eq_some _ _ _ hr
          have hl1' : level1ptr = d.fs_device (double_indirect_pointer inoded) := by
            rw [hl1]
            show d2.fs_device _ = _
            rw [hdev]
          obtain ⟨k1, l3, k3, k4⟩ :=
            inode_deallocate_double_released _ _ _ _ _ _ e2b h
          refine ⟨by omega, by omega,
            l1 ++ l2 ++ (double_indirect_pointer inoded :: l3), ?_, fun s => ?_⟩
          · rw [k3]
            simp only [release, free_map_release]
            rw [e3, r1]
            simp
          · unfold deallocate_visits
            rw [List.mem_append, List.mem_append, List.mem_cons, hA, e4, k4, r2, hl1']
            have hdev' : (release d2 (double_indirect_pointer inoded)).fs_device
                = d.fs_device := hdev
            rw [hdev']
            constructor
            · rintro ((hs | ⟨q, -, q2, q3, hq⟩) | (hs | ⟨q, -, q2, q3, hq⟩))
              · exact Or.inl hs
              · have a2 : q < 4 := by omega
                have a3 : 120 + 128 * q < N := by clear hq; omega
                rcases hq with h1 | ⟨j, hj, hj2, h1⟩
                · exact Or.inr (Or.inl ⟨q, a2, a3, Or.inl h1⟩)
                · exact Or.inr (Or.inl ⟨q, a2, a3, Or.inr ⟨j, hj, by omega, h1⟩⟩)
              · exact Or.inr (Or.inr ⟨by omega, Or.inl hs⟩)
              · have a1 : 632 < N := by omega
                have a2 : q < 128 := by omega
                have a3 : 632 + 128 * q < N := by clear hq; omega
                rcases hq with h1 | ⟨j, hj, hj2, h1⟩
                · exact Or.inr (Or.inr ⟨a1, Or.inr ⟨q, a2, a3, Or.inl h1⟩⟩)
                · exact Or.inr (Or.inr ⟨a1, Or.inr ⟨q, a2, a3,
                    Or.inr ⟨j, hj, by omega, h1⟩⟩⟩)
            · rintro (hs | ⟨q, q2, q3, hq⟩ | ⟨-, hs | ⟨q, q2, q3, hq⟩⟩)
              · exact Or.inl (Or.inl hs)
              · have a2 : q < 0 + 4 := by omega
                have a3 : 128 * (q - 0) < N - m := by clear hq; omega
                rcases hq with h1 | ⟨j, hj, hj2, h1⟩
                · exact Or.inl (Or.inr ⟨q, Nat.zero_le _, a2, a3, Or.inl h1⟩)
                · exact Or.inl (Or.inr ⟨q, Nat.zero_le _, a2, a3,
                    Or.inr ⟨j, hj, by omega, h1⟩⟩)
              · exact Or.inr (Or.inl hs)
              · have a2 : q < 0 + 512 / 4 := by omega
                have a3 : 128 * (q - 0) < n2 := by clear hq; omega
                rcases hq with h1 | ⟨j, hj, hj2, h1⟩
                · exact Or.inr (Or.inr ⟨q, Nat.zero_le _, a2, a3, Or.inl h1⟩)
                · exact Or.inr (Or.inr ⟨q, Nat.zero_le _, a2, a3,
                    Or.inr ⟨j, hj, by omega, h1⟩⟩)

/-! ## The lookup through slot 0 of the double-indirect sector -/

/-- In the first 2048 sectors of the double-indirect region the lookup goes through slot 0 of
the double-indirect sector. -/
theorem _byte_to_sector_double_slot (d : Disk) (inoded : inode_disk) (i : Int)
    (h0 : 632 ≤ i) (h1 : i < 2680) :
    _byte_to_sector d inoded i =
      (block_read d (double_indirect_pointer inoded)).bind (fun level1ptr =>
        (block_read d (get_word level1ptr 0)).map (fun level2ptr =>
          get_word level2ptr ((i - 632) % 512 / 4).toNat)) := by
  unfold _byte_to_sector
  simp only [NUM_OF_DIRECT_POINTER, NUM_OF_INDIRECT_POINTER, BLOCK_SECTOR_SIZE,
    sizeof_block_sector_t, Nat.cast_ofNat, mul_one]
  rw [if_neg (by omega)]
  simp only [_byte_to_sector_loop, BLOCK_SECTOR_SIZE, sizeof_block_sector_t]
  norm_num
  rw [if_neg (by omega), if_neg (by omega), if_neg (by omega), if_neg (by omega)]
  simp only []
  rw [if_pos (by omega)]
  have e1 : (Int.tdiv (Int.tdiv (i - 632) 512) 4).toNat = 0 := by
    have e0 : Int.tdiv (i - 632) 512 = (i - 632) / 512 :=
      Int.tdiv_eq_ediv (by omega) (by norm_num)
    rw [e0, Int.tdiv_eq_ediv (by omega) (by norm_num)]
    omega
  have e2 : Int.tdiv (Int.tmod (i - 632) 512) 4 = (i - 632) % 512 / 4 := by
    have e0 : Int.tmod (i - 632) 512 = (i - 632) % 512 :=
      Int.tmod_eq_emod (by omega) (by norm_num)
    rw [e0, Int.tdiv_eq_ediv (by omega) (by norm_num)]
  rw [e1, e2]
  cases block_read d (double_indirect_pointer inoded) with
  | none => rfl
  | some l1 =>
    cases h2 : block_read d (get_word l1 0) with
    | none => simp [h2]
    | some l2 => simp [h2]

/-! ## A write that fits in one sector -/

/-- One iteration of the write loop for a chunk that ends the write: the remaining bytes lie
inside the file and inside one sector, the lookup names a sector of the device and the bounce
buffer is at hand.  The iteration stores the bytes in that sector and nowhere else. -/
theorem inode_write_body_chunk (stack : Sector) (mem : Bool) (buffer : Buffer) (sector : Nat)
    (v : write_vars) (s : Nat) (hs : 0 < v.size) (h0 : 0 ≤ v.offset)
    (ho : v.offset < 2147483648) (hend : v.offset + v.size ≤ disk_length v.data)
    (hsec : v.offset % 512 + v.size ≤ 512) (hm : mem = true ∨ v.bounce = true)
    (hl : byte_to_sector v.disk v.data v.offset = some s) (hdev : s < v.disk.fs_device_size) :
    ∃ v', inode_write_body stack mem buffer sector v = some (Sum.inr v') ∧
      v'.size = 0 ∧ v'.bytes_written = v.bytes_written + v.size ∧ v'.data = v.data ∧
      v'.disk.free_map = v.disk.free_map ∧
      (∀ k : Nat, (k : Int) < v.size →
        v'.disk.fs_device s ((v.offset % 512).toNat + k)
          = buffer (v.bytes_written.toNat + k)) ∧
      ∀ t, t ≠ s → v'.disk.fs_device t = v.disk.fs_device t := by
  have hlen2 := disk_length_lt v.data
  have hmod : 0 ≤ v.offset % 512 ∧ v.offset % 512 < 512 := by omega
  have hc : chunk_size v.size v.offset (disk_length v.data) = v.size := by
    rw [chunk_size_eq v.size v.offset _ h0 (by omega) (by omega)]
    generalize hcd : v.size ⊓ ((disk_length v.data - v.offset) ⊓ (512 - v.offset % 512)) = c
    obtain ⟨-, c2, c3, c4⟩ := min3_cases _ _ _ _ hcd
    omega
  unfold inode_write_body
  rw [if_pos hs, hl]
  simp only []
  rw [hc, if_neg (by omega), tmod_sector _ h0]
  simp only [BLOCK_SECTOR_SIZE, Nat.cast_ofNat]
  by_cases hfull : v.offset % 512 = 0 ∧ v.size = 512
  · rw [if_pos hfull]
    have hw : block_write v.disk s (fun k => buffer (v.bytes_written.toNat + k))
        = some { v.disk with fs_device := fun t =>
            if t = s then (fun k => if k < 512 then buffer (v.bytes_written.toNat + k) else 0)
            else v.disk.fs_device t } := by
      unfold block_write
      rw [if_pos hdev]
    rw [hw]
    refine ⟨_, rfl, by dsimp only; omega, rfl, rfl, rfl, fun k hk => ?_, fun t ht => ?_⟩
    · dsimp only
      rw [if_pos rfl, hfull.1]
      have : (0 : Int).toNat + k < 512 := by
        simp only [Int.toNat_zero, Nat.zero_add]
        omega
      rw [if_pos this]
      simp
    · dsimp only
      rw [if_neg ht]
  · rw [if_neg hfull]
    have hb : ¬ (v.bounce = false ∧ mem = false) := by
      rcases hm with h | h <;> simp [h]
    rw [if_neg hb, if_neg (by omega)]
    have hrd : (if v.offset % 512 > 0 ∨ v.size < 512 - v.offset % 512
        then block_read v.disk s else some zeros) = some (v.disk.fs_device s) := by
      rw [if_pos (by omega), block_read_some _ _ hdev]
    rw [hrd]
    simp only []
    have hw : ∀ b : Sector, block_write v.disk s b
        = some { v.disk with fs_device := fun t =>
            if t = s then (fun k => if k < 512 then b k else 0) else v.disk.fs_device t } := by
      intro b
      unfold block_write
      rw [if_pos hdev]
    rw [hw]
    refine ⟨_, rfl, by dsimp only; omega, rfl, rfl, rfl, fun k hk => ?_, fun t ht => ?_⟩
    · dsimp only
      rw [if_pos rfl]
      have h1 : (v.offset % 512).toNat + k < 512 := by omega
      rw [if_pos h1]
      unfold memcpy
      rw [if_pos ⟨by omega, by omega⟩]
      congr 1
      omega
    · dsimp only
      rw [if_neg ht]

/-- A write that fits in one sector and stays inside the file, by an opener that may write:
`inode_write_at` returns the full count, the bytes of the buffer are in the sector the
lookup names, and the inode is as before. -/
theorem inode_write_at_chunk (stack : Sector) (w : World) (p : Nat) (i : inode)
    (buffer : Buffer) (size offset : Int) (s : Nat)
    (hp : inode_at w.open_inodes p = some i) (hd : i.deny_write_cnt = 0)
    (hs : 0 < size) (h0 : 0 ≤ offset) (ho : offset < 2147483648)
    (hend : offset + size ≤ inode_length i) (hsec : offset % 512 + size ≤ 512)
    (hl : byte_to_sector w.disk i.data offset = some s) (hdev : s < w.disk.fs_device_size) :
    ∃ w', inode_write_at stack true w p buffer size offset = some (w', size) ∧
      inode_at w'.open_inodes p = some i ∧ w'.disk.free_map = w.disk.free_map ∧
      (∀ k : Nat, (k : Int) < size →
        w'.disk.fs_device s ((offset % 512).toNat + k) = buffer k) ∧
      ∀ t, t ≠ s → w'.disk.fs_device t = w.disk.fs_device t := by
  obtain ⟨v', hb, e1, e2, e3, e4, e5, e6⟩ := inode_write_body_chunk stack true buffer i.sector
    { disk := w.disk, data := i.data, size := size, offset := offset, bytes_written := 0,
      bounce := false } s hs h0 ho hend hsec (Or.inl rfl) hl hdev
  have hb2 : inode_write_body stack true buffer i.sector v'
      = some (Sum.inl (v'.disk, v'.data, v'.bytes_written)) := by
    unfold inode_write_body
    rw [if_neg (by omega)]
  have hloop : while_loop (inode_write_body stack true buffer i.sector) (size.toNat + 2)
      { disk := w.disk, data := i.data, size := size, offset := offset, bytes_written := 0,
        bounce := false } = some (v'.disk, v'.data, v'.bytes_written) := by
    show while_loop _ ((size.toNat + 1) + 1) _ = _
    unfold while_loop
    rw [hb]
    simp only []
    unfold while_loop
    rw [hb2]
  unfold inode_write_at
  rw [hp]
  simp only []
  rw [if_neg (by simp [hd]), hloop]
  simp only []
  have e2' : v'.bytes_written = size := by
    rw [e2]
    simp
  refine ⟨{ disk := v'.disk,
            open_inodes := inode_store w.open_inodes p { i with data := v'.data } },
    by rw [e2'], ?_, e4, fun k hk => ?_, e6⟩
  · dsimp only
    rw [inode_at_store_same _ _ _ _ hp, e3]
  · have := e5 k hk
    simpa using this

/-! ## Reads and growth where the allocator and the lookup return -/

/-- Where every lookup in the range read finds a sector of the device: for an open inode
with a length that is not negative, a size and an offset that are not negative and scratch
memory available, `inode_read_at` returns `min (size, max (0, length - offset))` and leaves
the world (the inode, the device and the free map) as it was. -/
theorem read_count (w : World) (p : Nat) (i : inode) (buffer : Buffer) (size offset : Int)
    (hp : inode_at w.open_inodes p = some i)
    (hsize : 0 ≤ size) (hoff : 0 ≤ offset) (hoff2 : offset < 2147483648)
    (hlen : 0 ≤ inode_length i)
    (hmap : ∀ pos, offset ≤ pos → pos < offset + size → pos < inode_length i →
      ∃ s, byte_to_sector w.disk i.data pos = some s ∧ s < w.disk.fs_device_size) :
    ∃ buffer', inode_read_at true w p buffer size offset =
      some (w, buffer', min size (max 0 (inode_length i - offset))) := by
  have hlen2 := disk_length_lt i.data
  have hlen' : 0 ≤ disk_length i.data := hlen
  have key := while_loop_total (inode_read_body true w.disk i.data)
    (fun v => 0 ≤ v.size ∧ offset ≤ v.offset ∧ v.offset + v.size = offset + size ∧
      v.offset ≤ max offset (disk_length i.data) ∧
      v.bytes_read + min v.size (max 0 (disk_length i.data - v.offset)) =
        min size (max 0 (disk_length i.data - offset)))
    (fun r => r.2 = min size (max 0 (disk_length i.data - offset)))
    (fun v => v.size.toNat)
    (by
      intro v ⟨h1, h2, h3, h4, h5⟩
      have hm : v.offset < disk_length i.data → 0 < v.size →
          ∃ s, byte_to_sector w.disk i.data v.offset = some s ∧ s < w.disk.fs_device_size := by
        intro ha hb
        exact hmap v.offset h2 (by omega) ha
      rcases inode_read_body_spec w.disk i.data v h1 (by omega) (by omega) hlen' hm with
        ⟨hb, hz⟩ | ⟨c, b, bn, hc0, hc1, hc2, hb⟩ <;> clear hm
      · left
        exact ⟨_, hb, by simp only; omega⟩
      · right
        refine ⟨_, hb, ⟨by simp only; omega, by simp only; omega, by simp only; omega,
          by simp only; omega, by simp only; omega⟩, by simp only; omega⟩)
    (size.toNat + 1)
    { buffer := buffer, size := size, offset := offset, bytes_read := 0, bounce := false }
    ⟨hsize, le_refl _, rfl, by simp only; omega, by simp only; omega⟩ (by simp only; omega)
  obtain ⟨⟨b, n⟩, hr, hq⟩ := key
  refine ⟨b, ?_⟩
  unfold inode_read_at
  rw [hp]
  simp only [hr]
  simp only at hq
  rw [hq]
  rfl

/-- The count at a concrete input: 4 bytes asked at offset 8 of the 10-byte file. -/
theorem read_count_witness :
    inode_length small_inode = 10 ∧
    ∃ buffer', inode_read_at true small_world 0 zeros 4 8 =
      some (small_world, buffer', min 4 (max 0 (inode_length small_inode - 8))) :=
  ⟨by decide!,
    read_count small_world 0 small_inode zeros 4 8 rfl (by decide) (by decide) (by decide)
    (by decide!) (by
      intro pos h1 h2 h3
      have h4 : inode_length small_inode = 10 := by decide!
      rw [h4] at h3
      have h5 : pos = 8 ∨ pos = 9 := by omega
      rcases h5 with rfl | rfl
      · exact ⟨9, by decide!, by decide⟩
      · exact ⟨9, by decide!, by decide⟩)⟩

/-- Where `inode_allocate` returns: for an open inode with `deny_write_cnt = 0`, a length
that is not negative, and a write of `size > 0` bytes at `offset ≥ 0` that ends inside the
range of `off_t`.
First part, the write starts at or past end of file and `inode_allocate` for the new length
returns false: then `inode_write_at` returns 0, the inode keeps its length, the free map is
empty, and the home sector on the device is as before the call when it is apart from the
allocator's work (not free, not one of the table sectors).
Second part, any such write with scratch memory available that returns less than `size`:
the count is the number of bytes between `offset` and the old end of file (0 when `offset`
is at or past it), the free map is empty and the inode keeps its length. -/
theorem failed_growth (stack : Sector) (mem : Bool) (w : World) (p : Nat) (i : inode)
    (buffer : Buffer) (size offset : Int) (hp : inode_at w.open_inodes p = some i)
    (hd : i.deny_write_cnt = 0) (hs : 0 < size) (h0 : 0 ≤ offset)
    (hsum : offset + size < 2147483648) (hlen : 0 ≤ inode_length i) :
    (∀ data' d', inode_length i ≤ offset →
      inode_allocate stack w.disk i.data (offset + size) = some (false, data', d') →
      inode_write_at stack mem w p buffer size offset =
        some ({ disk := d',
                open_inodes := inode_store w.open_inodes p { i with data := data' } }, 0) ∧
      disk_length data' = inode_length i ∧ d'.free_map.free = [] ∧
      (w.disk.fs_device_size ≤ 4294967296 → apart w.disk i.data i.sector →
        d'.fs_device i.sector = w.disk.fs_device i.sector)) ∧
    (∀ w' n, mem = true → inode_write_at stack mem w p buffer size offset = some (w', n) →
      n < size →
      n = max 0 (inode_length i - offset) ∧ w'.disk.free_map.free = [] ∧
      ∃ i', inode_at w'.open_inodes p = some i' ∧ inode_length i' = inode_length i) := by
  constructor
  · intro data' d' hle hfail
    obtain ⟨-, a2, a3, -, -⟩ := inode_allocate_basic _ _ _ _ _ _ _ hfail
    refine ⟨?_, disk_length_congr _ _ a2, a3 rfl,
      fun hsz hap => inode_allocate_apart _ _ _ _ _ _ _ hsz hfail _ hap⟩
    unfold inode_write_at
    rw [hp]
    have hd' : ¬ (i.deny_write_cnt ≠ 0) := by simp [hd]
    simp only []
    rw [if_neg hd']
    have hb := inode_write_body_fail stack mem buffer i.sector
      { disk := w.disk, data := i.data, size := size, offset := offset, bytes_written := 0,
        bounce := false } data' d' hs h0 hsum hlen hle hfail
    have hl : while_loop (inode_write_body stack mem buffer i.sector) (size.toNat + 2)
        { disk := w.disk, data := i.data, size := size, offset := offset, bytes_written := 0,
          bounce := false } = some (d', data', 0) := by
      show while_loop _ ((size.toNat + 1) + 1) _ = _
      unfold while_loop
      rw [hb]
    rw [hl]
  · intro w' n hm h hn
    obtain ⟨data', h1, -, -, -, -, -, q6⟩ := inode_write_at_post stack mem w w' p i buffer
      size offset n hp hd h0 (by omega) (by omega) (by omega) hlen h
    obtain ⟨e1, e2, e3⟩ := q6 hm hn
    exact ⟨e2, e3, _, h1, e1⟩

/-- A failed growth at a concrete input: the empty file of `scarce_world`, two free sectors
left, and a write of 3 * 512 bytes at offset 0. -/
theorem failed_growth_witness :
    ∃ data' d', inode_allocate stack_image scarce_world.disk empty_record (0 + 1536)
        = some (false, data', d') ∧
      inode_write_at stack_image true scarce_world 0 two_sectors 1536 0 =
        some ({ disk := d',
                open_inodes := inode_store scarce_world.open_inodes 0
                  { sector := 17, open_cnt := 1, removed := false, deny_write_cnt := 0,
                    data := data' } }, 0) ∧
      disk_length data' = disk_length empty_record ∧
      d'.fs_device 17 = scarce_world.disk.fs_device 17 := by
  obtain ⟨b, r, hr, hb⟩ := exists_of_check
    (inode_allocate stack_image scarce_world.disk empty_record (0 + 1536))
    (fun b _ => b = false) (by decide!)
  subst hb
  obtain ⟨data', d'⟩ := r
  have hap : apart scarce_world.disk empty_record 17 := by
    refine ⟨by decide, fun i hi => Or.inl ?_, Or.inl (by decide!)⟩
    interval_cases i <;> decide!
  obtain ⟨h1, h2, -, h4⟩ := (failed_growth stack_image true scarce_world 0
    { sector := 17, open_cnt := 1, removed := false, deny_write_cnt := 0,
      data := empty_record } two_sectors 1536 0 rfl rfl (by decide) (by decide) (by decide)
    (by decide!)).1 data' d' (by decide!) hr
  exact ⟨data', d', hr, h1, h2, h4 (by decide) hap⟩

/-- Above the ceiling: for a target length above 17016 * 512 bytes `inode_allocate` never
returns true, and it returns false only with the free map empty.  So `inode_create` with such
a length never returns true, and returns false with memory available only with the free map
empty; and a write that reaches past the ceiling on a file within it never returns the full
count, and returns a short count with memory available only with the free map empty. -/
theorem growth_ceiling (stack : Sector) (length : Int) (hlen : 17016 * 512 < length)
    (hlen2 : length < 2147483648) :
    (∀ d inoded b inoded' d', inode_allocate stack d inoded length = some (b, inoded', d') →
      b = false ∧ d'.free_map.free = []) ∧
    (∀ mem w sector is_dir b w',
      inode_create stack mem w sector length is_dir = some (b, w') →
      b = false ∧ (mem = true → w'.disk.free_map.free = [])) ∧
    (∀ mem w p i buffer size offset w' n, inode_at w.open_inodes p = some i →
      i.deny_write_cnt = 0 → 0 ≤ inode_length i → inode_length i ≤ 17016 * 512 →
      0 ≤ offset → 0 < size → offset + size = length →
      inode_write_at stack mem w p buffer size offset = some (w', n) →
      n < size ∧ (mem = true → w'.disk.free_map.free = [])) := by
  refine ⟨fun d inoded b inoded' d' h =>
    inode_allocate_above_ceiling stack d d' inoded inoded' length b hlen hlen2 h, ?_, ?_⟩
  · intro mem w sector is_dir b w' h
    cases mem with
    | true =>
      obtain ⟨inoded', d', ha, hf⟩ := inode_create_alloc stack w w' sector length is_dir b
        (by omega) hlen2 h
      obtain ⟨hb, he⟩ := inode_allocate_above_ceiling _ _ _ _ _ _ _ hlen hlen2 ha
      exact ⟨hb, fun _ => by rw [hf]; exact he⟩
    | false =>
      unfold inode_create at h
      rw [if_neg (by omega)] at h
      simp only [Bool.false_eq_true, if_false, Option.some.injEq, Prod.mk.injEq] at h
      exact ⟨h.1.symm, fun hh => absurd hh (by decide)⟩
  · intro mem w p i buffer size offset w' n hp hd hl0 hl1 ho hs hsum h
    obtain ⟨data', -, q1, q2, q3, q4, q5, q6⟩ := inode_write_at_post stack mem w w' p i buffer
      size offset n hp hd ho (by omega) (by omega) (by omega) hl0 h
    dsimp only at q1 q2 q3 q4 q5 q6
    have hb : (17016 : Int) < bytes_to_sectors (offset + size) := by
      rw [bytes_to_sectors_eq _ (by omega) (by omega)]
      omega
    have hne : n ≠ size := by
      intro he
      rcases q5 he with h' | h'
      · omega
      · rcases q4 with h'' | h''
        · omega
        · omega
    have hlt : n < size := by omega
    exact ⟨hlt, fun hm => (q6 hm hlt).2.2⟩

/-- The ceiling at a concrete input: the target length 17016 * 512 + 1. -/
theorem growth_ceiling_witness :
    (17016 * 512 < (8712193 : Int)) ∧
    ∀ d inoded b inoded' d',
      inode_allocate stack_image d inoded 8712193 = some (b, inoded', d') →
      b = false ∧ d'.free_map.free = [] :=
  ⟨by decide, (growth_ceiling stack_image 8712193 (by decide) (by decide)).1⟩

/-! ## C1: round trip through close and reopen -/

/-- C1 (refuted for a length inside the stated bound): for a file of 634 sectors
(324608 bytes, below 17016 * 512) the sequence create, open, write `B` at offset 0, close,
open, read at offset 0 never hands back `B` when `B` differs at the offsets 323584 and
324096, the first bytes of the logical sectors 632 and 633: `_byte_to_sector` sends both
sectors to the same device sector. This holds on every device, for every free map, stack
image and home sector. -/
theorem round_trip_fails (stack : Sector) (mem : Bool) (w : World) (sector : Nat)
    (is_dir : Bool) (B buffer : Buffer) (hB : B 323584 ≠ B 324096) :
    ¬ ∃ out, round_trip stack mem w sector 324608 is_dir B buffer = some (324608, out) ∧
      ∀ k : Nat, k < 324608 → out k = B k := by
  rintro ⟨out, h, hout⟩
  apply hB
  rw [← hout 323584 (by decide), ← hout 324096 (by decide)]
  unfold round_trip at h
  split at h
  · split at h
    · split at h
      · split at h
        · split at h
          · split at h
            · split at h
              · rename_i w' q w'' out' m hr
                simp only [Option.some.injEq, Prod.mk.injEq] at h
                obtain ⟨hm, ho⟩ := h
                subst hm ho
                exact read_collision _ _ _ _ _ _ _ _ _ 323584 324096 hr (by decide) (by decide)
                  (by decide) (by decide) (by decide) (by decide) (by decide)
              · simp at h
            · simp at h
          · simp at h
        · simp at h
      · simp at h
    · simp at h
  · simp at h

/-- C1, at a concrete input: the fresh device, home sector 17, and the buffer that stamps
every byte with its sector number. -/
theorem round_trip_fails_witness :
    sector_stamp 323584 ≠ sector_stamp 324096 ∧
    ¬ ∃ out, round_trip stack_image true fresh_world 17 324608 false sector_stamp zeros
        = some (324608, out) ∧
      ∀ k : Nat, k < 324608 → out k = sector_stamp k :=
  ⟨by decide, round_trip_fails stack_image true fresh_world 17 false sector_stamp zeros
    (by decide)⟩

/-! ## C2: read after write -/

/-- C2 (refuted): a write of 1024 bytes at offset 323584 (the logical sectors 632 and 633,
inside the stated bound) that returns 1024 is never followed by a read of the same range that
returns the written bytes, as soon as byte 0 and byte 512 of the buffer differ: both sectors
are looked up to the same device sector, so the second half of the write lands on the
first. -/
theorem read_after_write_fails (stack : Sector) (mem : Bool) (w w1 : World) (p : Nat)
    (buffer rbuf : Buffer) (hB : buffer 0 ≠ buffer 512)
    (_hw : inode_write_at stack mem w p buffer 1024 323584 = some (w1, 1024)) :
    ¬ ∃ w2 out, inode_read_at mem w1 p rbuf 1024 323584 = some (w2, out, 1024) ∧
      ∀ k : Nat, k < 1024 → out k = buffer k := by
  rintro ⟨w2, out, hr, hout⟩
  apply hB
  rw [← hout 0 (by decide), ← hout 512 (by decide)]
  exact read_collision _ _ _ _ _ _ _ _ _ 0 512 hr (by decide) (by decide)
    (by decide) (by decide) (by decide) (by decide) (by decide)

set_option maxRecDepth 1000000 in
/-- C2, at a concrete input: on the 634-sector file of `image_world`, whose block map is laid
out as specified, the write of `two_sectors` at offset 323584 returns 1024 and the read that
follows cannot return the written bytes. -/
theorem read_after_write_fails_witness :
    two_sectors 0 ≠ two_sectors 512 ∧
    ∃ w1, inode_write_at stack_image true image_world 0 two_sectors 1024 323584
        = some (w1, 1024) ∧
      ¬ ∃ w2 out, inode_read_at true w1 0 zeros 1024 323584 = some (w2, out, 1024) ∧
        ∀ k : Nat, k < 1024 → out k = two_sectors k := by
  obtain ⟨w1, n, h1, h2⟩ := exists_of_check
    (inode_write_at stack_image true image_world 0 two_sectors 1024 323584)
    (fun _ n => n = 1024) (by decide!)
  subst h2
  exact ⟨by decide, w1, h1,
    read_after_write_fails stack_image true image_world w1 0 two_sectors zeros (by decide) h1⟩

/-! ## C3: write count and published length -/

set_option maxRecDepth 1000000 in
/-- C3 (refuted at an input): a file of 120 sectors is created on the fresh device and
opened; the free map still holds 580 sectors and `inode_allocate` for 324005 bytes succeeds
with 61 sectors to spare. A write of 5 bytes at offset 324000 (324005 is below 17016 * 512)
grows the file into the double-indirect region and then does not return 5: the sector
`inode_allocate` wrote for the double-indirect table holds the stack image, and the lookup
that follows reads a device sector that does not exist. -/
theorem write_growth_panics :
    ∃ w p, create_open stack_image true fresh_world 17 61440 false = some (w, p) ∧
      (inode_at w.open_inodes p).bind (fun i =>
        (inode_allocate stack_image w.disk i.data 324005).map
          (fun r => (r.1, r.2.2.free_map.free.length))) = some (true, 61) ∧
      inode_write_at stack_image true w p two_sectors 5 324000 = none :=
  exists_of_check _ _ (by decide!)

/-! ## C4: read count -/

set_option maxRecDepth 1000000 in
/-- C4 (refuted at an input): a file of 633 sectors (324096 bytes) is created on the fresh
device and opened.  A read of 1 byte at offset 323584, which lies inside the file, does not
return 1: the lookup of logical sector 632 reads the double-indirect sector, which holds the
stack image `inode_allocate` stored there, and then a device sector that does not exist. -/
theorem read_in_file_panics :
    ∃ w p, create_open stack_image true fresh_world 17 324096 false = some (w, p) ∧
      (inode_at w.open_inodes p).map inode_length = some 324096 ∧
      inode_read_at true w p zeros 1 323584 = none :=
  exists_of_check _ _ (by decide!)

/-! ## C5: sparse write -/

set_option maxRecDepth 1000000 in
/-- C5 (refuted at an input): an empty file is created on the fresh device and opened; a
one-byte write at offset K = 323584 (below 17016 * 512; `inode_allocate` for 323585 bytes
succeeds and leaves 61 of the 700 free sectors) does not return 1: the lookup after the
growth reads the double-indirect sector, which holds the stack image, and then a device
sector that does not exist. -/
theorem sparse_write_panics :
    ∃ w p, create_open stack_image true fresh_world 17 0 false = some (w, p) ∧
      (inode_at w.open_inodes p).bind (fun i =>
        (inode_allocate stack_image w.disk i.data 323585).map
          (fun r => (r.1, r.2.2.free_map.free.length))) = some (true, 61) ∧
      inode_write_at stack_image true w p two_sectors 1 323584 = none :=
  exists_of_check _ _ (by decide!)

/-! ## C6: deny-write interlock -/

/-- C6: while `deny_write_cnt` is positive `inode_write_at` returns 0 and leaves the whole
world (device, free map, every field of every inode) as it was.  When the count is 1, the
matching `inode_allow_write` brings it to 0 and changes nothing else, and the same write then
runs the write loop on the device and the cached record: a write of at least one byte that
stays inside the file and inside one sector, whose sector the lookup finds on the device,
now returns the full count and has put the bytes of the buffer into that sector and changed
no other sector. -/
theorem deny_write_interlock (stack : Sector) (mem : Bool) (w : World) (p : Nat) (i : inode)
    (buffer : Buffer) (size offset : Int)
    (hp : inode_at w.open_inodes p = some i) (hd : 0 < i.deny_write_cnt) :
    inode_write_at stack mem w p buffer size offset = some (w, 0) ∧
    (i.deny_write_cnt = 1 → 1 ≤ i.open_cnt →
      ∃ w', inode_allow_write w p = some w' ∧ w'.disk = w.disk ∧
        inode_at w'.open_inodes p = some { i with deny_write_cnt := 0 } ∧
        (∀ q, q ≠ p → inode_at w'.open_inodes q = inode_at w.open_inodes q) ∧
        inode_write_at stack mem w' p buffer size offset =
          (while_loop (inode_write_body stack mem buffer i.sector) (size.toNat + 2)
              { disk := w.disk, data := i.data, size := size, offset := offset,
                bytes_written := 0, bounce := false }).map
            (fun r => ({ disk := r.1, open_inodes := (inode_store w'.open_inodes p
                ({ i with deny_write_cnt := 0, data := r.2.1 })) }, r.2.2)) ∧
        ∀ s, 0 < size → 0 ≤ offset → offset < 2147483648 →
          offset + size ≤ inode_length i → offset % 512 + size ≤ 512 →
          byte_to_sector w.disk i.data offset = some s → s < w.disk.fs_device_size →
          ∃ w'', inode_write_at stack true w' p buffer size offset = some (w'', size) ∧
            inode_at w''.open_inodes p = some { i with deny_write_cnt := 0 } ∧
            (∀ k : Nat, (k : Int) < size →
              w''.disk.fs_device s ((offset % 512).toNat + k) = buffer k) ∧
            ∀ t, t ≠ s → w''.disk.fs_device t = w.disk.fs_device t) := by
  constructor
  · have hne : i.deny_write_cnt ≠ 0 := by omega
    simp [inode_write_at, hp, hne]
  · intro h1 hopen
    have hs := inode_at_store_same w.open_inodes p i { i with deny_write_cnt := 0 } hp
    refine ⟨{ w with open_inodes := inode_store w.open_inodes p { i with deny_write_cnt := 0 } },
      ?_, rfl, hs, ?_, ?_, ?_⟩
    · simp [inode_allow_write, hp, h1, hopen, to_int_of_range 0 (by norm_num) (by norm_num)]
    · intro q hq
      exact inode_at_store_other _ _ _ _ hq
    · simp only [inode_write_at, hs]
      cases hl : while_loop (inode_write_body stack mem buffer i.sector) (size.toNat + 2)
          { disk := w.disk, data := i.data, size := size, offset := offset,
            bytes_written := 0, bounce := false } with
      | none => simp
      | some r => obtain ⟨d, j, n⟩ := r; simp
    · intro s hs0 h0 ho hend hsec hl hdev
      obtain ⟨w'', e1, e2, -, e4, e5⟩ := inode_write_at_chunk stack
        { w with open_inodes := inode_store w.open_inodes p { i with deny_write_cnt := 0 } }
        p { i with deny_write_cnt := 0 } buffer size offset s hs rfl hs0 h0 ho hend hsec hl
        hdev
      exact ⟨w'', e1, e2, e4, e5⟩

set_option maxRecDepth 1000000 in
/-- C6, at a concrete input: the 10-byte file with two openers, one of which denies writes.
A write of 4 bytes at offset 2 returns 0; after `inode_allow_write` the same write returns 4
and the bytes 2 to 5 of the data sector 9 are those of the buffer. -/
theorem deny_write_interlock_witness :
    inode_at small_world.open_inodes 0 = some small_inode ∧ 0 < small_inode.deny_write_cnt ∧
    inode_write_at stack_image true small_world 0 two_sectors 4 2 = some (small_world, 0) ∧
    ∃ w', inode_allow_write small_world 0 = some w' ∧
      ∃ w'', inode_write_at stack_image true w' 0 two_sectors 4 2 = some (w'', 4) ∧
        ∀ k : Nat, (k : Int) < 4 → w''.disk.fs_device 9 ((2 % 512 : Int).toNat + k)
          = two_sectors k := by
  have h := deny_write_interlock stack_image true small_world 0 small_inode two_sectors 4 2
    rfl (by decide)
  obtain ⟨w', a1, -, -, -, -, a6⟩ := h.2 (by decide) (by decide)
  obtain ⟨w'', b1, -, b3, -⟩ := a6 9 (by decide) (by decide) (by decide) (by decide!)
    (by decide) (by decide!) (by decide)
  exact ⟨rfl, by decide, h.1, w', a1, w'', b1, b3⟩

/-! ## C7: create then open -/

set_option maxRecDepth 1000000 in
/-- C7 (refuted at an input): `inode_create` of a file of 633 sectors (324096 bytes) on the
fresh device returns true and the home sector carries the length 324096, but slot 0 of the
double-indirect sector holds the first word of the stack image instead of the number of an
indirect sector, and the lookup of the logical sector 632, one of the first 633, panics:
that slot of the block map is not allocated. -/
theorem create_double_indirect_unreachable :
    ∃ w, inode_create stack_image true fresh_world 17 324096 false = some (true, w) ∧
      disk_length (w.disk.fs_device 17) = 324096 ∧
      get_word (w.disk.fs_device (double_indirect_pointer (w.disk.fs_device 17))) 0
        = 3222310912 ∧
      _byte_to_sector w.disk (w.disk.fs_device 17) 632 = none :=
  exists_of_check_true _ _ (by decide!)

/-! ## C8: sharing in the table of open inodes -/

/-- C8: in every state reached from `inode_init` by fewer than 2^31 - 1 calls that do not
panic (the calls of the claim and the other inode calls as well) the table holds at most one
in-memory inode per home sector and each has `open_cnt` at least 1; `inode_open` of the home
sector of an open inode returns that inode with `open_cnt` one higher and every other field,
every other inode and the device unchanged. -/
theorem open_table_sharing (w0 : World) (ops : List Op) (w : World)
    (hrun : run (inode_init w0) ops = some w) (hlen : ops.length < 2147483647) :
    (open_sectors w.open_inodes).Nodup ∧ (∀ e ∈ w.open_inodes, 1 ≤ e.2.open_cnt) ∧
    ∀ (mem : Bool) (p : Nat) (i : inode), inode_at w.open_inodes p = some i →
      ∃ w', inode_open mem w i.sector = some (w', some p) ∧ w'.disk = w.disk ∧
        inode_at w'.open_inodes p = some { i with open_cnt := i.open_cnt + 1 } ∧
        ∀ q, q ≠ p → inode_at w'.open_inodes q = inode_at w.open_inodes q := by
  obtain ⟨hok, hcnt⟩ := run_table_ok ops 0 (inode_init w0) w (le_refl _) (inode_init_table w0).1
    (inode_init_table w0).2 (by omega) hrun
  refine ⟨hok.2.1, hok.2.2, ?_⟩
  intro mem p i hi
  have hm := inode_at_mem _ _ _ hi
  have c0 : 1 ≤ i.open_cnt := hok.2.2 _ hm
  have c1 : i.open_cnt ≤ 0 + (ops.length : Int) := (hcnt _ hm).1
  have e := to_int_of_range (i.open_cnt + 1) (by omega) (by omega)
  refine ⟨{ w with open_inodes :=
    (inode_store w.open_inodes p ({ i with open_cnt := i.open_cnt + 1 })) }, ?_, rfl, ?_, ?_⟩
  · unfold inode_open
    rw [open_existing_of_at _ _ _ hok.2.1 hi, e]
  · exact inode_at_store_same _ _ _ _ hi
  · intro q hq
    exact inode_at_store_other _ _ _ _ hq

/-- C8, at a concrete input: the state after `inode_init` and one `inode_open (5)`, and a
second `inode_open (5)` in that state, which returns the inode at address 0 again, now with
`open_cnt = 2`. -/
theorem open_table_sharing_witness :
    run (inode_init small_world) [Op.inode_open true 5] = some opened_world ∧
    (open_sectors opened_world.open_inodes).Nodup ∧
    (∀ e ∈ opened_world.open_inodes, 1 ≤ e.2.open_cnt) ∧
    ∃ w', inode_open true opened_world 5 = some (w', some 0) ∧ w'.disk = opened_world.disk ∧
      inode_at w'.open_inodes 0 =
        some { sector := 5, open_cnt := 1 + 1, removed := false, deny_write_cnt := 0,
               data := small_record } :=
  ⟨rfl,
    (open_table_sharing small_world [Op.inode_open true 5] opened_world rfl (by decide)).1,
    (open_table_sharing small_world [Op.inode_open true 5] opened_world rfl (by decide)).2.1,
    ((open_table_sharing small_world [Op.inode_open true 5] opened_world rfl
      (by decide)).2.2 true 0 _ rfl).imp (fun _ h => ⟨h.1, h.2.1, h.2.2.1⟩)⟩

/-! ## C9: release on final close -/

set_option maxRecDepth 1000000 in
/-- C9 (refuted at an input): a file of 633 sectors is created on the fresh device and opened
once. `inode_remove` succeeds; the `inode_close` that follows, which brings `open_cnt` to 0,
does not complete the release: `inode_deallocate` reads the double-indirect sector, finds the
stack image in it and reads a device sector that does not exist. -/
theorem final_close_panics :
    ∃ w p, create_open stack_image true fresh_world 17 324096 false = some (w, p) ∧
      (inode_remove w p).isSome = true ∧
      (inode_remove w p).bind (fun w1 => inode_close w1 p) = none :=
  exists_of_check _ _ (by decide!)

/-! ## C10: deferred removal -/

/-- C10: for an inode with `open_cnt` at least 2 (a C `int`), `inode_remove` followed by one
`inode_close` leaves the device and the free map (the list of free sectors and the log of
released sectors) as they were, keeps the inode in the table with `open_cnt` one lower and
`removed` set, and leaves every other inode alone; a read or a write at an offset that is
not negative through the remaining opener gives the same result as before the remove. No call
resets `removed`: an inode that has it set and is still in the table after a call has it
set. -/
theorem deferred_removal (w : World) (p : Nat) (i : inode)
    (hp : inode_at w.open_inodes p = some i) (hc : 2 ≤ i.open_cnt)
    (hc2 : i.open_cnt ≤ 2147483647) :
    ∃ w1 w2, inode_remove w p = some w1 ∧ inode_close w1 p = some w2 ∧
      w2.disk = w.disk ∧
      inode_at w2.open_inodes p = some { i with open_cnt := i.open_cnt - 1, removed := true } ∧
      (∀ q, q ≠ p → inode_at w2.open_inodes q = inode_at w.open_inodes q) ∧
      (∀ mem buffer size offset, 0 ≤ offset → offset < 2147483648 →
        (inode_read_at mem w2 p buffer size offset).map Prod.snd =
          (inode_read_at mem w p buffer size offset).map Prod.snd) ∧
      (∀ stack mem buffer size offset, 0 ≤ offset → offset < 2147483648 →
        (inode_write_at stack mem w2 p buffer size offset).map
            (fun r => (r.1.disk, (inode_at r.1.open_inodes p).map inode.data, r.2)) =
          (inode_write_at stack mem w p buffer size offset).map
            (fun r => (r.1.disk, (inode_at r.1.open_inodes p).map inode.data, r.2))) ∧
      (∀ (v v' : World) (op : Op) (q : Nat) (j j' : inode),
        (open_addrs v.open_inodes).Nodup → step v op = some v' →
        inode_at v.open_inodes q = some j → j.removed = true →
        inode_at v'.open_inodes q = some j' → j'.removed = true) := by
  have h1 := inode_at_store_same w.open_inodes p i { i with removed := true } hp
  have h2 := inode_at_store_same (inode_store w.open_inodes p { i with removed := true }) p
    { i with removed := true } { i with open_cnt := i.open_cnt - 1, removed := true } h1
  have hne : i.open_cnt - 1 ≠ 0 := by omega
  have e := to_int_of_range (i.open_cnt - 1) (by omega) (by omega)
  refine ⟨{ w with open_inodes := inode_store w.open_inodes p { i with removed := true } },
    { w with open_inodes := (inode_store w.open_inodes p
        ({ i with open_cnt := i.open_cnt - 1, removed := true })) }, ?_, ?_, rfl, ?_, ?_, ?_, ?_,
    ?_⟩
  · simp [inode_remove, hp]
  · simp [inode_close, h1, e, hne, inode_store_store]
  · exact inode_at_store_same _ _ _ _ hp
  · intro q hq
    exact inode_at_store_other _ _ _ _ hq
  · intro mem buffer size offset _ _
    have h3 := inode_at_store_same w.open_inodes p i
      { i with open_cnt := i.open_cnt - 1, removed := true } hp
    simp only [inode_read_at, h3, hp]
    cases while_loop (inode_read_body mem w.disk i.data) (size.toNat + 1)
      { buffer := buffer, size := size, offset := offset, bytes_read := 0, bounce := false } with
    | none => rfl
    | some r => rfl
  · intro stack mem buffer size offset _ _
    have h3 := inode_at_store_same w.open_inodes p i
      { i with open_cnt := i.open_cnt - 1, removed := true } hp
    simp only [inode_write_at, h3, hp]
    by_cases hd : i.deny_write_cnt = 0
    · simp only [hd, ne_eq, not_true_eq_false, if_false]
      cases while_loop (inode_write_body stack mem buffer i.sector) (size.toNat + 2)
        { disk := w.disk, data := i.data, size := size, offset := offset,
          bytes_written := 0, bounce := false } with
      | none => rfl
      | some r =>
        obtain ⟨d, data, n⟩ := r
        simp only [Option.map_some', inode_store_store]
        rw [inode_at_store_same _ _ _ _ hp, inode_at_store_same _ _ _ _ hp]
        rfl
    · simp [hd, h3, hp]
  · intro v v' op q j j' hn hs hj hr hj'
    exact table_step_removed _ _ hn (step_table v v' op hn hs) q j j' hj hr hj'

/-- C10, at a concrete input: the 10-byte file with two openers; after the remove and one
close a read of 4 bytes at offset 8 returns the same 2 bytes as before. -/
theorem deferred_removal_witness :
    2 ≤ small_inode.open_cnt ∧
    ∃ w1 w2, inode_remove small_world 0 = some w1 ∧ inode_close w1 0 = some w2 ∧
      w2.disk = small_world.disk ∧
      inode_at w2.open_inodes 0 =
        some { small_inode with open_cnt := small_inode.open_cnt - 1, removed := true } ∧
      (inode_read_at true w2 0 zeros 4 8).map Prod.snd =
        (inode_read_at true small_world 0 zeros 4 8).map Prod.snd ∧
      (inode_read_at true small_world 0 zeros 4 8).map (fun r => r.2.2) = some 2 := by
  obtain ⟨w1, w2, h1, h2, h3, h4, -, h6, -⟩ :=
    deferred_removal small_world 0 small_inode rfl (by decide) (by decide)
  exact ⟨by decide, w1, w2, h1, h2, h3, h4, h6 true zeros 4 8 (by decide) (by decide),
    by decide!⟩

/-! ## C11: balanced open and close -/

/-- C11: for a home sector `s` inside the device that is not open, memory available, and
`1 ≤ N < 2^31`: `N` calls of `inode_open (s)` followed by `N` calls of `inode_close` on the
inode they returned leave the world, and with it the table of open inodes, exactly as it was;
after only `k < N` of the closes the table is the old one with the inode of `s` in front,
`open_cnt = N - k`; and each of the opens returns the same inode. -/
theorem balanced_open_close (w : World) (s N k : Nat) (hN : 1 ≤ N) (hN2 : N < 2147483648)
    (hs : s ∉ open_sectors w.open_inodes) (hdev : s < w.disk.fs_device_size) (hk : k < N) :
    run w (List.replicate N (Op.inode_open true s)
        ++ List.replicate N (Op.inode_close (fresh_addr w.open_inodes))) = some w ∧
    run w (List.replicate N (Op.inode_open true s)
        ++ List.replicate k (Op.inode_close (fresh_addr w.open_inodes)))
      = some (opened w s (N - k)) ∧
    (run w (List.replicate k (Op.inode_open true s))).bind (fun v => inode_open true v s)
      = some (opened w s (k + 1), some (fresh_addr w.open_inodes)) := by
  obtain ⟨n, rfl⟩ : ∃ n, N = n + 1 := ⟨N - 1, by omega⟩
  have hopen : ∀ j : Nat, j ≤ n → run w (List.replicate (j + 1) (Op.inode_open true s))
      = some (opened w s (j + 1)) := by
    intro j hj
    simp only [List.replicate_succ, run, step, inode_open_fresh w s hs hdev, Option.map_some']
    rw [run_reopen w s j 1 (by omega) (by omega)]
    congr 2
    ring
  refine ⟨?_, ?_, ?_⟩
  · rw [run_append, hopen n (le_refl _), Option.some_bind, List.replicate_succ', run_append,
      run_close w s n _ (by omega) (by omega)]
    simp only [Option.some_bind, run, step]
    have : ((n : Int) + 1 - n) = 1 := by ring
    rw [this, inode_close_opened_last]
  · rw [run_append, hopen n (le_refl _), Option.some_bind,
      run_close w s k _ (by omega) (by omega)]
    congr 2
  · cases k with
    | zero =>
      simp only [List.replicate_zero, run, Option.some_bind]
      rw [inode_open_fresh w s hs hdev]
      rfl
    | succ j =>
      rw [hopen j (by omega), Option.some_bind,
        inode_open_opened true w s _ (by omega) (by omega)]
      congr 3

/-- C11, at a concrete input: three opens of the home sector 17 on the fresh device, then
one close, then all three. -/
theorem balanced_open_close_witness :
    17 ∉ open_sectors fresh_world.open_inodes ∧
    run fresh_world (List.replicate 3 (Op.inode_open true 17)
        ++ List.replicate 3 (Op.inode_close (fresh_addr fresh_world.open_inodes)))
      = some fresh_world ∧
    run fresh_world (List.replicate 3 (Op.inode_open true 17)
        ++ List.replicate 1 (Op.inode_close (fresh_addr fresh_world.open_inodes)))
      = some (opened fresh_world 17 (3 - 1)) :=
  ⟨by decide,
    (balanced_open_close fresh_world 17 3 1 (by decide) (by decide) (by decide) (by decide)
      (by decide)).1,
    (balanced_open_close fresh_world 17 3 1 (by decide) (by decide) (by decide) (by decide)
      (by decide)).2.1⟩

/-! ## C12: a failed growth publishes nothing -/

set_option maxRecDepth 1000000 in
/-- C12 (refuted at an input): a file of 633 sectors (324096 bytes) is created on the fresh
device and opened; 61 sectors are left in the free map and no opener denies writes.  A write
of 31744 bytes at the end of the file needs 62 more sectors.  It does not return 0 with the
length unchanged: `inode_allocate` reads the double-indirect sector, finds the stack image
the creation stored there and reads a device sector that does not exist. -/
theorem failed_growth_panics :
    ∃ w p, create_open stack_image true fresh_world 17 324096 false = some (w, p) ∧
      (w.disk.free_map.free.length = 61 ∧
        (inode_at w.open_inodes p).map (fun i => (i.deny_write_cnt, inode_length i))
          = some (0, 324096) ∧
        bytes_to_sectors (324096 + 31744) = 633 + 62) ∧
      inode_write_at stack_image true w p two_sectors 31744 324096 = none :=
  exists_of_check _ _ (by decide!)

/-! ## C13: the growth ceiling -/

/-- C13 (refuted at an input): on a zeroed device whose free map holds 20000 sectors, more
than the largest file takes, `inode_allocate` from an empty record and `inode_create`, both
for 17016 * 512 + 1 bytes, do not return false: they run through every slot of the
double-indirect sector and end in `NOT_REACHED`, the kernel panic in front of the
`return false` written for this case. -/
theorem allocate_above_ceiling_aborts :
    (roomy_world.disk.free_map.free.length = 20000 ∧
      inode_allocate stack_image roomy_world.disk zeros 8712193 = none) ∧
    inode_create stack_image true roomy_world 17 8712193 false = none := by
  have hfree : roomy_world.disk.free_map.free.length = 20000 := by
    simp [roomy_world]
  refine ⟨⟨hfree, ?_⟩, ?_⟩
  · cases h : inode_allocate stack_image roomy_world.disk zeros 8712193 with
    | none => rfl
    | some r =>
      obtain ⟨b, inoded', d'⟩ := r
      exfalso
      have h1 := (inode_allocate_above_ceiling _ _ _ _ _ _ _ (by decide) (by decide) h).2
      have h2 := inode_allocate_taken _ _ _ _ _ _ _ h
      rw [h1, hfree] at h2
      simp at h2
  · cases h : inode_create stack_image true roomy_world 17 8712193 false with
    | none => rfl
    | some r =>
      obtain ⟨b, w'⟩ := r
      exfalso
      obtain ⟨inoded', d', ha, -⟩ := inode_create_alloc _ _ _ _ _ _ _ (by decide) (by decide) h
      have h1 := (inode_allocate_above_ceiling _ _ _ _ _ _ _ (by decide) (by decide) ha).2
      have h2 := inode_allocate_taken _ _ _ _ _ _ _ ha
      rw [h1, hfree] at h2
      simp at h2

/-! ## C14: the magic field on open -/

/-- C14 (as amended): `inode_open` does not look at the magic field.  For every home sector
inside the device that is not open, with memory available and whatever the magic field `m`
of the record holds, `inode_open` returns a new inode, installed in front of the table, with
`open_cnt = 1`, `removed = false`, `deny_write_cnt = 0` and the contents of the sector,
magic field included, as its cached record. -/
theorem inode_open_any_magic (w : World) (s m : Nat) (hs : s ∉ open_sectors w.open_inodes)
    (hdev : s < w.disk.fs_device_size) (hm : disk_magic (w.disk.fs_device s) = m) :
    inode_open true w s = some (opened w s 1, some (fresh_addr w.open_inodes)) ∧
    inode_at (opened w s 1).open_inodes (fresh_addr w.open_inodes) =
      some { sector := s, open_cnt := 1, removed := false, deny_write_cnt := 0,
             data := w.disk.fs_device s } ∧
    disk_magic (w.disk.fs_device s) = m := by
  refine ⟨inode_open_fresh w s hs hdev, ?_, hm⟩
  simp [opened, inode_at]

/-- C14, the claim refuted at an input: sector 17 of the fresh device is all zeros, its magic
field is 0 and not 0x494e4f44, and `inode_open (17)` returns an inode and installs it. -/
theorem inode_open_zero_magic :
    disk_magic (fresh_world.disk.fs_device 17) ≠ INODE_MAGIC ∧
    inode_open true fresh_world 17 = some (opened fresh_world 17 1, some 0) ∧
    (opened fresh_world 17 1).open_inodes.length = 1 :=
  ⟨by decide, inode_open_fresh fresh_world 17 (by decide) (by decide), rfl⟩

/-- C14 as amended, at a concrete input: the zeroed sector 17 of the fresh device. -/
theorem inode_open_any_magic_witness :
    disk_magic (fresh_world.disk.fs_device 17) = 0 ∧
    inode_open true fresh_world 17
      = some (opened fresh_world 17 1, some (fresh_addr fresh_world.open_inodes)) :=
  ⟨by decide,
    (inode_open_any_magic fresh_world 17 0 (by decide) (by decide) (by decide)).1⟩

/-! ## C15: the deny count -/

/-- C15 (as amended): in every state reached from `inode_init` by fewer than 2^31 calls that
do not panic, every inode in the table has `deny_write_cnt ≥ 0`; and it has
`deny_write_cnt ≤ open_cnt` when the calls keep to the rule stated with `inode_allow_write`,
that an opener who denied writes allows them again before it closes: no `inode_close` of an
inode that stays open finds `deny_write_cnt = open_cnt`. -/
theorem deny_count_invariant (w0 : World) (ops : List Op) (w : World)
    (hrun : run (inode_init w0) ops = some w) (hlen : ops.length < 2147483648) :
    (∀ e ∈ w.open_inodes, 0 ≤ e.2.deny_write_cnt) ∧
    (disciplined (inode_init w0) ops = true →
      ∀ e ∈ w.open_inodes, e.2.deny_write_cnt ≤ e.2.open_cnt) := by
  have hok := (inode_init_table w0).1
  have hcnt := (inode_init_table w0).2
  have h1 : ∀ e ∈ (inode_init w0).open_inodes, e.2.deny_write_cnt ≤ e.2.open_cnt := by
    intro e he; simp [inode_init] at he
  obtain ⟨-, k2⟩ := run_table_ok ops 0 _ _ (le_refl _) hok hcnt (by omega) hrun
  exact ⟨fun e he => (k2 e he).2.1,
    fun hd => run_deny_le ops 0 _ _ (le_refl _) hok hcnt h1 (by omega) hd hrun⟩

/-- C15, the claim refuted at an input: open, reopen, two calls of `inode_deny_write` (one
for each opener) and one `inode_close` pass every assertion and leave the inode in the table
with `open_cnt = 1` and `deny_write_cnt = 2`. -/
theorem deny_count_exceeds_open_cnt :
    (run (inode_init small_world)
        [Op.inode_open true 5, Op.inode_reopen 0, Op.inode_deny_write 0,
          Op.inode_deny_write 0, Op.inode_close 0]).map
      (fun w => w.open_inodes.map (fun e => (e.2.open_cnt, e.2.deny_write_cnt)))
      = some [(1, 2)] := by
  decide!

/-- C15 as amended, at a concrete input: open, reopen, deny, allow, close. -/
theorem deny_count_invariant_witness :
    ∃ w, run (inode_init small_world)
        [Op.inode_open true 5, Op.inode_reopen 0, Op.inode_deny_write 0,
          Op.inode_allow_write 0, Op.inode_close 0] = some w ∧
      disciplined (inode_init small_world)
        [Op.inode_open true 5, Op.inode_reopen 0, Op.inode_deny_write 0,
          Op.inode_allow_write 0, Op.inode_close 0] = true ∧
      w.open_inodes.map (fun e => (e.2.open_cnt, e.2.deny_write_cnt)) = [(1, 0)] ∧
      (∀ e ∈ w.open_inodes, 0 ≤ e.2.deny_write_cnt) ∧
      (∀ e ∈ w.open_inodes, e.2.deny_write_cnt ≤ e.2.open_cnt) :=
  (exists_of_map (run (inode_init small_world)
      [Op.inode_open true 5, Op.inode_reopen 0, Op.inode_deny_write 0,
        Op.inode_allow_write 0, Op.inode_close 0])
    (fun w => w.open_inodes.map (fun e => (e.2.open_cnt, e.2.deny_write_cnt)) = [(1, 0)])
    (by decide!)).elim
    (fun w hw => ⟨w, hw.1, by decide!, hw.2,
      (deny_count_invariant small_world _ w hw.1 (by decide)).1,
      (deny_count_invariant small_world _ w hw.1 (by decide)).2 (by decide!)⟩)

/-! ## C16: the length never shrinks -/

/-- C16: for an open inode with a length that is not negative and a call with `size ≥ 0` and
`offset ≥ 0` (both of type `off_t`): whenever `inode_write_at` returns, with the full count,
with 0 because writes are denied, or short, the inode is still in the table and its length
is at least what it was; whenever `inode_read_at` returns, the inode is unchanged. -/
theorem length_monotone (stack : Sector) (mem : Bool) (w : World) (p : Nat) (i : inode)
    (buffer : Buffer) (size offset : Int) (hp : inode_at w.open_inodes p = some i)
    (hsize : 0 ≤ size) (hsz : size < 2147483648) (hoff : 0 ≤ offset)
    (hoff2 : offset < 2147483648) (hlen : 0 ≤ inode_length i) :
    (∀ w' n, inode_write_at stack mem w p buffer size offset = some (w', n) →
      ∃ i', inode_at w'.open_inodes p = some i' ∧ inode_length i ≤ inode_length i') ∧
    (∀ w' out n, inode_read_at mem w p buffer size offset = some (w', out, n) →
      inode_at w'.open_inodes p = some i) := by
  constructor
  · intro w' n h
    by_cases hd : i.deny_write_cnt = 0
    · obtain ⟨data', h1, h2⟩ := inode_write_at_post stack mem w w' p i buffer size offset n hp hd
        hoff hoff2 hsize hsz hlen h
      exact ⟨_, h1, h2.1⟩
    · unfold inode_write_at at h
      rw [hp] at h
      simp only [ne_eq, hd, not_false_eq_true, if_true, Option.some.injEq, Prod.mk.injEq] at h
      rw [← h.1]
      exact ⟨i, hp, le_refl _⟩
  · intro w' out n h
    unfold inode_read_at at h
    rw [hp] at h
    simp only [] at h
    split at h
    · simp at h
    · simp only [Option.some.injEq, Prod.mk.injEq] at h
      rw [← h.1]
      exact hp

set_option maxRecDepth 100000 in
/-- C16, at a concrete input: 4 bytes written at offset 8 of the 10-byte file of
`opened_world`, which grows the file. -/
theorem length_monotone_witness :
    ∃ w' n, inode_write_at stack_image true opened_world 0 two_sectors 4 8 = some (w', n) ∧
      ∃ i', inode_at w'.open_inodes 0 = some i' ∧
        inode_length { sector := 5, open_cnt := 1, removed := false, deny_write_cnt := 0,
                       data := small_record } ≤ inode_length i' := by
  obtain ⟨w', n, hw, -⟩ := exists_of_check
    (inode_write_at stack_image true opened_world 0 two_sectors 4 8)
    (fun _ n => n = 4) (by decide!)
  exact ⟨w', n, hw, (length_monotone stack_image true opened_world 0
    { sector := 5, open_cnt := 1, removed := false, deny_write_cnt := 0,
      data := small_record } two_sectors 4 8 rfl (by decide) (by decide) (by decide)
    (by decide) (by decide!)).1 w' n hw⟩

/-! ## C17: how many sectors an allocation takes -/

/-- C17: a successful `inode_allocate` has a target of `N ≤ 17016` sectors.  From a record
whose pointer slots are all empty it takes exactly `sectors_taken N` sectors from the front
of the free list: the `N` data sectors and the table sectors of the claim (none for
`N ≤ 120`, where the indirect slots stay empty).  From a record whose 120 direct slots are in
use and whose first indirect slot is empty, for `N = 121` it takes exactly two sectors: the
first becomes the indirect sector, the second the data sector in its slot 0. -/
theorem allocation_count (stack : Sector) (d d' : Disk) (inoded inoded' : inode_disk)
    (length : Int) (hsz : d.fs_device_size ≤ 4294967296)
    (h : inode_allocate stack d inoded length = some (true, inoded', d')) :
    bytes_to_sectors length ≤ 17016 ∧
    ((∀ m, m < 125 → get_word inoded m = 0) →
      d'.free_map.free = d.free_map.free.drop (sectors_taken (bytes_to_sectors length)) ∧
      sectors_taken (bytes_to_sectors length) ≤ d.free_map.free.length ∧
      (bytes_to_sectors length ≤ 120 → ∀ i, i < 4 → indirect_pointer inoded' i = 0)) ∧
    ((∀ m, m < 120 → get_word inoded m ≠ 0) → get_word inoded 120 = 0 →
      bytes_to_sectors length = 121 →
      ∃ s1 s2 rest, d.free_map.free = s1 :: s2 :: rest ∧ d'.free_map.free = rest ∧
        indirect_pointer inoded' 0 = s1 ∧ get_word (d'.fs_device s1) 0 = s2 ∧
        ∀ m, m ≠ 120 → get_word inoded' m = get_word inoded m) := by
  refine ⟨(inode_allocate_basic _ _ _ _ _ _ _ h).2.2.2.1 rfl, ?_, ?_⟩
  · intro hz
    obtain ⟨c1, c2⟩ := inode_allocate_count stack d d' inoded inoded' length hsz h hz
    refine ⟨c1, c2, ?_⟩
    intro hN i hi
    have hf := inode_allocate_direct_only _ _ _ _ _ _ _ h hN
    show get_word inoded' (NUM_OF_DIRECT_POINTER + i) = 0
    rw [get_word_congr inoded' inoded _ (fun q hq => hf q (by
      simp only [NUM_OF_DIRECT_POINTER] at hq; omega))]
    exact hz _ (by simp only [NUM_OF_DIRECT_POINTER]; omega)
  · intro hd hi hN
    exact inode_allocate_first_indirect stack d d' inoded inoded' length hsz h hN hd hi

set_option maxRecDepth 1000000 in
/-- C17, at concrete inputs on the fresh device: a file of 250 sectors from the empty
record takes 252 sectors; growing a file of 120 sectors by one takes two; and an empty file
written with one byte at offset 120 * 512 - 1 and one more at offset 120 * 512 leaves 580
and then 578 of the 700 free sectors. -/
theorem allocation_count_witness :
    (∃ r, inode_allocate stack_image fresh_world.disk zeros 128000 = some (true, r) ∧
      sectors_taken (bytes_to_sectors 128000) = 250 + 2 ∧
      r.2.free_map.free
        = fresh_world.disk.free_map.free.drop (sectors_taken (bytes_to_sectors 128000))) ∧
    (∃ r, inode_allocate stack_image fresh_world.disk direct_record 61441 = some (true, r) ∧
      ∃ s1 s2 rest, fresh_world.disk.free_map.free = s1 :: s2 :: rest ∧
        r.2.free_map.free = rest ∧ indirect_pointer r.1 0 = s1 ∧
        get_word (r.2.fs_device s1) 0 = s2) ∧
    (create_open stack_image true fresh_world 17 0 false).bind (fun r =>
      (inode_write_at stack_image true r.1 r.2 two_sectors 1 61439).bind (fun a =>
        (inode_write_at stack_image true a.1 r.2 two_sectors 1 61440).map (fun b =>
          (a.2, b.2, a.1.disk.free_map.free.length, b.1.disk.free_map.free.length))))
      = some (1, 1, 580, 578) :=
  ⟨(exists_of_map_true (inode_allocate stack_image fresh_world.disk zeros 128000)
      (fun _ => True) (by decide!)).elim
      (fun r hr => ⟨r, hr.1, by decide!,
        ((allocation_count stack_image fresh_world.disk r.2 zeros r.1 128000 (by decide)
          hr.1).2.1 (fun m _ => by simp [get_word, zeros])).1⟩),
    (exists_of_map_true (inode_allocate stack_image fresh_world.disk direct_record 61441)
      (fun _ => True) (by decide!)).elim
      (fun r hr => ⟨r, hr.1,
        (fun ⟨s1, s2, rest, e1, e2, e3, e4, _⟩ => ⟨s1, s2, rest, e1, e2, e3, e4⟩)
          ((allocation_count stack_image fresh_world.disk r.2 direct_record r.1 61441
            (by decide) hr.1).2.2 (by decide!) (by decide!) (by decide!))⟩),
    by decide!⟩

/-! ## C18: lookup in the double-indirect region -/

/-- C18 (refuted at an input): for the logical sector 633 of the file of `image_disk`, whose
block map is laid out as specified, the specified lookup (`q = 0`, `r = 1`) gives the
device sector 1633, and `_byte_to_sector` returns 1632, the sector of the logical sector
632: it computes the slots as `(i - 632) / 512 / 4` and `(i - 632) % 512 / 4`. -/
theorem lookup_double_wrong_slot :
    _byte_to_sector image_disk image_record 633 = some 1632 ∧
    spec_lookup_double image_disk image_record 633 = some 1633 := by
  decide!

/-! ## C19: lookup in the direct and indirect regions -/

/-- C19: `_byte_to_sector` returns `direct_pointer [i]` for `0 ≤ i < 120`; for
`120 ≤ i < 632` it returns slot `(i - 120) mod 128` of the device sector named by
`indirect_pointer [(i - 120) / 128]`, when that sector is inside the device. -/
theorem lookup_direct_indirect (d : Disk) (inoded : inode_disk) (i : Int) :
    (0 ≤ i → i < 120 → _byte_to_sector d inoded i = some (direct_pointer inoded i.toNat)) ∧
    (120 ≤ i → i < 632 →
      indirect_pointer inoded ((i - 120) / 128).toNat < d.fs_device_size →
      _byte_to_sector d inoded i =
        some (get_word (d.fs_device (indirect_pointer inoded ((i - 120) / 128).toNat))
          ((i - 120) % 128).toNat)) := by
  refine ⟨_byte_to_sector_direct d inoded i, ?_⟩
  intro h0 h1 hdev
  rw [_byte_to_sector_indirect d inoded i h0 h1, block_read_some _ _ hdev]
  rfl

/-- C19, at concrete inputs: the logical sectors 7 and 250 of the file of `image_disk`. -/
theorem lookup_direct_indirect_witness :
    _byte_to_sector image_disk image_record 7
      = some (direct_pointer image_record (7 : Int).toNat) ∧
    _byte_to_sector image_disk image_record 250 =
      some (get_word (image_disk.fs_device
        (indirect_pointer image_record (((250 : Int) - 120) / 128).toNat))
          (((250 : Int) - 120) % 128).toNat) :=
  ⟨(lookup_direct_indirect image_disk image_record 7).1 (by decide) (by decide),
    (lookup_direct_indirect image_disk image_record 250).2 (by decide) (by decide)
      (by decide!)⟩

/-! ## C20: every published sector is backed -/

/-- C20 (refuted): after every successful `inode_create` of more than 632 sectors, on a
device smaller than the kernel address found at `&level1ptr` and with a home sector that is
not free, the logical sector 632 lies below the published length and its lookup does not
return a sector: it panics in `block_read`. -/
theorem published_sector_unbacked (stack : Sector) (mem : Bool) (w w' : World) (sector : Nat)
    (length : Int) (is_dir : Bool)
    (h : inode_create stack mem w sector length is_dir = some (true, w'))
    (hlen : 323584 < length) (hlen2 : length < 2147483648)
    (hhome : sector ∉ w.disk.free_map.free)
    (hheap : w.disk.fs_device_size ≤ get_word stack 0) :
    (632 : Int) < bytes_to_sectors (inode_length
      { sector := sector, open_cnt := 1, removed := false, deny_write_cnt := 0,
        data := w'.disk.fs_device sector }) ∧
    _byte_to_sector w'.disk (w'.disk.fs_device sector) 632 = none := by
  have hsz : w.disk.fs_device_size ≤ 4294967296 := by
    have := get_word_lt stack 0
    omega
  obtain ⟨inoded', d', ha, hw⟩ := inode_create_true stack mem w w' sector length is_dir
    (by omega) hlen2 h
  have hfresh := inode_allocate_double_fresh stack w.disk d' _ inoded' length hsz ha
    (bytes_to_sectors_gt _ hlen hlen2) (by
      rw [get_word_set_is_dir _ _ _ (by decide)]
      unfold set_magic set_length
      rw [get_word_set_word_other _ _ _ _ (by decide),
        get_word_set_word_other _ _ _ _ (by decide)]
      exact get_word_zeros 124)
  obtain ⟨-, w2, -, w4⟩ := block_write_eq_some _ _ _ _ hw
  have hrec : w'.disk.fs_device sector = fun k => if k < 512 then inoded' k else 0 := by
    rw [w4]; simp
  have hdbl : double_indirect_pointer (w'.disk.fs_device sector)
      = double_indirect_pointer inoded' := by
    rw [hrec]; exact get_word_block _ _ (by decide)
  have hhome' : sector ≠ double_indirect_pointer (w'.disk.fs_device sector) := by
    rw [hdbl]
    intro hc
    exact hhome (hc ▸ hfresh)
  have hsize : w'.disk.fs_device_size = w.disk.fs_device_size := by
    rw [w2, (inode_allocate_basic _ _ _ _ _ _ _ ha).1.1]
  obtain ⟨h1, h2, h3⟩ := inode_create_double stack mem w w' sector length is_dir h hlen hlen2
    hhome'
  constructor
  · show (632 : Int) < bytes_to_sectors (disk_length (w'.disk.fs_device sector))
    rw [h1]
    have := bytes_to_sectors_gt _ hlen hlen2
    omega
  · rw [_byte_to_sector_double_first, block_read_some _ _ h2, h3]
    simp only [Option.some_bind]
    rw [get_word_block _ _ (by decide)]
    unfold block_read
    rw [if_neg (by omega)]
    rfl

set_option maxRecDepth 1000000 in
/-- C20, at a concrete input: a file of 634 sectors created on the fresh device. -/
theorem published_sector_unbacked_witness :
    17 ∉ fresh_world.disk.free_map.free ∧
    fresh_world.disk.fs_device_size ≤ get_word stack_image 0 ∧
    ∃ w, inode_create stack_image true fresh_world 17 324608 false = some (true, w) ∧
      _byte_to_sector w.disk (w.disk.fs_device 17) 632 = none :=
  ⟨by decide!, by decide!,
    (exists_of_map_true (inode_create stack_image true fresh_world 17 324608 false)
      (fun _ => True) (by decide!)).elim
      (fun w hw => ⟨w, hw.1,
        (published_sector_unbacked stack_image true fresh_world w 17 324608 false hw.1
          (by decide) (by decide) (by decide!) (by decide!)).2⟩)⟩

/-! ## C21: the double-indirect sector after allocation -/

/-- C21 (refuted): after every successful `inode_allocate` of more than 632 sectors the
device sector named by the double-indirect pointer of the record holds the 512 bytes of
kernel stack found at `&level1ptr`, not the level-1 table: each of its 128 slots is the
corresponding word of the stack, and on a device smaller than the kernel address in the
first word its slot 0 is not the number of a sector of the device. -/
theorem double_indirect_holds_stack (stack : Sector) (d d' : Disk)
    (inoded inoded' : inode_disk) (length : Int)
    (h : inode_allocate stack d inoded length = some (true, inoded', d'))
    (hn : 632 < bytes_to_sectors length) (hheap : d.fs_device_size ≤ get_word stack 0) :
    double_indirect_pointer inoded' < d'.fs_device_size ∧
    d'.fs_device (double_indirect_pointer inoded') = (fun j => if j < 512 then stack j else 0) ∧
    (∀ j, j < 128 →
      get_word (d'.fs_device (double_indirect_pointer inoded')) j = get_word stack j) ∧
    d'.fs_device_size ≤ get_word (d'.fs_device (double_indirect_pointer inoded')) 0 := by
  obtain ⟨h1, h2⟩ := inode_allocate_true_double stack d d' inoded inoded' length h hn
  have hs : d'.fs_device_size = d.fs_device_size :=
    (inode_allocate_basic _ _ _ _ _ _ _ h).1.1
  refine ⟨h1, h2, fun j hj => ?_, ?_⟩
  · rw [h2]
    exact get_word_block _ _ hj
  · rw [h2, get_word_block _ _ (by decide), hs]
    exact hheap

set_option maxRecDepth 1000000 in
/-- C21, at a concrete input: an empty record grown to 633 sectors on the fresh device.  The
call takes the sectors 18 to 656 in order: sector 654 for the double-indirect table, sector
655 for the indirect sector of its slot 0, whose slot 0 names the data sector 656.  Slot 0 of
sector 654 holds the kernel address 0xc0109000 and not 655. -/
theorem double_indirect_holds_stack_witness :
    fresh_world.disk.fs_device_size ≤ get_word stack_image 0 ∧
    ∃ r, inode_allocate stack_image fresh_world.disk empty_record 324096 = some (true, r) ∧
      (double_indirect_pointer r.1 = 654 ∧ get_word (r.2.fs_device 655) 0 = 656 ∧
        r.2.free_map.free.head? = some 657) ∧
      get_word (r.2.fs_device (double_indirect_pointer r.1)) 0 = get_word stack_image 0 ∧
      r.2.fs_device_size ≤ get_word (r.2.fs_device (double_indirect_pointer r.1)) 0 :=
  ⟨by decide!,
    (exists_of_map_true (inode_allocate stack_image fresh_world.disk empty_record 324096)
      (fun r => double_indirect_pointer r.1 = 654 ∧ get_word (r.2.fs_device 655) 0 = 656 ∧
        r.2.free_map.free.head? = some 657) (by decide!)).elim
      (fun r hr => ⟨r, hr.1, hr.2,
        (double_indirect_holds_stack stack_image fresh_world.disk r.2 empty_record r.1 324096
          hr.1 (by decide!) (by decide!)).2.2.1 0 (by decide),
        (double_indirect_holds_stack stack_image fresh_world.disk r.2 empty_record r.1 324096
          hr.1 (by decide!) (by decide!)).2.2.2⟩)⟩

/-! ## C22: allocation never shrinks -/

/-- C22: whenever `inode_allocate` returns, with true or with false, every pointer slot of the
record that was not 0 before the call holds the same value after it, the length, the
directory flag and the magic number of the record are as before, the log of the calls of
`free_map_release` is as before, and the free list is a tail of the old one. -/
theorem allocation_never_shrinks (stack : Sector) (d d' : Disk) (inoded inoded' : inode_disk)
    (length : Int) (b : Bool)
    (h : inode_allocate stack d inoded length = some (b, inoded', d')) :
    (∀ i, i < 120 → direct_pointer inoded i ≠ 0 →
      direct_pointer inoded' i = direct_pointer inoded i) ∧
    (∀ i, i < 4 → indirect_pointer inoded i ≠ 0 →
      indirect_pointer inoded' i = indirect_pointer inoded i) ∧
    (double_indirect_pointer inoded ≠ 0 →
      double_indirect_pointer inoded' = double_indirect_pointer inoded) ∧
    disk_length inoded' = disk_length inoded ∧ disk_is_dir inoded' = disk_is_dir inoded ∧
    disk_magic inoded' = disk_magic inoded ∧
    d'.free_map.released = d.free_map.released ∧
    ∃ c, d'.free_map.free = d.free_map.free.drop c := by
  have hk := inode_allocate_keep _ _ _ _ _ _ _ h
  obtain ⟨⟨-, f2, f3, -⟩, hrec, -⟩ := inode_allocate_basic _ _ _ _ _ _ _ h
  refine ⟨fun i _ hi => hk i hi, fun i _ hi => hk _ hi, fun hi => hk _ hi, ?_, ?_, ?_, f2, f3⟩
  · exact disk_length_congr _ _ (fun m hm => hrec m hm)
  · unfold disk_is_dir
    rw [hrec 504 (by decide)]
  · exact get_word_congr _ _ _ (fun k hk => hrec k (by omega))

set_option maxRecDepth 1000000 in
/-- C22, at concrete inputs: a record whose 120 direct slots are in use is grown to 123
sectors with two free sectors left, which fails after the indirect sector and one data sector
were taken, and to 121 sectors on the fresh device, which succeeds. -/
theorem allocation_never_shrinks_witness :
    (∃ b r, inode_allocate stack_image scarce_world.disk direct_record 62900 = some (b, r) ∧
      (b = false ∧ indirect_pointer r.1 0 = 18 ∧ r.2.free_map.free = []) ∧
      direct_pointer r.1 7 = direct_pointer direct_record 7 ∧
      disk_length r.1 = disk_length direct_record ∧
      r.2.free_map.released = scarce_world.disk.free_map.released) ∧
    ∃ b r, inode_allocate stack_image fresh_world.disk direct_record 61441 = some (b, r) ∧
      (b = true ∧ indirect_pointer r.1 0 = 18) ∧
      direct_pointer r.1 119 = direct_pointer direct_record 119 :=
  ⟨(exists_of_check (inode_allocate stack_image scarce_world.disk direct_record 62900)
      (fun b r => b = false ∧ indirect_pointer r.1 0 = 18 ∧ r.2.free_map.free = [])
      (by decide!)).elim
      (fun b hb => hb.elim (fun r hr => ⟨b, r, hr.1, hr.2,
        (allocation_never_shrinks stack_image scarce_world.disk r.2 direct_record r.1 62900 b
          hr.1).1 7 (by decide) (by decide),
        (allocation_never_shrinks stack_image scarce_world.disk r.2 direct_record r.1 62900 b
          hr.1).2.2.2.1,
        (allocation_never_shrinks stack_image scarce_world.disk r.2 direct_record r.1 62900 b
          hr.1).2.2.2.2.2.2.1⟩)),
    (exists_of_check (inode_allocate stack_image fresh_world.disk direct_record 61441)
      (fun b r => b = true ∧ indirect_pointer r.1 0 = 18) (by decide!)).elim
      (fun b hb => hb.elim (fun r hr => ⟨b, r, hr.1, hr.2,
        (allocation_never_shrinks stack_image fresh_world.disk r.2 direct_record r.1 61441 b
          hr.1).1 119 (by decide) (by decide)⟩))⟩

/-! ## C23: allocating again -/

/-- C23 (refuted): a second `inode_allocate` for more than 632 sectors after a successful
one does not succeed.  The first call left the stack image in the double-indirect sector; on
a device smaller than the kernel address in its first word, with the double-indirect sector
in use (not 0, not free, not one of the indirect sectors), the second call never returns
true, whatever its target above 632 sectors: it panics in `block_read`, or returns false
earlier because the free map is empty. -/
theorem reallocate_fails (stack : Sector) (d d1 : Disk) (inoded r1 : inode_disk) (t t' : Int)
    (h : inode_allocate stack d inoded t = some (true, r1, d1))
    (hn : 632 < bytes_to_sectors t) (hn' : 632 < bytes_to_sectors t')
    (hheap : d.fs_device_size ≤ get_word stack 0)
    (hD0 : double_indirect_pointer r1 ≠ 0)
    (hfree : double_indirect_pointer r1 ∉ d1.free_map.free)
    (hind : ∀ i, i < 4 → indirect_pointer r1 i ≠ double_indirect_pointer r1) :
    ∀ (b : Bool) (r2 : inode_disk) (d2 : Disk),
      inode_allocate stack d1 r1 t' = some (b, r2, d2) →
      b = false ∧ d2.free_map.free = [] := by
  intro b r2 d2 h2
  obtain ⟨h1, hst⟩ := inode_allocate_true_double stack d d1 inoded r1 t h hn
  have hsize : d1.fs_device_size = d.fs_device_size :=
    (inode_allocate_basic _ _ _ _ _ _ _ h).1.1
  cases b with
  | true =>
    exact absurd h2 (inode_allocate_stale stack d1 r1 t' hn' (by rw [hsize]; exact hheap) h1
      hst hD0 hfree hind r2 d2)
  | false => exact ⟨rfl, (inode_allocate_basic _ _ _ _ _ _ _ h2).2.2.1 rfl⟩

set_option maxRecDepth 1000000 in
/-- C23, at a concrete input: an empty record is grown to 633 sectors on the fresh device,
which succeeds and leaves 61 sectors free; the same call again panics. -/
theorem reallocate_fails_witness :
    fresh_world.disk.fs_device_size ≤ get_word stack_image 0 ∧
    ∃ r, inode_allocate stack_image fresh_world.disk empty_record 324096 = some (true, r) ∧
      (double_indirect_pointer r.1 ≠ 0 ∧
        double_indirect_pointer r.1 ∉ r.2.free_map.free ∧
        (∀ i ∈ List.range 4, indirect_pointer r.1 i ≠ double_indirect_pointer r.1) ∧
        r.2.free_map.free.length = 61 ∧
        (inode_allocate stack_image r.2 r.1 324096).isNone = true) ∧
      ∀ (b : Bool) (r2 : inode_disk) (d2 : Disk),
        inode_allocate stack_image r.2 r.1 324096 = some (b, r2, d2) →
        b = false ∧ d2.free_map.free = [] :=
  ⟨by decide!,
    (exists_of_map_true (inode_allocate stack_image fresh_world.disk empty_record 324096)
      (fun r => double_indirect_pointer r.1 ≠ 0 ∧
        double_indirect_pointer r.1 ∉ r.2.free_map.free ∧
        (∀ i ∈ List.range 4, indirect_pointer r.1 i ≠ double_indirect_pointer r.1) ∧
        r.2.free_map.free.length = 61 ∧
        (inode_allocate stack_image r.2 r.1 324096).isNone = true) (by decide!)).elim
      (fun r hr => ⟨r, hr.1, hr.2,
        reallocate_fails stack_image fresh_world.disk r.2 empty_record r.1 324096 324096
          hr.1 (by decide!) (by decide!) (by decide!) hr.2.1 hr.2.2.1
          (fun i hi => hr.2.2.2.1 i (List.mem_range.mpr hi))⟩)⟩

/-! ## C24: deallocation and empty slots -/

set_option maxRecDepth 1000000 in
/-- C24, counterexample: a record of length 512 whose direct slot 0 holds 0.  The slot has
logical index 0, below ceil(512/512) = 1, and `inode_deallocate` passes its value, sector
number 0, to `free_map_release`. -/
theorem deallocate_releases_sector_zero :
    direct_pointer hole_record 0 = 0 ∧ 0 < bytes_to_sectors (disk_length hole_record) ∧
    ∃ d', inode_deallocate fresh_world.disk hole_record = some d' ∧
      d'.free_map.released = [0] :=
  ⟨by decide!, by decide!,
    exists_of_map (inode_deallocate fresh_world.disk hole_record)
      (fun d' => d'.free_map.released = [0]) (by decide!)⟩

/-- C24 (amended): whenever `inode_deallocate` returns, it has written nothing to the device
and has passed to `free_map_release` exactly the values of the slots with logical index below
ceil(length/512) and of the structural slots on their path, whatever these values are: it
makes no test for 0.  For a record of at most 120 sectors it returns, and the sectors
released are the values of the direct slots below ceil(length/512), in order. -/
theorem deallocate_releases_path (d : Disk) (inoded : inode_disk) :
    (∀ d', inode_deallocate d inoded = some d' →
      d'.fs_device = d.fs_device ∧ d'.fs_device_size = d.fs_device_size ∧
      bytes_to_sectors (disk_length inoded) ≤ 17016 ∧
      ∃ l, d'.free_map.released = d.free_map.released ++ l ∧
        ∀ s, s ∈ l ↔
          deallocate_visits d.fs_device inoded (bytes_to_sectors (disk_length inoded)) s) ∧
    (0 ≤ disk_length inoded → bytes_to_sectors (disk_length inoded) ≤ 120 →
      ∃ d', inode_deallocate d inoded = some d' ∧
        d'.free_map.released = d.free_map.released ++
          (List.range (bytes_to_sectors (disk_length inoded))).map (direct_pointer inoded)) := by
  refine ⟨fun d' h => ?_, fun hlen hN => ?_⟩
  · obtain ⟨h1, h2⟩ := inode_deallocate_device d d' inoded h
    obtain ⟨-, h4, h5⟩ := inode_deallocate_released d d' inoded h
    exact ⟨h1, h2, h4, h5⟩
  · have hr := (release_slots_spec inoded (bytes_to_sectors (disk_length inoded)) 0 d).2.2
    refine ⟨release_slots inoded (bytes_to_sectors (disk_length inoded)) 0 d, ?_, ?_⟩
    · unfold inode_deallocate
      rw [if_neg (by omega)]
      simp only [NUM_OF_DIRECT_POINTER]
      by_cases hc : bytes_to_sectors (disk_length inoded) < 120
      · rw [if_pos hc, if_pos (by omega)]
      · have e : bytes_to_sectors (disk_length inoded) = 120 := by omega
        rw [if_neg hc, e, if_pos (by omega)]
    · rw [hr]
      congr 1
      apply List.map_congr_left
      intro j _
      simp [direct_pointer]

set_option maxRecDepth 1000000 in
/-- C24, at concrete inputs, on the fresh device: for a record of 121 sectors whose direct
slots name the sectors 1000 to 1119 and whose first indirect slot holds 0, the call releases
the 120 data sectors, then sector 0 as the indirect sector, then slot 0 of sector 0, read as
its table; the record of length 512 with an empty direct slot has sector 0 released. -/
theorem deallocate_releases_path_witness :
    (∃ d', inode_deallocate fresh_world.disk unbacked_record = some d' ∧
      d'.free_map.released.drop 120 = [0, 0] ∧
      d'.fs_device = fresh_world.disk.fs_device ∧
      ∃ l, d'.free_map.released = fresh_world.disk.free_map.released ++ l ∧
        ∀ s, s ∈ l ↔ deallocate_visits fresh_world.disk.fs_device unbacked_record
          (bytes_to_sectors (disk_length unbacked_record)) s) ∧
    ∃ d', inode_deallocate fresh_world.disk hole_record = some d' ∧
      d'.free_map.released = fresh_world.disk.free_map.released ++
        (List.range (bytes_to_sectors (disk_length hole_record))).map
          (direct_pointer hole_record) :=
  ⟨(exists_of_map (inode_deallocate fresh_world.disk unbacked_record)
      (fun d' => d'.free_map.released.drop 120 = [0, 0]) (by decide!)).elim
      (fun d' hd => ⟨d', hd.1, hd.2,
        ((deallocate_releases_path fresh_world.disk unbacked_record).1 d' hd.1).1,
        ((deallocate_releases_path fresh_world.disk unbacked_record).1 d' hd.1).2.2.2⟩),
    (deallocate_releases_path fresh_world.disk hole_record).2 (by decide!) (by decide!)⟩

/-! ## C25: the assertion of the grow branch -/

/-- C25 (refuted in its last part): in every iteration of the write loop that computes a
chunk of no bytes, `byte_to_sector` has returned -1 (the offset is at or past the length),
so the assertion of the grow branch holds; after a successful growth the loop variables
give a chunk of at least one byte.  But the next iteration does not get to compute it when
the offset lies in the first 2048 sectors of the double-indirect region: on a device smaller
than the kernel address at `&level1ptr`, with the home sector not the double-indirect
sector, its `byte_to_sector` panics in `block_read`. -/
theorem grow_branch_assertion (stack : Sector) (mem : Bool) (buffer : Buffer) (sector : Nat)
    (v : write_vars) (hs : 0 < v.size) (hsz : v.size < 2147483648) (h0 : 0 ≤ v.offset)
    (ho : v.offset < 2147483648) (hlen : 0 ≤ disk_length v.data)
    (hc : chunk_size v.size v.offset (disk_length v.data) ≤ 0) :
    byte_to_sector v.disk v.data v.offset = some SECTOR_NONE ∧
    disk_length v.data ≤ v.offset ∧
    ∀ v', inode_write_body stack mem buffer sector v = some (Sum.inr v') →
      v'.size = v.size ∧ v'.offset = v.offset ∧
      disk_length v'.data = v.offset + v.size ∧
      0 < chunk_size v'.size v'.offset (disk_length v'.data) ∧
      (323584 ≤ v.offset → v.offset < 1372160 →
        v.disk.fs_device_size ≤ get_word stack 0 →
        sector ≠ double_indirect_pointer v'.data →
        inode_write_body stack mem buffer sector v' = none) := by
  have hlen2 := disk_length_lt v.data
  have hmod : 0 ≤ v.offset % 512 ∧ v.offset % 512 < 512 := by omega
  have hle : disk_length v.data ≤ v.offset := by
    have hce := chunk_size_eq v.size v.offset (disk_length v.data) h0 (by omega) (by omega)
    rw [hce] at hc
    generalize hcd : v.size ⊓ ((disk_length v.data - v.offset) ⊓ (512 - v.offset % 512)) = c
      at hc
    obtain ⟨-, -, -, c4⟩ := min3_cases _ _ _ _ hcd
    omega
  have hb := byte_to_sector_eof v.disk v.data v.offset (by omega)
  refine ⟨hb, hle, fun v' h => ?_⟩
  unfold inode_write_body at h
  rw [if_pos hs, hb] at h
  simp only [] at h
  rw [if_pos hc, if_neg (by simp)] at h
  cases ha : inode_allocate stack v.disk v.data (to_off_t (v.offset + v.size)) with
  | none => rw [ha] at h; simp at h
  | some x =>
    obtain ⟨b, data', d'⟩ := x
    rw [ha] at h
    obtain ⟨a1, -, -, -, a5⟩ := inode_allocate_basic _ _ _ _ _ _ _ ha
    have hT : v.offset + v.size < 2147483648 :=
      to_off_t_nonneg _ (by omega) (by omega) a5
    rw [to_off_t_of_range _ (by omega) hT] at ha
    cases b with
    | false => simp at h
    | true =>
      simp only [] at h
      cases hw : block_write d' sector (set_length data' (v.offset + v.size)) with
      | none => rw [hw] at h; simp at h
      | some d2 =>
        rw [hw] at h
        simp only [Option.some.injEq, Sum.inr.injEq] at h
        subst h
        dsimp only
        have hdl : disk_length (set_length data' (v.offset + v.size)) = v.offset + v.size :=
          disk_length_set_length _ _ (by omega) hT
        have hpos : 0 < chunk_size v.size v.offset
            (disk_length (set_length data' (v.offset + v.size))) := by
          rw [hdl, chunk_size_eq v.size v.offset _ h0 (by omega) (by omega)]
          generalize hcd : v.size ⊓ ((v.offset + v.size - v.offset) ⊓ (512 - v.offset % 512))
            = c
          obtain ⟨-, -, -, c4⟩ := min3_cases _ _ _ _ hcd
          omega
        refine ⟨rfl, rfl, hdl, hpos, fun hlo hhi hheap hhome => ?_⟩
        obtain ⟨t1, t2⟩ := inode_allocate_true_double stack v.disk d' v.data data' _ ha
          (bytes_to_sectors_gt _ (by omega) hT)
        obtain ⟨-, w2, -, w4⟩ := block_write_eq_some _ _ _ _ hw
        have hdbl : double_indirect_pointer (set_length data' (v.offset + v.size))
            = double_indirect_pointer data' := by
          unfold double_indirect_pointer set_length
          exact get_word_set_word_other _ _ _ _ (by decide)
        rw [hdbl] at hhome
        have hlook : byte_to_sector d2 (set_length data' (v.offset + v.size)) v.offset
            = none := by
          rw [byte_to_sector_lt _ _ _ (by rw [hdl]; omega), tdiv_sector _ h0,
            _byte_to_sector_double_slot _ _ _ (by omega) (by omega), hdbl,
            block_read_some _ _ (by rw [w2]; exact t1)]
          simp only [Option.some_bind]
          have hsec : d2.fs_device (double_indirect_pointer data')
              = fun j => if j < 512 then stack j else 0 := by
            rw [w4]
            simp only []
            rw [if_neg (fun hc => hhome hc.symm), t2]
          rw [hsec, get_word_block _ _ (by decide)]
          unfold block_read
          rw [if_neg (by rw [w2, a1.1]; omega)]
          rfl
        unfold inode_write_body
        dsimp only
        rw [if_pos hs, hlook]

set_option maxRecDepth 1000000 in
/-- C25, at a concrete input: a one-byte write at offset 323584 into an empty file on the
fresh device.  The first iteration takes the grow branch with the assertion holding and
grows the file to 633 sectors; the second iteration panics in its lookup. -/
theorem grow_branch_assertion_witness :
    chunk_size sparse_write_vars.size sparse_write_vars.offset
      (disk_length sparse_write_vars.data) ≤ 0 ∧
    byte_to_sector sparse_write_vars.disk sparse_write_vars.data sparse_write_vars.offset
      = some SECTOR_NONE ∧
    ∃ v', inode_write_body stack_image true two_sectors 17 sparse_write_vars
        = some (Sum.inr v') ∧
      17 ≠ double_indirect_pointer v'.data ∧
      0 < chunk_size v'.size v'.offset (disk_length v'.data) ∧
      inode_write_body stack_image true two_sectors 17 v' = none :=
  ⟨by decide!,
    (grow_branch_assertion stack_image true two_sectors 17 sparse_write_vars (by decide)
      (by decide) (by decide) (by decide) (by decide!) (by decide!)).1,
    (exists_of_continue (inode_write_body stack_image true two_sectors 17 sparse_write_vars)
      (fun v' => 17 ≠ double_indirect_pointer v'.data) (by decide!)).elim
      (fun v' hv => ⟨v', hv.1, hv.2,
        ((grow_branch_assertion stack_image true two_sectors 17 sparse_write_vars (by decide)
          (by decide) (by decide) (by decide) (by decide!) (by decide!)).2.2 v' hv.1).2.2.2.1,
        ((grow_branch_assertion stack_image true two_sectors 17 sparse_write_vars (by decide)
          (by decide) (by decide) (by decide) (by decide!) (by decide!)).2.2 v' hv.1).2.2.2.2
          (by decide) (by decide) (by decide!) hv.2⟩)⟩

end Pintos
